import Mathlib

/-!
Verification of the dnastore Viterbi decoder (`src/viterbi.cpp`).

This file gives a shallow embedding of the decoder: the input model and
machine-score precomputation, the three-layer (S / D / T) Viterbi matrix
fill with its worklist ε-closure, and the consistency-checked traceback.
IEEE doubles are modelled by exact rationals with an explicit bottom
element `⊥` standing for `-infinity` (`⊥ + x = ⊥`, `max x ⊥ = x`), so the
order/monotone structure of the dynamic program is preserved exactly.
The natural logarithm of `math.h` is modelled by `Real.log` where the
value of a log-score matters (the `MachineScores` build), and scores are
otherwise carried as given rational log-probability values.

Pieces of the program that live in headers outside the provided sources
(`viterbi.h`, `machine.h`) are modelled from the specification; each such
definition carries a doc comment saying so.
-/

namespace DnaStore

set_option maxRecDepth 8000

/-- Log-probability scores: exact rationals together with `⊥` for `-infinity`. -/
abbrev Score := WithBot ℚ

/-- DNA bases, indexed 0..3 for A, C, G, T. -/
abbrev Base := Fin 4

/-- Modelled from the spec: the ε input/output marker of the machine headers.
`traceback` tests an input symbol with `if (bestInSym)`, so ε is the NUL char. -/
def MachineNull : Char := Char.ofNat 0

/-- Modelled from the spec: the wildcard marker allowed in a left-context
annotation; wildcard entries are skipped when decoding left contexts. -/
def MachineWildContext : Char := '*'

/-- Modelled from the spec: conversion of a DNA character to a base index. -/
def charToBase (c : Char) : Base :=
  if c = 'A' then 0 else if c = 'C' then 1 else if c = 'G' then 2 else 3

/-- Update one point of a function out of `ℕ`. -/
def updf {α : Type} (f : ℕ → α) (i : ℕ) (v : α) : ℕ → α :=
  fun j => if j = i then v else f j

/-- Update one point of a curried two-argument function out of `ℕ × ℕ`. -/
def upd2 (f : ℕ → ℕ → Score) (i k : ℕ) (v : Score) : ℕ → ℕ → Score :=
  fun j l => if j = i ∧ l = k then v else f j l

/-! ## InputModel (`viterbi.cpp` lines 6-14) -/

/-- The normalized prior over the input alphabet: a symbol-to-probability map,
as an association list keyed by the input characters. -/
structure InputModel where
  symProb : List (Char × ℚ)
deriving DecidableEq

/-- Map-style assignment `m[c] = w` on an association list: overwrite the
binding if the key is present, insert it otherwise. -/
def assocSet (l : List (Char × ℚ)) (c : Char) (w : ℚ) : List (Char × ℚ) :=
  match l with
  | [] => [(c, w)]
  | p :: rest => if p.1 = c then (c, w) :: rest else p :: assocSet rest c w

/-- The weight a character receives in the `InputModel` constructor:
`controlWeight` when the machine's `isControl` classifier accepts it,
`symWeight` otherwise. -/
def weightOf (isControl : Char → Bool) (symWeight controlWeight : ℚ) (c : Char) : ℚ :=
  if isControl c then controlWeight else symWeight

/-- The `InputModel` constructor: each character of the alphabet is assigned
its weight (accumulating the assigned weight into `norm`, once per alphabet
position), and the map values are then divided by `norm`. -/
def InputModel.build (isControl : Char → Bool) (inAlph : List Char)
    (symWeight controlWeight : ℚ) : InputModel :=
  let acc := inAlph.foldl
    (fun (acc : List (Char × ℚ) × ℚ) c =>
      (assocSet acc.1 c (weightOf isControl symWeight controlWeight c),
       acc.2 + weightOf isControl symWeight controlWeight c))
    ([], 0)
  ⟨acc.1.map (fun p => (p.1, p.2 / acc.2))⟩

/-- Sum of the probabilities stored in an input model. -/
def InputModel.probSum (im : InputModel) : ℚ :=
  (im.symProb.map Prod.snd).sum

/-! ## MachineScores (`viterbi.cpp` lines 23-60) -/

/-- An incoming transition as precomputed by `MachineScores`: source state,
log-score, input symbol, and (for emitting transitions) the emitted base. -/
structure IncomingTransScore (σ : Type) where
  src : ℕ
  score : σ
  inSym : Char
  base : Base
deriving DecidableEq

/-- An outgoing transition as precomputed by `MachineScores`: destination
state and log-score. -/
structure OutgoingTransScore (σ : Type) where
  dest : ℕ
  score : σ
deriving DecidableEq

/-- Per-state view of the machine: decoded left-context bases and the four
transition lists, split emit/null and incoming/outgoing. -/
structure StateScores (σ : Type) where
  leftContext : List Base := []
  incomingEmit : List (IncomingTransScore σ) := []
  incomingNull : List (IncomingTransScore σ) := []
  outgoingEmit : List (OutgoingTransScore σ) := []
  outgoingNull : List (OutgoingTransScore σ) := []
deriving DecidableEq

instance {σ : Type} : Inhabited (StateScores σ) := ⟨{}⟩

/-- A machine transition (input symbol or ε, output symbol or ε, destination),
modelled from the spec's description of the external machine interface. -/
structure MachineTrans where
  inSym : Char
  outSym : Char
  dest : ℕ
deriving DecidableEq

/-- A machine state: left-context annotation and outgoing transitions,
modelled from the spec's description of the external machine interface. -/
structure MachineState where
  leftContext : List Char
  trans : List MachineTrans
deriving DecidableEq

/-- Replace the element at one index of a list by applying `f` (no-op when
the index is out of range). -/
def modifyAt {α : Type} : List α → ℕ → (α → α) → List α
  | [], _, _ => []
  | a :: rest, 0, f => f a :: rest
  | a :: rest, n + 1, f => a :: modifyAt rest n f

/-- The per-transition admission-and-scoring decision of the `MachineScores`
constructor (`viterbi.cpp` lines 38-46): a transition is recorded iff its
input is ε, is the EOF marker, or is present in the input model; its log-score
is `lg(symProb[in])` when the input is present in the model and `zero`
otherwise. `lg` and `zero` abstract the score codomain (instantiated with the
real logarithm where the log values matter). -/
def transInScore {σ : Type} (lg : ℚ → σ) (zero : σ) (im : InputModel)
    (isEOF : Char → Bool) (t : MachineTrans) : Option σ :=
  if t.inSym = MachineNull ∨ isEOF t.inSym = true ∨ (im.symProb.lookup t.inSym).isSome then
    some (if (im.symProb.lookup t.inSym).isSome
          then lg ((im.symProb.lookup t.inSym).getD 0)
          else zero)
  else none

/-- The `MachineScores` constructor: walk every state in order, decode its
left context (skipping wildcards), then walk its transitions in order; each
admitted transition is appended to the source's outgoing list and the
destination's incoming list, split by whether its output is ε. -/
def MachineScores.build {σ : Type} (lg : ℚ → σ) (zero : σ)
    (machine : List MachineState) (isEOF : Char → Bool) (im : InputModel) :
    List (StateScores σ) :=
  let init : List (StateScores σ) := machine.map (fun ms =>
    { leftContext := ms.leftContext.filterMap
        (fun lc => if lc = MachineWildContext then none else some (charToBase lc)) })
  machine.enum.foldl
    (fun acc si =>
      si.2.trans.foldl
        (fun acc2 t =>
          match transInScore lg zero im isEOF t with
          | none => acc2
          | some sc =>
            if t.outSym = MachineNull then
              modifyAt
                (modifyAt acc2 t.dest
                  (fun ds => { ds with incomingNull := ds.incomingNull ++ [⟨si.1, sc, t.inSym, 0⟩] }))
                si.1
                (fun ss => { ss with outgoingNull := ss.outgoingNull ++ [⟨t.dest, sc⟩] })
            else
              modifyAt
                (modifyAt acc2 t.dest
                  (fun ds => { ds with incomingEmit := ds.incomingEmit ++ [⟨si.1, sc, t.inSym, charToBase t.outSym⟩] }))
                si.1
                (fun ss => { ss with outgoingEmit := ss.outgoingEmit ++ [⟨t.dest, sc⟩] }))
        acc)
    init

/-- The `math.h` natural logarithm on probabilities, with `log 0 = -infinity`
(nonpositive arguments are mapped to `⊥`). -/
noncomputable def clog (q : ℚ) : WithBot ℝ :=
  if 0 < q then ((Real.log (q : ℝ) : ℝ) : WithBot ℝ) else ⊥

/-! ## The Viterbi matrix fill (`viterbi.cpp` lines 62-176) -/

/-- Mutator log-scores, modelled from the spec's `MutatorScores` data model
(the `MutatorScores` class lives in a header outside the provided sources):
substitution matrix, no-gap, affine deletion open/extend/end, tandem-dup
entry, and per-length dup scores. -/
structure MutScores where
  noGap : Score
  delOpen : Score
  delExtend : Score
  delEnd : Score
  tanDup : Score
  sub : Base → Base → Score
  len : ℕ → Score

/-- All inputs of one `ViterbiMatrix` build: the number of machine states,
the precomputed per-state scores, the decoder toposort, the mutator scores,
`maxDupLen` (already truncated by the machine's max left context), the
local/global flag, and the tokenized observed sequence. -/
structure DPIn where
  nStates : ℕ
  stateScores : List (StateScores Score)
  stateOrder : List ℕ
  muts : MutScores
  maxDupLen : ℕ
  localMode : Bool
  seq : List Base

/-- State-score lookup (out-of-range states have empty transition lists). -/
def DPIn.ss (d : DPIn) (s : ℕ) : StateScores Score := d.stateScores.getD s {}

/-- Modelled from the spec: `maxDupLenAt(ss)` (in `viterbi.h`) is
`M_s = min(maxDupLen, |leftContextBases[s]|)`. -/
def DPIn.mdlAt (d : DPIn) (s : ℕ) : ℕ :=
  min d.maxDupLen (d.ss s).leftContext.length

/-- Observed sequence length `L`. -/
def DPIn.seqLen (d : DPIn) : ℕ := d.seq.length

/-- Modelled from the spec: `tanDupBase(ss, k)` (in `viterbi.h`) reads the
decoded left context right to left; `k = 0` is the immediately preceding base. -/
def tanDupBase {σ : Type} (ss : StateScores σ) (k : ℕ) : Base :=
  ss.leftContext.reverse.getD k 0

/-- One column of the matrix: the S, D and T layers at a fixed position
(cells of out-of-range states or dup indices hold `⊥`). -/
structure Col where
  S : ℕ → Score
  D : ℕ → Score
  T : ℕ → ℕ → Score

/-- The all-`⊥` column (every cell at log 0). -/
def botCol : Col := ⟨fun _ => ⊥, fun _ => ⊥, fun _ _ => ⊥⟩

/-- Column 0 before the fill: `S[0,0] = 0` in global mode, `S[s,0] = 0` for
every state in local mode (lines 75-79). -/
def initCol (d : DPIn) : Col :=
  ⟨fun s => if (if d.localMode then s < d.nStates else s = 0) then (0 : Score) else ⊥,
   fun _ => ⊥, fun _ _ => ⊥⟩

/-- The in-order per-state work of one column (lines 88-108): relax incoming
emit edges against column `p-1`, relax incoming null edges against the column
being built, and (when the state supports duplications and `p > 0`) close a
tandem dup into S and extend the T layer from column `p-1`. -/
def visitState (d : DPIn) (prev : Col) (p : ℕ) (cur : Col) (s : ℕ) : Col :=
  let ss := d.ss s
  let mdls := d.mdlAt s
  let y := d.seq.getD (p - 1) 0
  let S1 :=
    if 0 < p then
      ss.incomingEmit.foldl
        (fun f it => updf f s (max (f s) (prev.S it.src + it.score + d.muts.noGap + d.muts.sub it.base y)))
        cur.S
    else cur.S
  let S2 := ss.incomingNull.foldl
    (fun f it => updf f s (max (f s) (f it.src + it.score))) S1
  if 0 < mdls ∧ 0 < p then
    ⟨updf S2 s (max (S2 s) (prev.T s 0 + d.muts.sub (tanDupBase ss 0) y)),
     cur.D,
     (List.range (mdls - 1)).foldl
       (fun t k => upd2 t s k (prev.T s (k + 1) + d.muts.sub (tanDupBase ss (k + 1)) y))
       cur.T⟩
  else ⟨S2, cur.D, cur.T⟩

/-- The worklist state of the ε-closure: the S and D layers of the current
column, the stack of pending states, and the on-stack bitmap. -/
structure CState where
  S : ℕ → Score
  D : ℕ → Score
  ws : List ℕ
  onStack : ℕ → Bool

/-- The relaxation of one outgoing emit edge during the ε-closure (lines
123-135): improve the destination's D cell with the captured source values
and enqueue it on a strict improvement when it is not already on the stack. -/
def emitRelax (d : DPIn) (dsrc ssrc : Score) (acc : CState)
    (ot : OutgoingTransScore Score) : CState :=
  if acc.D ot.dest < max (dsrc + d.muts.delExtend) (ssrc + d.muts.delOpen) + ot.score then
    ⟨acc.S,
     updf acc.D ot.dest (max (dsrc + d.muts.delExtend) (ssrc + d.muts.delOpen) + ot.score),
     if acc.onStack ot.dest then acc.ws else ot.dest :: acc.ws,
     if acc.onStack ot.dest then acc.onStack else updf acc.onStack ot.dest true⟩
  else acc

/-- The relaxation of one outgoing null edge during the ε-closure (lines
137-158): improve the destination's D and S cells with the captured source
values and enqueue it once if either improved and it is not already on the
stack. -/
def nullRelax (dsrc ssrc : Score) (acc : CState)
    (ot : OutgoingTransScore Score) : CState :=
  if acc.D ot.dest < dsrc + ot.score then
    if acc.S ot.dest < ssrc + ot.score then
      ⟨updf acc.S ot.dest (ssrc + ot.score), updf acc.D ot.dest (dsrc + ot.score),
       if acc.onStack ot.dest then acc.ws else ot.dest :: acc.ws,
       if acc.onStack ot.dest then acc.onStack else updf acc.onStack ot.dest true⟩
    else
      ⟨acc.S, updf acc.D ot.dest (dsrc + ot.score),
       if acc.onStack ot.dest then acc.ws else ot.dest :: acc.ws,
       if acc.onStack ot.dest then acc.onStack else updf acc.onStack ot.dest true⟩
  else
    if acc.S ot.dest < ssrc + ot.score then
      ⟨updf acc.S ot.dest (ssrc + ot.score), acc.D,
       if acc.onStack ot.dest then acc.ws else ot.dest :: acc.ws,
       if acc.onStack ot.dest then acc.onStack else updf acc.onStack ot.dest true⟩
    else acc

/-- One iteration of the ε-closure worklist loop (lines 112-158): pop a
state, fold the deletion end into its S cell, then relax its outgoing emit
edges into the D layer and its outgoing null edges into both layers,
re-enqueueing strictly improved destinations that are not already on the
stack.  The source values `dsrc`/`ssrc` are captured once, as in the source. -/
def closureStep (d : DPIn) (st : CState) : CState :=
  match st.ws with
  | [] => st
  | s :: rest =>
    (d.ss s).outgoingNull.foldl
      (nullRelax (st.D s) (max (st.S s) (st.D s + d.muts.delEnd)))
      ((d.ss s).outgoingEmit.foldl
        (emitRelax d (st.D s) (max (st.S s) (st.D s + d.muts.delEnd)))
        ⟨updf st.S s (max (st.S s) (st.D s + d.muts.delEnd)), st.D, rest,
         updf st.onStack s false⟩)

/-- Run the ε-closure worklist loop for at most `fuel` iterations (the loop
itself has no a-priori bound; termination is a theorem, not a definition). -/
def closureRun (d : DPIn) : ℕ → CState → CState
  | 0, st => st
  | n + 1, st => closureRun d n (closureStep d st)

/-- Build one full column at position `p` from the previous column: the
in-order state sweep, then the ε-closure seeded with the toposort (popped
from the back) and an all-true on-stack bitmap, then (for `p > 0`) the
tandem-dup seed of the T layer from the closed S values (lines 161-168).
The boolean records whether the closure's worklist emptied within `fuel`. -/
def buildColumn (d : DPIn) (fuel : ℕ) (prev : Col) (p : ℕ) (cur0 : Col) : Col × Bool :=
  let afterStates := d.stateOrder.foldl (visitState d prev p) cur0
  let cst := closureRun d fuel
    ⟨afterStates.S, afterStates.D, d.stateOrder.reverse, fun s => decide (s < d.nStates)⟩
  let withSD : Col := ⟨cst.S, cst.D, afterStates.T⟩
  let colT : Col :=
    if 0 < p then
      { withSD with
        T := fun s k =>
          if s < d.nStates ∧ k < d.mdlAt s then
            max (withSD.T s k) (cst.S s + d.muts.tanDup + d.muts.len k)
          else withSD.T s k }
    else withSD
  (colT, decide (cst.ws = []))

/-- Columns `p, p+1, ...` of the fill (`n` of them), each chained off the
previous column and starting from the all-`⊥` column. -/
def fillRest (d : DPIn) (fuel : ℕ) : Col → ℕ → ℕ → List (Col × Bool)
  | _, _, 0 => []
  | prev, p, n + 1 =>
    let cb := buildColumn d fuel prev p botCol
    cb :: fillRest d fuel cb.1 (p + 1) n

/-- All columns `0 .. L` of the fill, with their closure-finished flags. -/
def fillCols (d : DPIn) (fuel : ℕ) : List (Col × Bool) :=
  let c0 := buildColumn d fuel botCol 0 (initCol d)
  c0 :: fillRest d fuel c0.1 1 d.seq.length

/-- Every column's ε-closure emptied its worklist within the given fuel. -/
def allClosuresDone (d : DPIn) (fuel : ℕ) : Prop :=
  ∀ cb ∈ fillCols d fuel, cb.2 = true

instance (d : DPIn) (fuel : ℕ) : Decidable (allClosuresDone d fuel) :=
  List.decidableBAll _ _

/-- The local-mode log-likelihood accumulation of lines 171-173: starting
from the current accept cell, fold `max` over `S[s, L]` for every state. -/
def loglikeFold (d : DPIn) (c : Col) : Score :=
  (List.range d.nStates).foldl (fun v s => max v (c.S s)) (c.S (d.nStates - 1))

/-- Modelled from the spec: `loglike()` (in `viterbi.h`) is a reference to
the accept cell `S[N-1, L]` — global mode reads it without ever assigning it
and local mode accumulates into it through assignment, so the local fold of
lines 171-173 overwrites that cell of the matrix before the traceback. -/
def finalCols (d : DPIn) (fuel : ℕ) : List Col :=
  let cols := (fillCols d fuel).map Prod.fst
  if d.localMode then
    let lastC := cols.getD d.seqLen botCol
    cols.set d.seqLen { lastC with S := updf lastC.S (d.nStates - 1) (loglikeFold d lastC) }
  else cols

/-- The final log-likelihood: the value of the accept cell `S[N-1, L]`. -/
def loglike (d : DPIn) (fuel : ℕ) : Score :=
  ((finalCols d fuel).getD d.seqLen botCol).S (d.nStates - 1)

/-! ## The traceback (`viterbi.cpp` lines 195-304) -/

/-- A traceback configuration: current state, position (a signed integer, as
in the source) and mutator sub-state index (`0 = S`, `1 = D`, `2 + k = T(k)`;
the index encoding is modelled from the spec's storage layout). -/
structure TbCfg where
  state : ℕ
  pos : ℤ
  mutState : ℕ
deriving DecidableEq, Repr

/-- `getCell` of the traceback: matrix lookup at a signed position; reads
outside the stored range (which the source never performs on a reachable
path) are modelled as `⊥`. -/
def getCell (d : DPIn) (cols : List Col) (s : ℕ) (p : ℤ) (mutIdx : ℕ) : Score :=
  if 0 ≤ p ∧ p ≤ (d.seqLen : ℤ) then
    let c := cols.getD p.toNat botCol
    if mutIdx = 0 then c.S s else if mutIdx = 1 then c.D s else c.T s (mutIdx - 2)
  else ⊥

/-- One traceback predecessor candidate: source configuration, transition
score, and the input symbol carried by the transition (`none` for the
synthetic candidates passed as `NULL`). -/
structure Cand where
  src : ℕ
  srcPos : ℤ
  srcMut : ℕ
  w : Score
  sym : Option Char
deriving DecidableEq

/-- The running argmax state of `updateBest`/`checkBest`. -/
structure BestAcc where
  best : Score
  bestState : ℕ
  bestPos : ℤ
  bestMut : ℕ
  bestInSym : Char
  found : Bool
deriving DecidableEq

/-- The accumulator before any `updateBest` call: `best = -infinity`,
`foundBest = false` (the other fields are read only after a strict update). -/
def acc0 : BestAcc := ⟨⊥, 0, 0, 0, MachineNull, false⟩

/-- The recomputed contribution of one candidate: source cell plus
transition score. -/
def contrib (d : DPIn) (cols : List Col) (c : Cand) : Score :=
  getCell d cols c.src c.srcPos c.srcMut + c.w

/-- `updateBest` (lines 217-228): keep the candidate only on a strict
improvement, so ties go to the earliest candidate enumerated. -/
def updateBest (d : DPIn) (cols : List Col) (a : BestAcc) (c : Cand) : BestAcc :=
  if a.best < contrib d cols c then
    ⟨contrib d cols c, c.src, c.srcPos, c.srcMut, c.sym.getD MachineNull, true⟩
  else a

/-- The relative tolerance `1e-6` of `checkBest`. -/
def tol : ℚ := 1 / 1000000

/-- The tolerance test of `checkBest` (line 232) on exact values: with both
scores finite it is the source's relative-error formula; any comparison
involving `-infinity` (whose double arithmetic yields `inf` or `NaN`) fails. -/
def relCheckB (b e : Score) : Bool :=
  if b = ⊥ ∨ e = ⊥ then false
  else
    let bq := b.unbot' 0
    let eq2 := e.unbot' 0
    decide (|(bq - eq2) / (if |eq2| < tol then 1 else eq2)| < tol)

/-- The two assertions of `checkBest` (lines 230-237) as a combined test:
the recomputed best matches the stored cell within tolerance, and some
predecessor was found. -/
def tbCheck (d : DPIn) (cols : List Col) (a : BestAcc) (cfg : TbCfg) : Bool :=
  relCheckB a.best (getCell d cols cfg.state cfg.pos cfg.mutState) && a.found

/-- The predecessor candidates enumerated by the traceback for one
configuration, in the source's enumeration order (lines 251-296). -/
def cands (d : DPIn) (cfg : TbCfg) : List Cand :=
  let ss := d.ss cfg.state
  let mdls := d.mdlAt cfg.state
  let y := d.seq.getD (cfg.pos - 1).toNat 0
  if cfg.mutState = 0 then
    (if 0 < cfg.pos then
       ss.incomingEmit.map
         (fun it => ⟨it.src, cfg.pos - 1, 0, it.score + d.muts.noGap + d.muts.sub it.base y, some it.inSym⟩)
     else []) ++
    ss.incomingNull.map (fun it => ⟨it.src, cfg.pos, 0, it.score, some it.inSym⟩) ++
    [⟨cfg.state, cfg.pos, 1, d.muts.delEnd, none⟩] ++
    (if 0 < mdls ∧ 0 < cfg.pos then
       [⟨cfg.state, cfg.pos - 1, 2, d.muts.sub (tanDupBase ss 0) y, none⟩]
     else []) ++
    (if cfg.pos = 0 ∧ d.localMode then [⟨0, 0, 0, 0, none⟩] else [])
  else if cfg.mutState = 1 then
    (ss.incomingEmit.flatMap
      (fun it =>
        [⟨it.src, cfg.pos, 1, it.score + d.muts.delExtend, some it.inSym⟩,
         ⟨it.src, cfg.pos, 0, it.score + d.muts.delOpen, some it.inSym⟩])) ++
    ss.incomingNull.map (fun it => ⟨it.src, cfg.pos, 1, it.score, some it.inSym⟩)
  else
    let k := cfg.mutState - 2
    (if k < mdls - 1 then
       [⟨cfg.state, cfg.pos - 1, cfg.mutState + 1, d.muts.sub (tanDupBase ss (k + 1)) y, none⟩]
     else []) ++
    [⟨cfg.state, cfg.pos, 0, d.muts.tanDup + d.muts.len k, none⟩]

/-- The outcome of a traceback: a normal exit of the while loop carrying the
decoded string, the full per-step list of chosen input symbols, and the final
configuration; a fatal `checkBest` failure (`TracebackInconsistent`); the
warn-and-return-empty path for `loglike = -infinity`; or fuel exhaustion
(the loop is not guaranteed to terminate). -/
inductive TBOut where
  | noPath : TBOut
  | done : List Char → List Char → TbCfg → TBOut
  | fail : TbCfg → TBOut
  | fuelOut : TbCfg → TBOut
deriving DecidableEq, Repr

/-- The `initBest`-then-`updateBest` sweep of one loop iteration: fold
`updateBest` over the configuration's candidates starting from the reset
accumulator. -/
def tbBest (d : DPIn) (cols : List Col) (cfg : TbCfg) : BestAcc :=
  (cands d cfg).foldl (updateBest d cols) acc0

/-- The traceback while loop (lines 247-301): while `pos >= 0 && state > 0`,
fold `updateBest` over the configuration's candidates, run `checkBest`, and
prepend the chosen input symbol to the trace when it is not ε. -/
def tbLoop (d : DPIn) (cols : List Col) : ℕ → TbCfg → List Char → List Char → TBOut
  | 0, cfg, _, _ => TBOut.fuelOut cfg
  | n + 1, cfg, tr, ch =>
    if 0 ≤ cfg.pos ∧ 0 < cfg.state then
      if tbCheck d cols (tbBest d cols cfg) cfg then
        tbLoop d cols n
          ⟨(tbBest d cols cfg).bestState, (tbBest d cols cfg).bestPos,
           (tbBest d cols cfg).bestMut⟩
          (if (tbBest d cols cfg).bestInSym ≠ MachineNull
           then (tbBest d cols cfg).bestInSym :: tr else tr)
          ((tbBest d cols cfg).bestInSym :: ch)
      else TBOut.fail cfg
    else TBOut.done tr ch cfg

/-- `ViterbiMatrix::traceback`: bail out when `loglike = -infinity`; pick the
start (scanning every state in local mode, the accept state in global mode);
run the pre-loop `checkBest`; then run the while loop. -/
def traceback (d : DPIn) (fuel tbfuel : ℕ) : TBOut :=
  let cols := finalCols d fuel
  if ¬ (⊥ < loglike d fuel) then TBOut.noPath
  else
    let start : TbCfg := ⟨d.nStates - 1, (d.seqLen : ℤ), 0⟩
    let a :=
      if d.localMode then
        (List.range d.nStates).foldl
          (fun acc s => updateBest d cols acc ⟨s, (d.seqLen : ℤ), 0, 0, none⟩) acc0
      else updateBest d cols acc0 ⟨d.nStates - 1, (d.seqLen : ℤ), 0, 0, none⟩
    if tbCheck d cols a start then
      tbLoop d cols tbfuel ⟨a.bestState, a.bestPos, a.bestMut⟩ [] []
    else TBOut.fail start

/-! ## Concrete instances used to evaluate the embedding -/

/-- Diagonal substitution scores: matches cost 0, mismatches `-infinity`. -/
def diagSub : Base → Base → Score := fun b1 b2 => if b1 = b2 then (0 : Score) else ⊥

/-- Mutator scores with no deletion and no duplication channel. -/
def mutsPlain : MutScores :=
  ⟨0, ⊥, ⊥, ⊥, ⊥, diagSub, fun _ => ⊥⟩

/-- Mutator scores whose deletion open/end are free (log-probability 0) and
whose extension is impossible; still no duplication channel. -/
def mutsFreeDel : MutScores :=
  ⟨0, 0, ⊥, 0, ⊥, diagSub, fun _ => ⊥⟩

/-- A two-state global machine: one transition `0 → 1` emitting `A` on input
symbol `x` with log-score 0 (a probability-1 single-symbol input model). -/
def exG : DPIn :=
  { nStates := 2
  , stateScores :=
      [ { outgoingEmit := [⟨1, 0⟩] }
      , { incomingEmit := [⟨0, 0, 'x', 0⟩] } ]
  , stateOrder := [0, 1]
  , muts := mutsPlain
  , maxDupLen := 0
  , localMode := false
  , seq := [0] }

/-- `exG` with local mode switched on (same machine, scores and sequence). -/
def exGLocal : DPIn := { exG with localMode := true }

/-- The machine of `exG` with the input symbol replaced by the character of
code point 4, standing for a machine whose EOF marker labels the transition
(EOF transitions not present in the input model are recorded with score 0). -/
def exEOF : DPIn :=
  { exG with
    stateScores :=
      [ { outgoingEmit := [⟨1, 0⟩] }
      , { incomingEmit := [⟨0, 0, Char.ofNat 4, 0⟩] } ] }

/-- A two-state global machine with a cycle through the start state: state 0
loops to itself emitting `A` (input `x`) and also steps to the accept state 1
emitting `A` (input `x`); observed sequence `AA`. The best path's predecessor
of `(1, 2, S)` is `(0, 1, S)`, so the traceback stops at state 0 with
position 1 still positive. -/
def exLoop : DPIn :=
  { nStates := 2
  , stateScores :=
      [ { incomingEmit := [⟨0, 0, 'x', 0⟩]
        , outgoingEmit := [⟨0, 0⟩, ⟨1, 0⟩] }
      , { incomingEmit := [⟨0, 0, 'x', 0⟩] } ]
  , stateOrder := [0, 1]
  , muts := mutsPlain
  , maxDupLen := 0
  , localMode := false
  , seq := [0, 0] }

/-- A five-state local-mode machine on which the traceback consistency check
fires although the final log-likelihood is finite.  Emit chain
`0 → 3 → 2` outputs `AA` (input symbol `x`, all scores 0); an emit edge
`2 → 1` outputs `C` (never matching the observed `AA`, so state 1 is reached
only through the deletion layer, closed for free by `delOpen = delEnd = 0`);
a null ε-transition `4 → 1` has score 0.  The local log-likelihood fold
overwrites the accept cell `S[4, 2]` from `-infinity` to 0, the traceback
start scan picks state 1, the overwritten accept cell is then chosen as
predecessor of `(1, 2, S)`, and at `(4, 2, S)` no predecessor reproduces the
overwritten value. -/
def exBad : DPIn :=
  { nStates := 5
  , stateScores :=
      [ { outgoingEmit := [⟨3, 0⟩] }
      , { incomingEmit := [⟨2, 0, 'x', 1⟩]
        , incomingNull := [⟨4, 0, MachineNull, 0⟩] }
      , { incomingEmit := [⟨3, 0, 'x', 0⟩]
        , outgoingEmit := [⟨1, 0⟩] }
      , { incomingEmit := [⟨0, 0, 'x', 0⟩]
        , outgoingEmit := [⟨2, 0⟩] }
      , { outgoingNull := [⟨1, 0⟩] } ]
  , stateOrder := [0, 3, 2, 4, 1]
  , muts := mutsFreeDel
  , maxDupLen := 0
  , localMode := true
  , seq := [0, 0] }

/-- Mutator scores with a free duplication channel (`tanDup = 0`, every dup
length score 0) and no deletion channel. -/
def mutsDup : MutScores :=
  ⟨0, ⊥, ⊥, ⊥, 0, diagSub, fun _ => 0⟩

/-- A two-state global machine whose accept state has left context `A` and
duplication capacity 1. -/
def exDup : DPIn :=
  { nStates := 2
  , stateScores :=
      [ { outgoingEmit := [⟨1, 0⟩] }
      , { leftContext := [0], incomingEmit := [⟨0, 0, 'x', 0⟩] } ]
  , stateOrder := [0, 1]
  , muts := mutsDup
  , maxDupLen := 1
  , localMode := false
  , seq := [0] }

/-! ## Spec-side definitions -/

/-- Modelled from the spec: the `EmptyAlphabet`-checking construction the
spec describes (§4.1 and the §7 error table): fail when the input alphabet is
empty, otherwise build the model.  Written to be compared against the
source-translated `InputModel.build`, which has no such check. -/
def InputModelSpec.buildChecked (isControl : Char → Bool) (inAlph : List Char)
    (symWeight controlWeight : ℚ) : Option InputModel :=
  if inAlph = [] then none
  else some (InputModel.build isControl inAlph symWeight controlWeight)

/-- Maximum of the recomputed contributions of a candidate list (the value
`best` would reach if every candidate improved the running maximum). -/
def maxContrib (d : DPIn) (cols : List Col) (l : List Cand) : Score :=
  l.foldl (fun m c => max m (contrib d cols c)) ⊥

/-- The column of the fill at position `p`, as recorded in `fillCols`. -/
def colAt (d : DPIn) (fuel p : ℕ) : Col :=
  ((fillCols d fuel).map Prod.fst).getD p botCol

/-- The column chain of the fill in directly recursive form (proved to agree
with the columns recorded in `fillCols`). -/
def colRec (d : DPIn) (fuel : ℕ) : ℕ → Col × Bool
  | 0 => buildColumn d fuel botCol 0 (initCol d)
  | p + 1 => buildColumn d fuel (colRec d fuel p).1 (p + 1) botCol

/-- An EOF marker used in concrete instances: the control character of code
point 4 (the concrete value is irrelevant; it only has to differ from ε). -/
def eofChar : Char := Char.ofNat 4

/-- An input model containing the EOF marker: built from the two-character
alphabet `['a', eofChar]` with weights 1 and 1, as the decoding driver does
when the machine's input alphabet is requested with the SEOF flag included. -/
def imEOF : InputModel := InputModel.build (fun _ => false) ['a', eofChar] 1 1

/-- A transition whose input symbol is the EOF marker and whose output is the
base `A`. -/
def tEOF : MachineTrans := ⟨eofChar, 'A', 1⟩

/-- A two-state machine whose only transition reads the EOF marker and emits
`A` into state 1. -/
def mEOF : List MachineState := [⟨[], [tEOF]⟩, ⟨[], []⟩]

/-- A traceback outcome is the fatal `TracebackInconsistent` abort. -/
def TBOut.isFail : TBOut → Bool
  | TBOut.fail _ => true
  | _ => false

/-- Well-formedness of a decoder input, as guaranteed by `MachineScores`:
every recorded transition endpoint is a machine state, and the decoder
toposort enumerates exactly the machine states. -/
def wfDP (d : DPIn) : Prop :=
  (∀ ssc ∈ d.stateScores,
      (∀ it ∈ ssc.incomingEmit, it.src < d.nStates)
      ∧ (∀ it ∈ ssc.incomingNull, it.src < d.nStates)
      ∧ (∀ ot ∈ ssc.outgoingEmit, ot.dest < d.nStates)
      ∧ (∀ ot ∈ ssc.outgoingNull, ot.dest < d.nStates))
  ∧ (∀ s, s < d.nStates → s ∈ d.stateOrder)
  ∧ (∀ s ∈ d.stateOrder, s < d.nStates)
  ∧ 0 < d.nStates

/-- All scores are log-probabilities: the mutator scores and every recorded
transition score are nonpositive. -/
def nonposScores (d : DPIn) : Prop :=
  d.muts.delOpen ≤ 0 ∧ d.muts.delExtend ≤ 0 ∧ d.muts.delEnd ≤ 0
  ∧ (∀ ssc ∈ d.stateScores,
      (∀ ot ∈ ssc.outgoingEmit, ot.score ≤ 0)
      ∧ (∀ ot ∈ ssc.outgoingNull, ot.score ≤ 0))

/-- Every incoming transition recorded at a state is mirrored by an outgoing
transition at its source (as `MachineScores` records each admitted
transition on both endpoint lists). -/
def cohIn (d : DPIn) : Prop :=
  (∀ s, s < d.nStates → ∀ it ∈ (d.ss s).incomingEmit,
      (⟨s, it.score⟩ : OutgoingTransScore Score) ∈ (d.ss it.src).outgoingEmit)
  ∧ (∀ s, s < d.nStates → ∀ it ∈ (d.ss s).incomingNull,
      (⟨s, it.score⟩ : OutgoingTransScore Score) ∈ (d.ss it.src).outgoingNull)

/-- Every outgoing transition recorded at a state is mirrored by an incoming
transition at its destination. -/
def cohOut (d : DPIn) : Prop :=
  (∀ s, s < d.nStates → ∀ ot ∈ (d.ss s).outgoingEmit,
      ∃ it ∈ (d.ss ot.dest).incomingEmit, it.src = s ∧ it.score = ot.score)
  ∧ (∀ s, s < d.nStates → ∀ ot ∈ (d.ss s).outgoingNull,
      ∃ it ∈ (d.ss ot.dest).incomingNull, it.src = s ∧ it.score = ot.score)

/-- The relaxation constraints of one state over given S and D layers: the
state's deletion-end fold and all its outgoing relaxations are satisfied. -/
def consAt (d : DPIn) (S D : ℕ → Score) (s : ℕ) : Prop :=
  D s + d.muts.delEnd ≤ S s
  ∧ (∀ ot ∈ (d.ss s).outgoingEmit,
      max (D s + d.muts.delExtend) (S s + d.muts.delOpen) + ot.score ≤ D ot.dest)
  ∧ (∀ ot ∈ (d.ss s).outgoingNull,
      D s + ot.score ≤ D ot.dest ∧ S s + ot.score ≤ S ot.dest)

/-- A closed point of the ε-closure: every machine state's constraints hold. -/
def ClosedSD (d : DPIn) (S D : ℕ → Score) : Prop :=
  ∀ s, s < d.nStates → consAt d S D s

/-- The worklist invariant of the ε-closure: every machine state not on the
worklist already satisfies its constraints and is marked off the stack. -/
def closureInv (d : DPIn) (st : CState) : Prop :=
  ∀ t, t < d.nStates → t ∉ st.ws → (consAt d st.S st.D t ∧ st.onStack t = false)

/-! Certificate machinery for closure termination.  A closure cell is a
machine state paired with a layer flag (`false` = S, `true` = D). -/

/-- Read one closure cell. -/
def cellOf (st : CState) (v : Bool × ℕ) : Score :=
  if v.1 then st.D v.2 else st.S v.2

/-- The weighted relaxation edges of the ε-closure between closure cells. -/
inductive EdgeW (d : DPIn) : Bool × ℕ → Bool × ℕ → Score → Prop
  | delEnd (s : ℕ) (hs : s < d.nStates) :
      EdgeW d (true, s) (false, s) d.muts.delEnd
  | emitExt (s : ℕ) (hs : s < d.nStates) (ot : OutgoingTransScore Score)
      (h : ot ∈ (d.ss s).outgoingEmit) :
      EdgeW d (true, s) (true, ot.dest) (d.muts.delExtend + ot.score)
  | emitOpen (s : ℕ) (hs : s < d.nStates) (ot : OutgoingTransScore Score)
      (h : ot ∈ (d.ss s).outgoingEmit) :
      EdgeW d (false, s) (true, ot.dest) (d.muts.delOpen + ot.score)
  | nullD (s : ℕ) (hs : s < d.nStates) (ot : OutgoingTransScore Score)
      (h : ot ∈ (d.ss s).outgoingNull) :
      EdgeW d (true, s) (true, ot.dest) ot.score
  | nullS (s : ℕ) (hs : s < d.nStates) (ot : OutgoingTransScore Score)
      (h : ot ∈ (d.ss s).outgoingNull) :
      EdgeW d (false, s) (false, ot.dest) ot.score

/-- A certified relaxation path relative to the closure's entry state `st0`,
with every proper prefix value bounded by the current cell of its endpoint
in the running state `st`: `val` is the value obtained by starting from the
entry value of the first cell and following the listed edges. -/
inductive BCert (d : DPIn) (st0 st : CState) :
    Bool × ℕ → Score → List (Bool × ℕ) → List Score → Prop
  | single (v : Bool × ℕ) : BCert d st0 st v (cellOf st0 v) [v] []
  | step {u : Bool × ℕ} {val : Score} {p : List (Bool × ℕ)} {wl : List Score}
      {v : Bool × ℕ} {w : Score} :
      BCert d st0 st u val p wl → EdgeW d u v w → val ≤ cellOf st u →
      BCert d st0 st v (val + w) (p ++ [v]) (wl ++ [w])

/-- All relaxation weights that edges out of state `s` can contribute (null
scores are listed twice: once for each layer copy of the edge). -/
def scoreListOf (d : DPIn) (s : ℕ) : List Score :=
  [d.muts.delEnd]
  ++ (d.ss s).outgoingEmit.map (fun ot => d.muts.delExtend + ot.score)
  ++ (d.ss s).outgoingEmit.map (fun ot => d.muts.delOpen + ot.score)
  ++ (d.ss s).outgoingNull.map (fun ot => ot.score)
  ++ (d.ss s).outgoingNull.map (fun ot => ot.score)

/-- The pool of all relaxation weights of the machine. -/
def weightPool (d : DPIn) : List Score :=
  (List.range d.nStates).flatMap (scoreListOf d)

/-- All sums of at most `n` weights drawn from the pool. -/
def sumsUpTo (pool : List Score) : ℕ → Finset Score
  | 0 => {0}
  | n + 1 =>
      sumsUpTo pool n ∪
        (pool.toFinset ×ˢ sumsUpTo pool n).image (fun p => p.1 + p.2)

/-- The entry values of all closure cells. -/
def initVals (st0 : CState) (n : ℕ) : Finset Score :=
  (((List.range n).map st0.S) ++ ((List.range n).map st0.D)).toFinset

/-- The finite set of values any certified simple relaxation path can take. -/
def valSet (d : DPIn) (st0 : CState) : Finset Score :=
  (initVals st0 d.nStates ×ˢ sumsUpTo (weightPool d) (2 * d.nStates)).image
    (fun p => p.1 + p.2)

/-- How many candidate values lie strictly above a cell value. -/
def cellSlack (d : DPIn) (st0 : CState) (v : Score) : ℕ :=
  ((valSet d st0).filter (fun q => v < q)).card

/-- The termination measure of the ε-closure: total slack of all cells plus
the worklist length. -/
def phiM (d : DPIn) (st0 : CState) (st : CState) : ℕ :=
  ((List.range d.nStates).map (fun s => cellSlack d st0 (st.S s))).sum
  + ((List.range d.nStates).map (fun s => cellSlack d st0 (st.D s))).sum
  + st.ws.length

/-- The cell-level certificate invariant of the running closure state:
every finite machine cell value is certified by a simple path. -/
def certAll (d : DPIn) (st0 st : CState) : Prop :=
  ∀ v : Bool × ℕ, v.2 < d.nStates → cellOf st v ≠ ⊥ →
    ∃ val p wl, BCert d st0 st v val p wl ∧ cellOf st v = val
      ∧ p.Nodup ∧ (∀ u ∈ p, u.2 < d.nStates)

/-- The full running invariant of the worklist loop: off-worklist states are
closed and off-stack, on-stack states are on the worklist, and the worklist
holds machine states only. -/
def runInv (d : DPIn) (st : CState) : Prop :=
  closureInv d st
  ∧ (∀ x, st.onStack x = true → x ∈ st.ws)
  ∧ (∀ t ∈ st.ws, t < d.nStates)

/-- The bundle of facts maintained while the popped state `s` is being
relaxed: off-worklist states other than `s` are closed and off-stack, `s`
itself keeps its written-back values unless re-enqueued, and on-stack states
are on the worklist. -/
def bundleJ (d : DPIn) (s : ℕ) (ssrcV dsrcV : Score) (acc : CState) : Prop :=
  (∀ t, t < d.nStates → t ∉ acc.ws → t ≠ s →
      consAt d acc.S acc.D t ∧ acc.onStack t = false)
  ∧ (s ∉ acc.ws → acc.S s = ssrcV ∧ acc.D s = dsrcV ∧ acc.onStack s = false)
  ∧ (∀ x, acc.onStack x = true → x ∈ acc.ws)

/-- Pointwise order between columns, cell by cell on all three layers. -/
def colLe (a b : Col) : Prop :=
  (∀ s, a.S s ≤ b.S s) ∧ (∀ s, a.D s ≤ b.D s) ∧ (∀ s k, a.T s k ≤ b.T s k)

/-- A certificate for one value at one cell: either the value is `⊥`, or a
simple certified relaxation path over machine cells produces it. -/
def certFor (d : DPIn) (st0 st : CState) (v : Bool × ℕ) (val : Score) : Prop :=
  val = ⊥ ∨ ∃ p wl, BCert d st0 st v val p wl ∧ p.Nodup ∧ ∀ u ∈ p, u.2 < d.nStates

/-- The invariant carried through one popped state's relaxations: all cells
certified, the captured source values certified and below the current source
cells. -/
def certQ (d : DPIn) (st0 : CState) (s : ℕ) (dsrc ssrc : Score) (acc : CState) : Prop :=
  certAll d st0 acc
  ∧ certFor d st0 acc (true, s) dsrc
  ∧ certFor d st0 acc (false, s) ssrc
  ∧ dsrc ≤ acc.D s
  ∧ ssrc ≤ acc.S s

/-- Achievability of an S cell value: it is `⊥`, left over from the starting
column, or bounded by one in-column or cross-column relaxation source (whose
collapse under closedness yields a traceback candidate). -/
def achS (d : DPIn) (prev cur0 : Col) (p : ℕ) (S D : ℕ → Score) (s : ℕ) : Prop :=
  S s = ⊥ ∨ S s ≤ cur0.S s
  ∨ (0 < p ∧ ∃ it ∈ (d.ss s).incomingEmit,
      S s ≤ prev.S it.src + it.score + d.muts.noGap
        + d.muts.sub it.base (d.seq.getD (p - 1) 0))
  ∨ (∃ it ∈ (d.ss s).incomingNull,
      S s ≤ max (S it.src) (D it.src + d.muts.delEnd) + it.score)
  ∨ S s ≤ D s + d.muts.delEnd
  ∨ (0 < d.mdlAt s ∧ 0 < p
      ∧ S s ≤ prev.T s 0 + d.muts.sub (tanDupBase (d.ss s) 0) (d.seq.getD (p - 1) 0))

/-- Achievability of a D cell value: `⊥` or bounded by one relaxation source. -/
def achD (d : DPIn) (S D : ℕ → Score) (s : ℕ) : Prop :=
  D s = ⊥
  ∨ (∃ it ∈ (d.ss s).incomingEmit,
      D s ≤ max (D it.src + d.muts.delExtend) (S it.src + d.muts.delOpen) + it.score)
  ∨ (∃ it ∈ (d.ss s).incomingNull, D s ≤ D it.src + it.score)

/-- The achievability bundle carried through one popped state's relaxations. -/
def achQ (d : DPIn) (prev cur0 : Col) (p : ℕ) (s : ℕ) (dsrc ssrc : Score)
    (acc : CState) : Prop :=
  (∀ t, achS d prev cur0 p acc.S acc.D t ∧ achD d acc.S acc.D t)
  ∧ dsrc ≤ acc.D s ∧ ssrc ≤ acc.S s

/-! ## Helper lemmas -/

theorem assocSet_of_notMem (l : List (Char × ℚ)) (c : Char) (w : ℚ)
    (h : c ∉ l.map Prod.fst) : assocSet l c w = l ++ [(c, w)] := by
  induction l with
  | nil => rfl
  | cons p rest ih =>
    simp only [List.map_cons, List.mem_cons] at h
    push_neg at h
    simp only [assocSet]
    rw [if_neg fun hc => h.1 hc.symm, ih h.2]
    exact (List.cons_append p rest _).symm

theorem buildFold_snd (isControl : Char → Bool) (sw cw : ℚ) (l : List Char)
    (m : List (Char × ℚ)) (n : ℚ) :
    (l.foldl (fun (acc : List (Char × ℚ) × ℚ) c =>
        (assocSet acc.1 c (weightOf isControl sw cw c),
         acc.2 + weightOf isControl sw cw c)) (m, n)).2
      = n + (l.map (weightOf isControl sw cw)).sum := by
  induction l generalizing m n with
  | nil => simp
  | cons c rest ih =>
    rw [List.foldl_cons, ih]
    simp [add_assoc]

theorem buildFold_fst (isControl : Char → Bool) (sw cw : ℚ) (l : List Char)
    (m : List (Char × ℚ)) (n : ℚ) (hnd : l.Nodup)
    (hdis : ∀ c ∈ l, c ∉ m.map Prod.fst) :
    (l.foldl (fun (acc : List (Char × ℚ) × ℚ) c =>
        (assocSet acc.1 c (weightOf isControl sw cw c),
         acc.2 + weightOf isControl sw cw c)) (m, n)).1
      = m ++ l.map (fun c => (c, weightOf isControl sw cw c)) := by
  induction l generalizing m n with
  | nil => simp
  | cons c rest ih =>
    rw [List.foldl_cons]
    have hc : c ∉ m.map Prod.fst := hdis c (List.mem_cons_self c rest)
    have hrest : ∀ c' ∈ rest, c' ∉ (m ++ [(c, weightOf isControl sw cw c)]).map Prod.fst := by
      intro c' hc' hmem
      rw [List.map_append] at hmem
      rcases List.mem_append.mp hmem with h1 | h2
      · exact hdis c' (List.mem_cons_of_mem _ hc') h1
      · simp only [List.map_cons, List.map_nil, List.mem_singleton] at h2
        exact (List.nodup_cons.mp hnd).1 (h2 ▸ hc')
    calc _ = (m ++ [(c, weightOf isControl sw cw c)])
              ++ rest.map (fun c => (c, weightOf isControl sw cw c)) := by
            rw [← ih (m ++ [(c, weightOf isControl sw cw c)])
                (n + weightOf isControl sw cw c) (List.nodup_cons.mp hnd).2 hrest]
            rw [assocSet_of_notMem _ _ _ hc]
      _ = m ++ (c :: rest).map (fun c => (c, weightOf isControl sw cw c)) := by simp

theorem listSumDiv (l : List ℚ) (c : ℚ) :
    (l.map (fun x => x / c)).sum = l.sum / c := by
  induction l with
  | nil => simp
  | cons a rest ih => simp [ih, add_div]

/-! ## Claim C6 -/

/-- C6 counterexample: the claim says InputModel construction fails with
`EmptyAlphabet` on the empty alphabet, but the source constructor has no such
check: it returns the model with an empty probability map (the normalizing
division is never executed), diverging from the spec-modelled checking
construction at the concrete input `("", 1, 1)`. -/
theorem c6_counterexample :
    InputModel.build (fun _ => false) [] 1 1 = ⟨[]⟩ ∧
    InputModelSpec.buildChecked (fun _ => false) [] 1 1 = none :=
  ⟨rfl, rfl⟩

/-- C6 amended: InputModel construction with the empty alphabet does not
fail; for every choice of `symWeight` and `controlWeight` it returns the
model with an empty symbol-to-probability map. -/
theorem c6_amended (isControl : Char → Bool) (sw cw : ℚ) :
    InputModel.build isControl [] sw cw = ⟨[]⟩ := rfl

/-! ## Claim C7 -/

/-- C7 counterexample: for the non-empty alphabet `"aa"` (a repeated
character) with positive weights 1 and 1, the constructed probabilities sum
to 1/2, not 1: the character's weight is accumulated into the normalizer once
per alphabet position but stored in the map only once. -/
theorem c7_counterexample :
    ¬ (|(InputModel.build (fun _ => false) ['a', 'a'] 1 1).probSum - 1|
        ≤ 1 / 1000000000000) :=
  of_decide_eq_true (by with_unfolding_all rfl)

/-- C7 amended: for every non-empty input alphabet without repeated
characters and every positive `symWeight` and `controlWeight`, the
constructed probabilities sum to exactly 1. -/
theorem c7_amended (isControl : Char → Bool) (inAlph : List Char) (sw cw : ℚ)
    (hne : inAlph ≠ []) (hnd : inAlph.Nodup) (hsw : 0 < sw) (hcw : 0 < cw) :
    (InputModel.build isControl inAlph sw cw).probSum = 1 := by
  have hsum : 0 < (inAlph.map (weightOf isControl sw cw)).sum := by
    apply List.sum_pos
    · intro a ha
      rcases List.mem_map.mp ha with ⟨c, _, rfl⟩
      unfold weightOf
      split <;> assumption
    · simpa using hne
  simp only [InputModel.build, InputModel.probSum]
  rw [buildFold_fst isControl sw cw inAlph [] 0 hnd (by simp),
      buildFold_snd isControl sw cw inAlph [] 0]
  simp only [List.nil_append, zero_add, List.map_map]
  show (inAlph.map ((fun x => x / (inAlph.map (weightOf isControl sw cw)).sum)
      ∘ weightOf isControl sw cw)).sum = 1
  rw [← List.map_map, listSumDiv]
  exact div_self (ne_of_gt hsum)

/-- Witness for the amended C7 at the concrete alphabet `"ab"`. -/
theorem c7_amended_witness :
    (InputModel.build (fun _ => false) ['a', 'b'] 1 1).probSum = 1 :=
  c7_amended (fun _ => false) ['a', 'b'] 1 1 (by decide) (by decide)
    (by decide) (by decide)

/-! ## Claim C5 -/

/-- C5 counterexample: the claim says a recorded transition gets log-score 0
whenever its input symbol is ε or the EOF marker, but `MachineScores::build`
only tests membership in the input model: when the EOF marker is itself in
the input model (as happens for the decoding driver, whose alphabet is
requested with the SEOF flag), an EOF transition is recorded with log-score
`log(symProb[EOF]) = log(1/2) ≠ 0`. -/
theorem c5_counterexample :
    (MachineScores.build clog (0 : WithBot ℝ) mEOF
        (fun c => decide (c = eofChar)) imEOF).getD 1 default
      = { incomingEmit := [⟨0, clog (1 / 2), eofChar, 0⟩] } ∧
    clog (1 / 2) ≠ (0 : WithBot ℝ) := by
  constructor
  · with_unfolding_all rfl
  · rw [clog, if_pos (by norm_num)]
    intro h
    rw [show (0 : WithBot ℝ) = ((0 : ℝ) : WithBot ℝ) from rfl] at h
    have h2 : Real.log ((1 / 2 : ℚ) : ℝ) = 0 := WithBot.coe_eq_coe.mp h
    have h3 : ((1 / 2 : ℚ) : ℝ) = (1 / 2 : ℝ) := by norm_num
    have h4 : Real.log (1 / 2 : ℝ) < 0 := Real.log_neg (by norm_num) (by norm_num)
    rw [h3] at h2
    linarith

/-- C5 amended: the per-transition scoring of `MachineScores::build` assigns
log-score `log(symProb[in])` whenever the input symbol is present in the
input model (even when that symbol is the EOF marker or ε); assigns log-score
0 when the input symbol is ε or the EOF marker and is not present in the
model; and records no entry when the input symbol is neither ε/EOF nor in
the model. -/
theorem c5_amended (im : InputModel) (isEOF : Char → Bool) (t : MachineTrans) :
    ((im.symProb.lookup t.inSym).isSome = true →
        transInScore clog (0 : WithBot ℝ) im isEOF t
          = some (clog ((im.symProb.lookup t.inSym).getD 0)))
    ∧ ((im.symProb.lookup t.inSym).isSome = false →
        (t.inSym = MachineNull ∨ isEOF t.inSym = true) →
        transInScore clog (0 : WithBot ℝ) im isEOF t = some 0)
    ∧ ((im.symProb.lookup t.inSym).isSome = false →
        t.inSym ≠ MachineNull → isEOF t.inSym = false →
        transInScore clog (0 : WithBot ℝ) im isEOF t = none) := by
  refine ⟨fun h1 => ?_, fun h1 h2 => ?_, fun h1 h2 h3 => ?_⟩
  · rw [transInScore, if_pos (Or.inr (Or.inr (by simp [h1]))), if_pos (by simp [h1])]
  · rw [transInScore, if_pos ?_, if_neg (by simp [h1])]
    rcases h2 with h2 | h2
    · exact Or.inl h2
    · exact Or.inr (Or.inl h2)
  · rw [transInScore, if_neg]
    push_neg
    exact ⟨h2, by simp [h3], by simp [h1]⟩

/-- Witness for the amended C5 at a concrete transition present in the
model. -/
theorem c5_amended_witness :
    transInScore clog (0 : WithBot ℝ) imEOF (fun c => decide (c = eofChar))
        ⟨'a', 'A', 1⟩
      = some (clog ((imEOF.symProb.lookup 'a').getD 0)) :=
  (c5_amended imEOF (fun c => decide (c = eofChar)) ⟨'a', 'A', 1⟩).1
    (of_decide_eq_true (by with_unfolding_all rfl))

/-! ## Claim C10 -/

theorem foldMax_init (d : DPIn) (cols : List Col) (l : List Cand) (i : Score) :
    l.foldl (fun m c => max m (contrib d cols c)) i
      = max i (maxContrib d cols l) := by
  induction l generalizing i with
  | nil => simp [maxContrib]
  | cons c rest ih =>
    rw [List.foldl_cons, ih]
    show _ = max i (List.foldl _ _ (c :: rest))
    rw [List.foldl_cons, ih (max ⊥ (contrib d cols c))]
    simp [max_assoc]

theorem maxContrib_cons (d : DPIn) (cols : List Col) (c : Cand) (rest : List Cand) :
    maxContrib d cols (c :: rest)
      = max (contrib d cols c) (maxContrib d cols rest) := by
  rw [maxContrib, List.foldl_cons, foldMax_init]
  simp [maxContrib]

/-- C10: decoding is deterministic and the traceback argmax is the strict
fold of `updateBest`: (i) two runs on identical inputs produce identical
outcomes; (ii) after folding `updateBest` over a candidate list the running
`best` is exactly the maximum of the recomputed contributions; (iii) a
candidate whose contribution merely ties the running best never replaces it,
so ties are broken in favor of the first candidate enumerated. -/
theorem c10_deterministic :
    (∀ (d : DPIn) (fuel tbfuel : ℕ),
        traceback d fuel tbfuel = traceback d fuel tbfuel)
    ∧ (∀ (d : DPIn) (cols : List Col) (l : List Cand) (a : BestAcc),
        (l.foldl (updateBest d cols) a).best = max a.best (maxContrib d cols l))
    ∧ (∀ (d : DPIn) (cols : List Col) (a : BestAcc) (c : Cand),
        contrib d cols c = a.best → updateBest d cols a c = a) := by
  refine ⟨fun _ _ _ => rfl, fun d cols l => ?_, fun d cols a c h => ?_⟩
  · induction l with
    | nil => intro a; simp [maxContrib]
    | cons c rest ih =>
      intro a
      rw [List.foldl_cons, ih, maxContrib_cons]
      have hb : (updateBest d cols a c).best = max a.best (contrib d cols c) := by
        unfold updateBest
        split
        · exact (max_eq_right (le_of_lt (by assumption))).symm
        · exact (max_eq_left (le_of_not_lt (by assumption))).symm
      rw [hb]
      simp [max_assoc]
  · unfold updateBest
    rw [h, if_neg (lt_irrefl _)]

/-! ## Claim C8 -/

/-- C8 counterexample: on the global-mode machine `exLoop` (state 0 cycles
to itself and also feeds the accept state) the traceback loop terminates
normally at the configuration `(state = 0, pos = 1)`: it stops at `state == 0`
with `pos > 0`, silently returning a truncated decode, contradicting the
claim that termination happens exactly at `pos == 0 && state == 0`. -/
theorem c8_counterexample :
    exLoop.localMode = false ∧
    traceback exLoop 20 10 = TBOut.done ['x'] ['x'] ⟨0, 1, 0⟩ :=
  ⟨rfl, of_decide_eq_true (by with_unfolding_all rfl)⟩

theorem relCheckB_ne_bot {b e : Score} (h : relCheckB b e = true) : b ≠ ⊥ := by
  intro hb
  rw [relCheckB, if_pos (Or.inl hb)] at h
  exact Bool.false_ne_true h

theorem getCell_ne_bot {d : DPIn} {cols : List Col} {s : ℕ} {p : ℤ} {m : ℕ}
    (h : getCell d cols s p m ≠ ⊥) : 0 ≤ p ∧ p ≤ (d.seqLen : ℤ) := by
  by_contra hc
  exact h (by rw [getCell, if_neg hc])

theorem foldBest_choice (d : DPIn) (cols : List Col) (l : List Cand) (a : BestAcc) :
    l.foldl (updateBest d cols) a = a
    ∨ ∃ c ∈ l, l.foldl (updateBest d cols) a
        = ⟨contrib d cols c, c.src, c.srcPos, c.srcMut, c.sym.getD MachineNull, true⟩ := by
  induction l generalizing a with
  | nil => exact Or.inl rfl
  | cons c rest ih =>
    rw [List.foldl_cons]
    rcases ih (updateBest d cols a c) with h | ⟨c', hc', h⟩
    · rw [h]
      unfold updateBest
      split
      · exact Or.inr ⟨c, List.mem_cons_self c rest, rfl⟩
      · exact Or.inl rfl
    · exact Or.inr ⟨c', List.mem_cons_of_mem _ hc', h⟩

theorem tbLoop_done_state (d : DPIn) (cols : List Col) (n : ℕ) (cfg : TbCfg)
    (tr ch trOut chOut : List Char) (final : TbCfg)
    (hpos : 0 ≤ cfg.pos)
    (h : tbLoop d cols n cfg tr ch = TBOut.done trOut chOut final) :
    final.state = 0 ∧ 0 ≤ final.pos := by
  induction n generalizing cfg tr ch with
  | zero => rw [tbLoop] at h; exact TBOut.noConfusion h
  | succ n ih =>
    rw [tbLoop] at h
    by_cases hcond : 0 ≤ cfg.pos ∧ 0 < cfg.state
    · rw [if_pos hcond] at h
      by_cases hchk : tbCheck d cols (tbBest d cols cfg) cfg = true
      · rw [if_pos hchk] at h
        rcases foldBest_choice d cols (cands d cfg) acc0 with heq | ⟨c, _, heq⟩
        · rw [tbBest, heq] at hchk
          simp [tbCheck, acc0] at hchk
        · rw [tbBest, heq] at hchk h
          have hbot : contrib d cols c ≠ ⊥ :=
            relCheckB_ne_bot ((Bool.and_eq_true _ _).mp hchk).1
          have hcell : getCell d cols c.src c.srcPos c.srcMut ≠ ⊥ := by
            intro hx
            exact hbot (by rw [contrib, hx, WithBot.bot_add])
          exact ih _ _ _ (getCell_ne_bot hcell).1 h
      · rw [if_neg hchk] at h
        exact TBOut.noConfusion h
    · rw [if_neg hcond] at h
      injection h with h1 h2 h3
      subst h3
      refine ⟨?_, hpos⟩
      omega

/-- C8 amended: in global mode the traceback loop, entered at a nonnegative
position, terminates normally only at configurations with `state == 0` and
`pos ≥ 0` — but the position may still be positive there.  When no
predecessor chain reaches state 0 the loop never terminates normally (it
aborts on a failed consistency check or runs without bound). -/
theorem c8_amended (d : DPIn) (fuel tbfuel : ℕ) (trOut chOut : List Char)
    (final : TbCfg)
    (h : traceback d fuel tbfuel = TBOut.done trOut chOut final) :
    final.state = 0 ∧ 0 ≤ final.pos := by
  rw [traceback] at h
  by_cases hll : ¬ (⊥ < loglike d fuel)
  · rw [if_pos hll] at h
    exact TBOut.noConfusion h
  · rw [if_neg hll] at h
    set cols := finalCols d fuel with hcols
    set a := if d.localMode then
        (List.range d.nStates).foldl
          (fun acc s => updateBest d cols acc ⟨s, (d.seqLen : ℤ), 0, 0, none⟩) acc0
      else updateBest d cols acc0 ⟨d.nStates - 1, (d.seqLen : ℤ), 0, 0, none⟩ with ha
    by_cases hchk : tbCheck d cols a ⟨d.nStates - 1, (d.seqLen : ℤ), 0⟩ = true
    · rw [if_pos hchk] at h
      have hfound : 0 ≤ a.bestPos := by
        have hchoice : a = acc0 ∨ ∃ c : Cand, 0 ≤ c.srcPos ∧
            a = ⟨contrib d cols c, c.src, c.srcPos, c.srcMut, c.sym.getD MachineNull, true⟩ := by
          rw [ha]
          by_cases hl : d.localMode
          · rw [if_pos hl]
            have : ∀ (l : List ℕ) (acc : BestAcc),
                (l.foldl (fun acc s => updateBest d cols acc ⟨s, (d.seqLen : ℤ), 0, 0, none⟩) acc = acc)
                ∨ ∃ c : Cand, 0 ≤ c.srcPos ∧
                  l.foldl (fun acc s => updateBest d cols acc ⟨s, (d.seqLen : ℤ), 0, 0, none⟩) acc
                    = ⟨contrib d cols c, c.src, c.srcPos, c.srcMut, c.sym.getD MachineNull, true⟩ := by
              intro l
              induction l with
              | nil => exact fun acc => Or.inl rfl
              | cons s rest ih2 =>
                intro acc
                rw [List.foldl_cons]
                rcases ih2 (updateBest d cols acc ⟨s, (d.seqLen : ℤ), 0, 0, none⟩) with h2 | ⟨c, hc0, h2⟩
                · rw [h2]
                  unfold updateBest
                  split
                  · exact Or.inr ⟨⟨s, (d.seqLen : ℤ), 0, 0, none⟩, Int.ofNat_nonneg _, rfl⟩
                  · exact Or.inl rfl
                · exact Or.inr ⟨c, hc0, h2⟩
            exact this (List.range d.nStates) acc0
          · rw [if_neg hl]
            unfold updateBest
            split
            · exact Or.inr ⟨⟨d.nStates - 1, (d.seqLen : ℤ), 0, 0, none⟩, Int.ofNat_nonneg _, rfl⟩
            · exact Or.inl rfl
        rcases hchoice with h2 | ⟨c, hc0, h2⟩
        · rw [h2] at hchk
          simp [tbCheck, acc0] at hchk
        · rw [h2]
          exact hc0
      exact tbLoop_done_state d cols tbfuel _ [] [] trOut chOut final hfound h
    · rw [if_neg hchk] at h
      exact TBOut.noConfusion h

/-- Witness for the amended C8 on the concrete machine `exG`, whose decode
finishes normally at `(state 0, pos 0)`. -/
theorem c8_amended_witness :
    (⟨0, 0, 0⟩ : TbCfg).state = 0 ∧ (0 : ℤ) ≤ (⟨0, 0, 0⟩ : TbCfg).pos :=
  c8_amended exG 20 10 ['x'] ['x'] ⟨0, 0, 0⟩
    (of_decide_eq_true (by with_unfolding_all rfl))

/-! ## Claim C9 -/

theorem tbLoop_filter (d : DPIn) (cols : List Col) (n : ℕ) (cfg : TbCfg)
    (tr ch trOut chOut : List Char) (final : TbCfg)
    (hinv : tr = ch.filter (fun c => c ≠ MachineNull))
    (h : tbLoop d cols n cfg tr ch = TBOut.done trOut chOut final) :
    trOut = chOut.filter (fun c => c ≠ MachineNull) := by
  induction n generalizing cfg tr ch with
  | zero => rw [tbLoop] at h; exact TBOut.noConfusion h
  | succ n ih =>
    rw [tbLoop] at h
    by_cases hcond : 0 ≤ cfg.pos ∧ 0 < cfg.state
    · rw [if_pos hcond] at h
      by_cases hchk : tbCheck d cols (tbBest d cols cfg) cfg = true
      · rw [if_pos hchk] at h
        refine ih _ _ _ ?_ h
        by_cases hsym : (tbBest d cols cfg).bestInSym ≠ MachineNull
        · rw [if_pos hsym, hinv]
          simp [List.filter_cons, hsym]
        · rw [if_neg hsym, hinv]
          push_neg at hsym
          simp [List.filter_cons, hsym]
      · rw [if_neg hchk] at h
        exact TBOut.noConfusion h
    · rw [if_neg hcond] at h
      injection h with h1 h2 h3
      rw [← h1, ← h2, hinv]

/-- C9 counterexample: the `exEOF` machine is exactly what `MachineScores`
builds from a machine whose single transition carries the EOF marker (the
character of code point 4) on input; the decode succeeds and the returned
string contains that EOF symbol — the source only filters ε (`if
(bestInSym)`), not the EOF marker, contradicting the claim that no EOF
symbol ever appears in the returned string. -/
theorem c9_counterexample :
    MachineScores.build (fun _ => (0 : Score)) 0 mEOF
        (fun c => decide (c = eofChar)) ⟨[]⟩
      = exEOF.stateScores ∧
    traceback exEOF 20 10 = TBOut.done [eofChar] [eofChar] ⟨0, 0, 0⟩ ∧
    eofChar ≠ MachineNull :=
  ⟨of_decide_eq_true (by with_unfolding_all rfl),
   of_decide_eq_true (by with_unfolding_all rfl),
   of_decide_eq_true (by with_unfolding_all rfl)⟩

/-- C9 amended: for every decode that terminates normally, the returned
string consists, in path order, of exactly those chosen-predecessor input
symbols that are not ε — every non-ε chosen symbol (including EOF markers)
is prepended, and no ε ever appears in the returned string. -/
theorem c9_amended (d : DPIn) (fuel tbfuel : ℕ) (trOut chOut : List Char)
    (final : TbCfg)
    (h : traceback d fuel tbfuel = TBOut.done trOut chOut final) :
    trOut = chOut.filter (fun c => c ≠ MachineNull) := by
  rw [traceback] at h
  by_cases hll : ¬ (⊥ < loglike d fuel)
  · rw [if_pos hll] at h
    exact TBOut.noConfusion h
  · rw [if_neg hll] at h
    by_cases hchk : tbCheck d (finalCols d fuel)
        (if d.localMode then
          (List.range d.nStates).foldl
            (fun acc s => updateBest d (finalCols d fuel) acc
              ⟨s, (d.seqLen : ℤ), 0, 0, none⟩) acc0
        else updateBest d (finalCols d fuel) acc0
          ⟨d.nStates - 1, (d.seqLen : ℤ), 0, 0, none⟩)
        ⟨d.nStates - 1, (d.seqLen : ℤ), 0⟩ = true
    · rw [if_pos hchk] at h
      exact tbLoop_filter d (finalCols d fuel) tbfuel _ [] [] trOut chOut final rfl h
    · rw [if_neg hchk] at h
      exact TBOut.noConfusion h

/-- Witness for the amended C9 on the concrete machine `exG`. -/
theorem c9_amended_witness :
    ['x'] = ['x'].filter (fun c => c ≠ MachineNull) :=
  c9_amended exG 20 10 ['x'] ['x'] ⟨0, 0, 0⟩
    (of_decide_eq_true (by with_unfolding_all rfl))

/-! ## Column-chain lemmas -/

theorem getD_map_fst (l : List (Col × Bool)) (i : ℕ) :
    (l.map Prod.fst).getD i botCol = (l.getD i (botCol, false)).1 := by
  induction l generalizing i with
  | nil => cases i <;> rfl
  | cons cb rest ih => cases i with
    | zero => rfl
    | succ j => exact ih j

theorem fillRest_colRec (d : DPIn) (fuel : ℕ) :
    ∀ (n i p : ℕ), i < n →
      (fillRest d fuel (colRec d fuel p).1 (p + 1) n).getD i (botCol, false)
        = colRec d fuel (p + 1 + i) := by
  intro n
  induction n with
  | zero => intro i p hi; omega
  | succ n ih =>
    intro i p hi
    rw [fillRest]
    cases i with
    | zero =>
      show buildColumn d fuel (colRec d fuel p).1 (p + 1) botCol = colRec d fuel (p + 1)
      rfl
    | succ j =>
      show (fillRest d fuel (buildColumn d fuel (colRec d fuel p).1 (p + 1) botCol).1
          (p + 1 + 1) n).getD j (botCol, false) = _
      have : (buildColumn d fuel (colRec d fuel p).1 (p + 1) botCol)
          = colRec d fuel (p + 1) := rfl
      rw [this]
      rw [ih j (p + 1) (by omega)]
      congr 1
      omega

theorem colAt_eq (d : DPIn) (fuel : ℕ) (p : ℕ) (hp : p ≤ d.seqLen) :
    colAt d fuel p = (colRec d fuel p).1 := by
  cases p with
  | zero => rfl
  | succ i =>
    rw [colAt, fillCols, getD_map_fst]
    show ((fillRest d fuel (buildColumn d fuel botCol 0 (initCol d)).1 1
        d.seq.length).getD i (botCol, false)).1 = _
    have h0 : (buildColumn d fuel botCol 0 (initCol d)) = colRec d fuel 0 := rfl
    rw [h0, show (1 : ℕ) = 0 + 1 from rfl,
        fillRest_colRec d fuel d.seq.length i 0 (by exact Nat.lt_of_succ_le hp)]
    rw [show 0 + 1 + i = i + 1 from by omega]

/-! ## T-layer structure (Claim C2) -/

theorem rangeFold_upd2 (s : ℕ) (g : ℕ → Score) (m : ℕ) (t : ℕ → ℕ → Score) (k : ℕ) :
    ((List.range m).foldl (fun t k' => upd2 t s k' (g k')) t) s k
      = if k < m then g k else t s k := by
  induction m generalizing t with
  | zero => simp
  | succ m ih =>
    rw [List.range_succ, List.foldl_append, List.foldl_cons, List.foldl_nil]
    show upd2 ((List.range m).foldl (fun t k' => upd2 t s k' (g k')) t) s m (g m) s k = _
    rw [upd2]
    by_cases hk : k = m
    · subst hk
      rw [if_pos ⟨rfl, rfl⟩, if_pos (Nat.lt_succ_self k)]
    · rw [if_neg fun h => hk h.2, ih]
      by_cases h2 : k < m
      · rw [if_pos h2, if_pos (by omega)]
      · rw [if_neg h2, if_neg (by omega)]

theorem listFold_upd2_other (s' s : ℕ) (g : ℕ → Score) (l : List ℕ)
    (t : ℕ → ℕ → Score) (k : ℕ) (hne : s' ≠ s) :
    ((l.foldl (fun t k' => upd2 t s' k' (g k')) t) s k) = t s k := by
  induction l generalizing t with
  | nil => rfl
  | cons a rest ih =>
    rw [List.foldl_cons, ih]
    rw [upd2, if_neg fun h => hne h.1.symm]

theorem visitState_T_other (d : DPIn) (prev : Col) (p : ℕ) (cur : Col)
    (s' s k : ℕ) (hne : s' ≠ s) :
    (visitState d prev p cur s').T s k = cur.T s k := by
  simp only [visitState]
  split
  · exact listFold_upd2_other s' s _ _ cur.T k hne
  · rfl

theorem visitState_T_self (d : DPIn) (prev : Col) (p : ℕ) (cur : Col) (s k : ℕ) :
    (visitState d prev p cur s).T s k
      = if 0 < d.mdlAt s ∧ 0 < p ∧ k < d.mdlAt s - 1
        then prev.T s (k + 1) + d.muts.sub (tanDupBase (d.ss s) (k + 1)) (d.seq.getD (p - 1) 0)
        else cur.T s k := by
  simp only [visitState]
  by_cases hcond : 0 < d.mdlAt s ∧ 0 < p
  · rw [if_pos hcond]
    dsimp only
    rw [rangeFold_upd2]
    by_cases hk : k < d.mdlAt s - 1
    · rw [if_pos hk, if_pos ⟨hcond.1, hcond.2, hk⟩]
    · rw [if_neg hk, if_neg fun h => hk h.2.2]
  · rw [if_neg hcond]
    dsimp only
    rw [if_neg fun h => hcond ⟨h.1, h.2.1⟩]

theorem foldVisit_T (d : DPIn) (prev : Col) (p : ℕ) (order : List ℕ) (cur : Col)
    (s k : ℕ) :
    ((order.foldl (visitState d prev p) cur).T s k)
      = if s ∈ order ∧ 0 < d.mdlAt s ∧ 0 < p ∧ k < d.mdlAt s - 1
        then prev.T s (k + 1) + d.muts.sub (tanDupBase (d.ss s) (k + 1)) (d.seq.getD (p - 1) 0)
        else cur.T s k := by
  induction order generalizing cur with
  | nil => simp
  | cons s' rest ih =>
    rw [List.foldl_cons, ih]
    by_cases hs : s = s'
    · subst hs
      by_cases hC : 0 < d.mdlAt s ∧ 0 < p ∧ k < d.mdlAt s - 1
      · by_cases hm : s ∈ rest
        · rw [if_pos ⟨hm, hC⟩, if_pos ⟨List.mem_cons_self s rest, hC⟩]
        · rw [if_neg fun h => hm h.1, visitState_T_self, if_pos hC,
              if_pos ⟨List.mem_cons_self s rest, hC⟩]
      · rw [if_neg fun h => hC h.2, if_neg fun h => hC h.2,
            visitState_T_self, if_neg hC]
    · rw [visitState_T_other d prev p cur s' s k fun h => hs h.symm]
      by_cases hr : s ∈ rest ∧ 0 < d.mdlAt s ∧ 0 < p ∧ k < d.mdlAt s - 1
      · rw [if_pos hr, if_pos ⟨List.mem_cons_of_mem s' hr.1, hr.2⟩]
      · rw [if_neg hr, if_neg fun h => hr ⟨(List.mem_cons.mp h.1).resolve_left hs, h.2⟩]

theorem buildColumn_S (d : DPIn) (fuel : ℕ) (prev : Col) (p : ℕ) (cur0 : Col) :
    (buildColumn d fuel prev p cur0).1.S
      = (closureRun d fuel
          ⟨(d.stateOrder.foldl (visitState d prev p) cur0).S,
           (d.stateOrder.foldl (visitState d prev p) cur0).D,
           d.stateOrder.reverse, fun s => decide (s < d.nStates)⟩).S := by
  simp only [buildColumn]
  split <;> rfl

theorem buildColumn_D (d : DPIn) (fuel : ℕ) (prev : Col) (p : ℕ) (cur0 : Col) :
    (buildColumn d fuel prev p cur0).1.D
      = (closureRun d fuel
          ⟨(d.stateOrder.foldl (visitState d prev p) cur0).S,
           (d.stateOrder.foldl (visitState d prev p) cur0).D,
           d.stateOrder.reverse, fun s => decide (s < d.nStates)⟩).D := by
  simp only [buildColumn]
  split <;> rfl

theorem buildColumn_T (d : DPIn) (fuel : ℕ) (prev : Col) (p : ℕ) (cur0 : Col)
    (s k : ℕ) :
    (buildColumn d fuel prev p cur0).1.T s k
      = if 0 < p ∧ s < d.nStates ∧ k < d.mdlAt s
        then max ((d.stateOrder.foldl (visitState d prev p) cur0).T s k)
               ((buildColumn d fuel prev p cur0).1.S s + d.muts.tanDup + d.muts.len k)
        else (d.stateOrder.foldl (visitState d prev p) cur0).T s k := by
  rw [buildColumn_S]
  simp only [buildColumn]
  by_cases hp : 0 < p
  · rw [if_pos hp]
    dsimp only
    by_cases hsk : s < d.nStates ∧ k < d.mdlAt s
    · rw [if_pos hsk, if_pos ⟨hp, hsk⟩]
    · rw [if_neg hsk, if_neg fun h => hsk h.2]
  · rw [if_neg hp, if_neg fun h => hp h.1]

/-! ## Claim C2 -/

/-- C2: for every state with positive dup capacity, every position `p > 0`
and every dup index `k < M_s`, the value of `T[s,p,k]` at the end of column
`p` is the maximum of the extension term (from `T[s,p-1,k+1]`, present only
when `k < M_s - 1`) and the seed term computed from the final, post-closure
value of `S[s,p]`. -/
theorem c2_tcell (d : DPIn) (fuel : ℕ) (s p k : ℕ)
    (hs : s < d.nStates) (hso : s ∈ d.stateOrder)
    (hp : 0 < p) (hpL : p ≤ d.seqLen) (hk : k < d.mdlAt s) :
    (colAt d fuel p).T s k
      = max (if k < d.mdlAt s - 1
             then (colAt d fuel (p - 1)).T s (k + 1)
                  + d.muts.sub (tanDupBase (d.ss s) (k + 1)) (d.seq.getD (p - 1) 0)
             else ⊥)
            ((colAt d fuel p).S s + d.muts.tanDup + d.muts.len k) := by
  obtain ⟨q, rfl⟩ : ∃ q, p = q + 1 := ⟨p - 1, by omega⟩
  rw [colAt_eq d fuel (q + 1) hpL,
      show colRec d fuel (q + 1)
        = buildColumn d fuel (colRec d fuel q).1 (q + 1) botCol from rfl,
      buildColumn_T, if_pos ⟨Nat.succ_pos q, hs, hk⟩, foldVisit_T]
  simp only [Nat.add_sub_cancel]
  congr 1
  by_cases hk1 : k < d.mdlAt s - 1
  · rw [if_pos ⟨hso, by omega, Nat.succ_pos q, hk1⟩, if_pos hk1,
        colAt_eq d fuel q (by omega)]
  · rw [if_neg (by tauto), if_neg hk1]
    rfl

/-- Witness for C2 on the concrete machine `exDup` at `(s, p, k) = (1, 1, 0)`. -/
theorem c2_tcell_witness :
    (colAt exDup 20 1).T 1 0
      = max (if 0 < exDup.mdlAt 1 - 1
             then (colAt exDup 20 0).T 1 1
                  + exDup.muts.sub (tanDupBase (exDup.ss 1) 1) (exDup.seq.getD 0 0)
             else ⊥)
            ((colAt exDup 20 1).S 1 + exDup.muts.tanDup + exDup.muts.len 0) :=
  c2_tcell exDup 20 1 1 0 (by decide) (by decide) (by decide) (by decide) (by decide)

/-! ## Closure lemmas: pointwise facts about the relax steps -/

theorem updf_same {α : Type} (f : ℕ → α) (i : ℕ) (v : α) : updf f i v i = v := by
  rw [updf, if_pos rfl]

theorem updf_other {α : Type} (f : ℕ → α) (i : ℕ) (v : α) (j : ℕ) (h : j ≠ i) :
    updf f i v j = f j := by
  rw [updf, if_neg h]

theorem updf_ge (f : ℕ → Score) (i : ℕ) (v : Score) (h : f i ≤ v) (x : ℕ) :
    f x ≤ updf f i v x := by
  rw [updf]
  split
  · next he => exact he ▸ h
  · exact le_refl _

theorem updf_le (f : ℕ → Score) (i : ℕ) (v : Score) (g : ℕ → Score)
    (hv : v ≤ g i) (hf : ∀ x, f x ≤ g x) (x : ℕ) : updf f i v x ≤ g x := by
  rw [updf]
  split
  · next hx => exact hx ▸ hv
  · exact hf x

theorem foldl_pres {α β : Type} (P : α → Prop) (f : α → β → α) (l : List β)
    (hf : ∀ acc x, x ∈ l → P acc → P (f acc x)) :
    ∀ acc, P acc → P (l.foldl f acc) := by
  induction l with
  | nil => exact fun acc h => h
  | cons x rest ih =>
    intro acc h
    rw [List.foldl_cons]
    exact ih (fun a y hy => hf a y (List.mem_cons_of_mem _ hy))
      _ (hf acc x (List.mem_cons_self _ _) h)

theorem emitRelax_S (d : DPIn) (dsrc ssrc : Score) (acc : CState)
    (ot : OutgoingTransScore Score) : (emitRelax d dsrc ssrc acc ot).S = acc.S := by
  rw [emitRelax]; split <;> rfl

theorem emitRelax_D_ge (d : DPIn) (dsrc ssrc : Score) (acc : CState)
    (ot : OutgoingTransScore Score) (x : ℕ) :
    acc.D x ≤ (emitRelax d dsrc ssrc acc ot).D x := by
  rw [emitRelax]
  split
  · next h => exact updf_ge _ _ _ (le_of_lt h) x
  · exact le_refl _

theorem emitRelax_ws_mem (d : DPIn) (dsrc ssrc : Score) (acc : CState)
    (ot : OutgoingTransScore Score) (x : ℕ) (h : x ∈ acc.ws) :
    x ∈ (emitRelax d dsrc ssrc acc ot).ws := by
  rw [emitRelax]
  split
  · dsimp only
    split
    · exact h
    · exact List.mem_cons_of_mem _ h
  · exact h

theorem emitRelax_ws_sub (d : DPIn) (dsrc ssrc : Score) (acc : CState)
    (ot : OutgoingTransScore Score) (x : ℕ)
    (h : x ∈ (emitRelax d dsrc ssrc acc ot).ws) : x ∈ acc.ws ∨ x = ot.dest := by
  rw [emitRelax] at h
  revert h
  split
  · dsimp only
    split
    · exact fun h => Or.inl h
    · intro h
      rcases List.mem_cons.mp h with h | h
      · exact Or.inr h
      · exact Or.inl h
  · exact fun h => Or.inl h

theorem nullRelax_S_ge (dsrc ssrc : Score) (acc : CState)
    (ot : OutgoingTransScore Score) (x : ℕ) :
    acc.S x ≤ (nullRelax dsrc ssrc acc ot).S x := by
  rw [nullRelax]
  split
  · split
    · next h => exact updf_ge _ _ _ (le_of_lt h) x
    · exact le_refl _
  · split
    · next h => exact updf_ge _ _ _ (le_of_lt h) x
    · exact le_refl _

theorem nullRelax_D_ge (dsrc ssrc : Score) (acc : CState)
    (ot : OutgoingTransScore Score) (x : ℕ) :
    acc.D x ≤ (nullRelax dsrc ssrc acc ot).D x := by
  rw [nullRelax]
  split
  · next h =>
    split
    · exact updf_ge _ _ _ (le_of_lt h) x
    · exact updf_ge _ _ _ (le_of_lt h) x
  · split
    · exact le_refl _
    · exact le_refl _

theorem nullRelax_ws_mem (dsrc ssrc : Score) (acc : CState)
    (ot : OutgoingTransScore Score) (x : ℕ) (h : x ∈ acc.ws) :
    x ∈ (nullRelax dsrc ssrc acc ot).ws := by
  rw [nullRelax]
  split <;> split <;> (try dsimp only) <;> [split; split; split; skip] <;>
    first
      | exact h
      | exact List.mem_cons_of_mem _ h

theorem nullRelax_ws_sub (dsrc ssrc : Score) (acc : CState)
    (ot : OutgoingTransScore Score) (x : ℕ)
    (h : x ∈ (nullRelax dsrc ssrc acc ot).ws) : x ∈ acc.ws ∨ x = ot.dest := by
  rw [nullRelax] at h
  revert h
  split <;> split <;> (try dsimp only) <;> [split; split; split; skip] <;>
    intro h <;>
    first
      | exact Or.inl h
      | (rcases List.mem_cons.mp h with h | h
         · exact Or.inr h
         · exact Or.inl h)

/-! ## Closure lemmas: unfolding, growth and the closed-point upper bound -/

theorem closureStep_nil (d : DPIn) (S0 D0 : ℕ → Score) (os0 : ℕ → Bool) :
    closureStep d ⟨S0, D0, [], os0⟩ = ⟨S0, D0, [], os0⟩ := rfl

theorem closureStep_cons (d : DPIn) (S0 D0 : ℕ → Score) (s : ℕ) (rest : List ℕ)
    (os0 : ℕ → Bool) :
    closureStep d ⟨S0, D0, s :: rest, os0⟩ =
      (d.ss s).outgoingNull.foldl
        (nullRelax (D0 s) (max (S0 s) (D0 s + d.muts.delEnd)))
        ((d.ss s).outgoingEmit.foldl
          (emitRelax d (D0 s) (max (S0 s) (D0 s + d.muts.delEnd)))
          ⟨updf S0 s (max (S0 s) (D0 s + d.muts.delEnd)), D0, rest,
           updf os0 s false⟩) := rfl

theorem closureRun_zero (d : DPIn) (st : CState) : closureRun d 0 st = st := rfl

theorem closureRun_succ (d : DPIn) (n : ℕ) (st : CState) :
    closureRun d (n + 1) st = closureRun d n (closureStep d st) := rfl

theorem closureRun_add (d : DPIn) (a b : ℕ) (st : CState) :
    closureRun d (a + b) st = closureRun d b (closureRun d a st) := by
  induction a generalizing st with
  | zero => rw [Nat.zero_add, closureRun_zero]
  | succ a ih =>
    rw [show a + 1 + b = (a + b) + 1 from by omega, closureRun_succ,
      closureRun_succ, ih]

theorem getD_mem_or {α : Type} (l : List α) (i : ℕ) (dflt : α) :
    l.getD i dflt ∈ l ∨ l.getD i dflt = dflt := by
  induction l generalizing i with
  | nil => exact Or.inr rfl
  | cons a rest ih =>
    cases i with
    | zero => exact Or.inl (List.mem_cons_self _ _)
    | succ j =>
      rw [List.getD_cons_succ]
      rcases ih j with h | h
      · exact Or.inl (List.mem_cons_of_mem _ h)
      · exact Or.inr h

theorem wf_ss (d : DPIn) (hwf : wfDP d) (s : ℕ) :
    (∀ it ∈ (d.ss s).incomingEmit, it.src < d.nStates)
    ∧ (∀ it ∈ (d.ss s).incomingNull, it.src < d.nStates)
    ∧ (∀ ot ∈ (d.ss s).outgoingEmit, ot.dest < d.nStates)
    ∧ (∀ ot ∈ (d.ss s).outgoingNull, ot.dest < d.nStates) := by
  rcases getD_mem_or d.stateScores s {} with h | h
  · exact hwf.1 _ h
  · refine ⟨?_, ?_, ?_, ?_⟩ <;>
      (rw [DPIn.ss, h]; intro z hz; exact absurd hz (List.not_mem_nil z))

theorem emitFold_S (d : DPIn) (dsrc ssrc : Score) (l : List (OutgoingTransScore Score))
    (acc : CState) (x : ℕ) :
    (l.foldl (emitRelax d dsrc ssrc) acc).S x = acc.S x := by
  induction l generalizing acc with
  | nil => rfl
  | cons ot rest ih => rw [List.foldl_cons, ih, emitRelax_S]

theorem emitFold_D_ge (d : DPIn) (dsrc ssrc : Score) (l : List (OutgoingTransScore Score))
    (acc : CState) (x : ℕ) :
    acc.D x ≤ (l.foldl (emitRelax d dsrc ssrc) acc).D x := by
  induction l generalizing acc with
  | nil => exact le_refl _
  | cons ot rest ih =>
    exact le_trans (emitRelax_D_ge d dsrc ssrc acc ot x) (ih _)

theorem nullFold_S_ge (dsrc ssrc : Score) (l : List (OutgoingTransScore Score))
    (acc : CState) (x : ℕ) :
    acc.S x ≤ (l.foldl (nullRelax dsrc ssrc) acc).S x := by
  induction l generalizing acc with
  | nil => exact le_refl _
  | cons ot rest ih =>
    exact le_trans (nullRelax_S_ge dsrc ssrc acc ot x) (ih _)

theorem nullFold_D_ge (dsrc ssrc : Score) (l : List (OutgoingTransScore Score))
    (acc : CState) (x : ℕ) :
    acc.D x ≤ (l.foldl (nullRelax dsrc ssrc) acc).D x := by
  induction l generalizing acc with
  | nil => exact le_refl _
  | cons ot rest ih =>
    exact le_trans (nullRelax_D_ge dsrc ssrc acc ot x) (ih _)

theorem emitFold_ws_sub (d : DPIn) (dsrc ssrc : Score)
    (l : List (OutgoingTransScore Score)) (acc : CState) (x : ℕ)
    (h : x ∈ (l.foldl (emitRelax d dsrc ssrc) acc).ws) :
    x ∈ acc.ws ∨ ∃ ot ∈ l, x = ot.dest := by
  induction l generalizing acc with
  | nil => exact Or.inl h
  | cons ot rest ih =>
    rw [List.foldl_cons] at h
    rcases ih _ h with h2 | ⟨ot2, hot2, he⟩
    · rcases emitRelax_ws_sub d dsrc ssrc acc ot x h2 with h3 | h3
      · exact Or.inl h3
      · exact Or.inr ⟨ot, List.mem_cons_self _ _, h3⟩
    · exact Or.inr ⟨ot2, List.mem_cons_of_mem _ hot2, he⟩

theorem nullFold_ws_sub (dsrc ssrc : Score)
    (l : List (OutgoingTransScore Score)) (acc : CState) (x : ℕ)
    (h : x ∈ (l.foldl (nullRelax dsrc ssrc) acc).ws) :
    x ∈ acc.ws ∨ ∃ ot ∈ l, x = ot.dest := by
  induction l generalizing acc with
  | nil => exact Or.inl h
  | cons ot rest ih =>
    rw [List.foldl_cons] at h
    rcases ih _ h with h2 | ⟨ot2, hot2, he⟩
    · rcases nullRelax_ws_sub dsrc ssrc acc ot x h2 with h3 | h3
      · exact Or.inl h3
      · exact Or.inr ⟨ot, List.mem_cons_self _ _, h3⟩
    · exact Or.inr ⟨ot2, List.mem_cons_of_mem _ hot2, he⟩

theorem closureStep_S_ge (d : DPIn) (st : CState) (x : ℕ) :
    st.S x ≤ (closureStep d st).S x := by
  obtain ⟨S0, D0, ws0, os0⟩ := st
  cases ws0 with
  | nil => exact le_refl _
  | cons s rest =>
    rw [closureStep_cons]
    refine le_trans
      (updf_ge S0 s (max (S0 s) (D0 s + d.muts.delEnd)) (le_max_left _ _) x) ?_
    refine le_trans (le_of_eq (emitFold_S d (D0 s)
      (max (S0 s) (D0 s + d.muts.delEnd)) (d.ss s).outgoingEmit
      ⟨updf S0 s (max (S0 s) (D0 s + d.muts.delEnd)), D0, rest,
       updf os0 s false⟩ x).symm) ?_
    exact nullFold_S_ge _ _ _ _ x

theorem closureStep_D_ge (d : DPIn) (st : CState) (x : ℕ) :
    st.D x ≤ (closureStep d st).D x := by
  obtain ⟨S0, D0, ws0, os0⟩ := st
  cases ws0 with
  | nil => exact le_refl _
  | cons s rest =>
    rw [closureStep_cons]
    exact le_trans (emitFold_D_ge d (D0 s)
      (max (S0 s) (D0 s + d.muts.delEnd)) (d.ss s).outgoingEmit
      ⟨updf S0 s (max (S0 s) (D0 s + d.muts.delEnd)), D0, rest,
       updf os0 s false⟩ x) (nullFold_D_ge _ _ _ _ x)

theorem closureStep_ws_lt (d : DPIn) (hwf : wfDP d) (st : CState)
    (h : ∀ t ∈ st.ws, t < d.nStates) :
    ∀ t ∈ (closureStep d st).ws, t < d.nStates := by
  obtain ⟨S0, D0, ws0, os0⟩ := st
  cases ws0 with
  | nil => exact h
  | cons s rest =>
    rw [closureStep_cons]
    intro t ht
    rcases nullFold_ws_sub _ _ _ _ t ht with h2 | ⟨ot, hot, he⟩
    · rcases emitFold_ws_sub d _ _ _ _ t h2 with h3 | ⟨ot, hot, he⟩
      · exact h t (List.mem_cons_of_mem _ h3)
      · exact he ▸ (wf_ss d hwf s).2.2.1 ot hot
    · exact he ▸ (wf_ss d hwf s).2.2.2 ot hot

theorem closureRun_S_ge (d : DPIn) (n : ℕ) (st : CState) (x : ℕ) :
    st.S x ≤ (closureRun d n st).S x := by
  induction n generalizing st with
  | zero => exact le_refl _
  | succ n ih =>
    rw [closureRun_succ]
    exact le_trans (closureStep_S_ge d st x) (ih _)

theorem closureRun_D_ge (d : DPIn) (n : ℕ) (st : CState) (x : ℕ) :
    st.D x ≤ (closureRun d n st).D x := by
  induction n generalizing st with
  | zero => exact le_refl _
  | succ n ih =>
    rw [closureRun_succ]
    exact le_trans (closureStep_D_ge d st x) (ih _)

theorem closureRun_ws_lt (d : DPIn) (hwf : wfDP d) (n : ℕ) (st : CState)
    (h : ∀ t ∈ st.ws, t < d.nStates) :
    ∀ t ∈ (closureRun d n st).ws, t < d.nStates := by
  induction n generalizing st with
  | zero => exact h
  | succ n ih =>
    rw [closureRun_succ]
    exact ih _ (closureStep_ws_lt d hwf st h)

theorem closureStep_le (d : DPIn) (Su Du : ℕ → Score) (hcl : ClosedSD d Su Du)
    (st : CState) (hws : ∀ t ∈ st.ws, t < d.nStates)
    (hS : ∀ x, st.S x ≤ Su x) (hD : ∀ x, st.D x ≤ Du x) :
    (∀ x, (closureStep d st).S x ≤ Su x) ∧ (∀ x, (closureStep d st).D x ≤ Du x) := by
  obtain ⟨S0, D0, ws0, os0⟩ := st
  cases ws0 with
  | nil => exact ⟨hS, hD⟩
  | cons s rest =>
    rw [closureStep_cons]
    have hsN : s < d.nStates := hws s (List.mem_cons_self _ _)
    obtain ⟨hend, hemit, hnull⟩ := hcl s hsN
    have hdsrc : D0 s ≤ Du s := hD s
    have hssrc : max (S0 s) (D0 s + d.muts.delEnd) ≤ Su s :=
      max_le (hS s) (le_trans (add_le_add_right (hD s) _) hend)
    have hP := foldl_pres
      (fun acc : CState => (∀ x, acc.S x ≤ Su x) ∧ (∀ x, acc.D x ≤ Du x))
      (nullRelax (D0 s) (max (S0 s) (D0 s + d.muts.delEnd)))
      (d.ss s).outgoingNull ?_
      _ (foldl_pres
          (fun acc : CState => (∀ x, acc.S x ≤ Su x) ∧ (∀ x, acc.D x ≤ Du x))
          (emitRelax d (D0 s) (max (S0 s) (D0 s + d.muts.delEnd)))
          (d.ss s).outgoingEmit ?_
          ⟨updf S0 s (max (S0 s) (D0 s + d.muts.delEnd)), D0, rest,
           updf os0 s false⟩ ⟨?_, hD⟩)
    · exact hP
    · intro acc ot hot hPa
      obtain ⟨haS, haD⟩ := hPa
      have hSw : ∀ x, updf acc.S ot.dest
          (max (S0 s) (D0 s + d.muts.delEnd) + ot.score) x ≤ Su x :=
        updf_le acc.S ot.dest _ Su
          (le_trans (add_le_add_right hssrc _) (hnull ot hot).2) haS
      have hDw : ∀ x, updf acc.D ot.dest (D0 s + ot.score) x ≤ Du x :=
        updf_le acc.D ot.dest _ Du
          (le_trans (add_le_add_right hdsrc _) (hnull ot hot).1) haD
      constructor
      · intro x
        rw [nullRelax]
        split
        · split
          · exact hSw x
          · exact haS x
        · split
          · exact hSw x
          · exact haS x
      · intro x
        rw [nullRelax]
        split
        · split
          · exact hDw x
          · exact hDw x
        · split
          · exact haD x
          · exact haD x
    · intro acc ot hot hPa
      obtain ⟨haS, haD⟩ := hPa
      constructor
      · intro x
        rw [emitRelax_S]
        exact haS x
      · intro x
        rw [emitRelax]
        split
        · exact updf_le acc.D ot.dest _ Du
            (le_trans (add_le_add_right (max_le_max (add_le_add_right hdsrc _)
              (add_le_add_right hssrc _)) _) (hemit ot hot)) haD x
        · exact haD x
    · exact updf_le S0 s _ Su hssrc hS

theorem closureRun_le (d : DPIn) (hwf : wfDP d) (Su Du : ℕ → Score)
    (hcl : ClosedSD d Su Du) (n : ℕ) :
    ∀ (st : CState), (∀ t ∈ st.ws, t < d.nStates) →
      (∀ x, st.S x ≤ Su x) → (∀ x, st.D x ≤ Du x) →
      (∀ x, (closureRun d n st).S x ≤ Su x)
        ∧ (∀ x, (closureRun d n st).D x ≤ Du x) := by
  induction n with
  | zero => exact fun st _ hS hD => ⟨hS, hD⟩
  | succ n ih =>
    intro st hws hS hD
    rw [closureRun_succ]
    obtain ⟨h1, h2⟩ := closureStep_le d Su Du hcl st hws hS hD
    exact ih _ (closureStep_ws_lt d hwf st hws) h1 h2

/-! ## Closure lemmas: the worklist invariant is preserved -/

theorem consAt_mono (d : DPIn) (S D Sb Db : ℕ → Score) (t : ℕ)
    (hc : consAt d S D t)
    (hS : ∀ x, S x ≤ Sb x) (hD : ∀ x, D x ≤ Db x)
    (hSt : Sb t = S t) (hDt : Db t = D t) : consAt d Sb Db t := by
  obtain ⟨h1, h2, h3⟩ := hc
  refine ⟨?_, ?_, ?_⟩
  · rw [hSt, hDt]
    exact h1
  · intro ot hot
    rw [hSt, hDt]
    exact le_trans (h2 ot hot) (hD ot.dest)
  · intro ot hot
    rw [hSt, hDt]
    exact ⟨le_trans (h3 ot hot).1 (hD ot.dest), le_trans (h3 ot hot).2 (hS ot.dest)⟩

theorem bundle_pres (d : DPIn) (s : ℕ) (ssrcV dsrcV : Score) (acc accb : CState)
    (hS : ∀ x, acc.S x ≤ accb.S x)
    (hD : ∀ x, acc.D x ≤ accb.D x)
    (hws : ∀ x, x ∈ acc.ws → x ∈ accb.ws)
    (hos : ∀ x, accb.onStack x = true → acc.onStack x = true ∨ x ∈ accb.ws)
    (hchg : ∀ x, (accb.S x = acc.S x ∧ accb.D x = acc.D x
        ∧ accb.onStack x = acc.onStack x)
      ∨ acc.onStack x = true ∨ x ∈ accb.ws)
    (hJ : (∀ t, t < d.nStates → t ∉ acc.ws → t ≠ s →
            consAt d acc.S acc.D t ∧ acc.onStack t = false)
        ∧ (s ∉ acc.ws → acc.S s = ssrcV ∧ acc.D s = dsrcV ∧ acc.onStack s = false)
        ∧ (∀ x, acc.onStack x = true → x ∈ acc.ws)) :
    (∀ t, t < d.nStates → t ∉ accb.ws → t ≠ s →
        consAt d accb.S accb.D t ∧ accb.onStack t = false)
    ∧ (s ∉ accb.ws → accb.S s = ssrcV ∧ accb.D s = dsrcV ∧ accb.onStack s = false)
    ∧ (∀ x, accb.onStack x = true → x ∈ accb.ws) := by
  obtain ⟨hJa, hJb, hJc⟩ := hJ
  have hunchg : ∀ x, x ∉ accb.ws →
      accb.S x = acc.S x ∧ accb.D x = acc.D x ∧ accb.onStack x = acc.onStack x := by
    intro x hxw
    rcases hchg x with h | h | h
    · exact h
    · exact absurd (hws x (hJc x h)) hxw
    · exact absurd h hxw
  refine ⟨?_, ?_, ?_⟩
  · intro t ht htw hts
    obtain ⟨he1, he2, he3⟩ := hunchg t htw
    have htw0 : t ∉ acc.ws := fun hmem => htw (hws t hmem)
    obtain ⟨hc, hosf⟩ := hJa t ht htw0 hts
    exact ⟨consAt_mono d acc.S acc.D accb.S accb.D t hc hS hD he1 he2,
      by rw [he3]; exact hosf⟩
  · intro hsw
    obtain ⟨he1, he2, he3⟩ := hunchg s hsw
    have hsw0 : s ∉ acc.ws := fun hmem => hsw (hws s hmem)
    obtain ⟨e1, e2, e3⟩ := hJb hsw0
    exact ⟨by rw [he1]; exact e1, by rw [he2]; exact e2, by rw [he3]; exact e3⟩
  · intro x hx
    rcases hos x hx with h | h
    · exact hws x (hJc x h)
    · exact h

theorem emitRelax_os (d : DPIn) (dsrc ssrc : Score) (acc : CState)
    (ot : OutgoingTransScore Score) (x : ℕ)
    (h : (emitRelax d dsrc ssrc acc ot).onStack x = true) :
    acc.onStack x = true ∨ x ∈ (emitRelax d dsrc ssrc acc ot).ws := by
  rw [emitRelax] at h ⊢
  revert h
  split
  · dsimp only
    by_cases hosd : acc.onStack ot.dest
    · rw [if_pos hosd]
      exact fun h => Or.inl h
    · rw [if_neg hosd]
      intro h
      by_cases hx : x = ot.dest
      · exact Or.inr (by rw [hx, if_neg hosd]; exact List.mem_cons_self _ _)
      · rw [updf_other _ _ _ _ hx] at h
        exact Or.inl h
  · exact fun h => Or.inl h

theorem emitRelax_chg (d : DPIn) (dsrc ssrc : Score) (acc : CState)
    (ot : OutgoingTransScore Score) (x : ℕ) :
    ((emitRelax d dsrc ssrc acc ot).S x = acc.S x
      ∧ (emitRelax d dsrc ssrc acc ot).D x = acc.D x
      ∧ (emitRelax d dsrc ssrc acc ot).onStack x = acc.onStack x)
    ∨ acc.onStack x = true ∨ x ∈ (emitRelax d dsrc ssrc acc ot).ws := by
  rw [emitRelax]
  split
  · dsimp only
    by_cases hx : x = ot.dest
    · by_cases hosd : acc.onStack ot.dest
      · exact Or.inr (Or.inl (by rw [hx]; exact hosd))
      · exact Or.inr (Or.inr (by rw [hx, if_neg hosd]; exact List.mem_cons_self _ _))
    · refine Or.inl ⟨rfl, updf_other _ _ _ _ hx, ?_⟩
      by_cases hosd : acc.onStack ot.dest
      · rw [if_pos hosd]
      · rw [if_neg hosd]
        exact updf_other _ _ _ _ hx
  · exact Or.inl ⟨rfl, rfl, rfl⟩

theorem nullRelax_os (dsrc ssrc : Score) (acc : CState)
    (ot : OutgoingTransScore Score) (x : ℕ)
    (h : (nullRelax dsrc ssrc acc ot).onStack x = true) :
    acc.onStack x = true ∨ x ∈ (nullRelax dsrc ssrc acc ot).ws := by
  rw [nullRelax] at h ⊢
  revert h
  split <;> split <;> (try dsimp only) <;>
    first
    | exact fun h => Or.inl h
    | (by_cases hosd : acc.onStack ot.dest
       · rw [if_pos hosd]
         exact fun h => Or.inl h
       · rw [if_neg hosd]
         intro h
         by_cases hx : x = ot.dest
         · exact Or.inr (by rw [hx, if_neg hosd]; exact List.mem_cons_self _ _)
         · rw [updf_other _ _ _ _ hx] at h
           exact Or.inl h)

theorem nullRelax_chg (dsrc ssrc : Score) (acc : CState)
    (ot : OutgoingTransScore Score) (x : ℕ) :
    ((nullRelax dsrc ssrc acc ot).S x = acc.S x
      ∧ (nullRelax dsrc ssrc acc ot).D x = acc.D x
      ∧ (nullRelax dsrc ssrc acc ot).onStack x = acc.onStack x)
    ∨ acc.onStack x = true ∨ x ∈ (nullRelax dsrc ssrc acc ot).ws := by
  rw [nullRelax]
  split <;> split <;> (try dsimp only) <;>
    first
    | exact Or.inl ⟨rfl, rfl, rfl⟩
    | (by_cases hx : x = ot.dest
       · by_cases hosd : acc.onStack ot.dest
         · exact Or.inr (Or.inl (by rw [hx]; exact hosd))
         · exact Or.inr (Or.inr (by rw [hx, if_neg hosd]; exact List.mem_cons_self _ _))
       · refine Or.inl ⟨?_, ?_, ?_⟩ <;>
           first
           | rfl
           | exact updf_other _ _ _ _ hx
           | (by_cases hosd : acc.onStack ot.dest
              · rw [if_pos hosd]
              · rw [if_neg hosd]
                exact updf_other _ _ _ _ hx))

theorem emitFold_est (d : DPIn) (dsrc ssrc : Score)
    (l : List (OutgoingTransScore Score)) (acc : CState) :
    ∀ ot ∈ l, max (dsrc + d.muts.delExtend) (ssrc + d.muts.delOpen) + ot.score ≤
      (l.foldl (emitRelax d dsrc ssrc) acc).D ot.dest := by
  induction l generalizing acc with
  | nil => exact fun ot h => absurd h (List.not_mem_nil ot)
  | cons ot0 rest ih =>
    intro ot hot
    rw [List.foldl_cons]
    rcases List.mem_cons.mp hot with he | hm
    · subst he
      refine le_trans ?_ (emitFold_D_ge d dsrc ssrc rest _ ot.dest)
      rw [emitRelax]
      split
      · exact le_of_eq (updf_same _ _ _).symm
      · next h1 => exact le_of_not_lt h1
    · exact ih _ ot hm

theorem nullFold_est (dsrc ssrc : Score)
    (l : List (OutgoingTransScore Score)) (acc : CState) :
    ∀ ot ∈ l, dsrc + ot.score ≤ (l.foldl (nullRelax dsrc ssrc) acc).D ot.dest
      ∧ ssrc + ot.score ≤ (l.foldl (nullRelax dsrc ssrc) acc).S ot.dest := by
  induction l generalizing acc with
  | nil => exact fun ot h => absurd h (List.not_mem_nil ot)
  | cons ot0 rest ih =>
    intro ot hot
    rw [List.foldl_cons]
    rcases List.mem_cons.mp hot with he | hm
    · subst he
      constructor
      · refine le_trans ?_ (nullFold_D_ge dsrc ssrc rest _ ot.dest)
        rw [nullRelax]
        split
        · split
          · exact le_of_eq (updf_same _ _ _).symm
          · exact le_of_eq (updf_same _ _ _).symm
        · next h1 =>
          split
          · exact le_of_not_lt h1
          · exact le_of_not_lt h1
      · refine le_trans ?_ (nullFold_S_ge dsrc ssrc rest _ ot.dest)
        rw [nullRelax]
        split
        · split
          · exact le_of_eq (updf_same _ _ _).symm
          · next h1 => exact le_of_not_lt h1
        · split
          · exact le_of_eq (updf_same _ _ _).symm
          · next h1 => exact le_of_not_lt h1
    · exact ih _ ot hm

theorem emitRelax_bundle (d : DPIn) (s : ℕ) (ssrcV dsrcV dsrc ssrc : Score)
    (acc : CState) (ot : OutgoingTransScore Score)
    (hJ : bundleJ d s ssrcV dsrcV acc) :
    bundleJ d s ssrcV dsrcV (emitRelax d dsrc ssrc acc ot) :=
  bundle_pres d s ssrcV dsrcV acc (emitRelax d dsrc ssrc acc ot)
    (fun x => le_of_eq (congrFun (emitRelax_S d dsrc ssrc acc ot) x).symm)
    (emitRelax_D_ge d dsrc ssrc acc ot)
    (emitRelax_ws_mem d dsrc ssrc acc ot)
    (emitRelax_os d dsrc ssrc acc ot)
    (emitRelax_chg d dsrc ssrc acc ot)
    hJ

theorem nullRelax_bundle (d : DPIn) (s : ℕ) (ssrcV dsrcV dsrc ssrc : Score)
    (acc : CState) (ot : OutgoingTransScore Score)
    (hJ : bundleJ d s ssrcV dsrcV acc) :
    bundleJ d s ssrcV dsrcV (nullRelax dsrc ssrc acc ot) :=
  bundle_pres d s ssrcV dsrcV acc (nullRelax dsrc ssrc acc ot)
    (nullRelax_S_ge dsrc ssrc acc ot)
    (nullRelax_D_ge dsrc ssrc acc ot)
    (nullRelax_ws_mem dsrc ssrc acc ot)
    (nullRelax_os dsrc ssrc acc ot)
    (nullRelax_chg dsrc ssrc acc ot)
    hJ

theorem foldsJ (d : DPIn) (s : ℕ) (ssrcV dsrcV dsrc ssrc : Score)
    (le ln : List (OutgoingTransScore Score)) (init : CState)
    (hJ : bundleJ d s ssrcV dsrcV init) :
    bundleJ d s ssrcV dsrcV
      (ln.foldl (nullRelax dsrc ssrc) (le.foldl (emitRelax d dsrc ssrc) init)) :=
  foldl_pres (bundleJ d s ssrcV dsrcV) (nullRelax dsrc ssrc) ln
    (fun acc ot _ => nullRelax_bundle d s ssrcV dsrcV dsrc ssrc acc ot) _
    (foldl_pres (bundleJ d s ssrcV dsrcV) (emitRelax d dsrc ssrc) le
      (fun acc ot _ => emitRelax_bundle d s ssrcV dsrcV dsrc ssrc acc ot) init hJ)

theorem closureStep_runInv (d : DPIn) (hwf : wfDP d) (st : CState)
    (h : runInv d st) : runInv d (closureStep d st) := by
  have hlt2 := closureStep_ws_lt d hwf st h.2.2
  obtain ⟨hinv, hJc, hlt⟩ := h
  obtain ⟨S0, D0, ws0, os0⟩ := st
  cases ws0 with
  | nil => exact ⟨hinv, hJc, hlt⟩
  | cons s rest =>
    rw [closureStep_cons] at hlt2 ⊢
    have hinit : bundleJ d s (max (S0 s) (D0 s + d.muts.delEnd)) (D0 s)
        ⟨updf S0 s (max (S0 s) (D0 s + d.muts.delEnd)), D0, rest,
         updf os0 s false⟩ := by
      refine ⟨?_, ?_, ?_⟩
      · intro t ht htw hts
        have ht0 : t ∉ s :: rest := by
          intro hmem
          rcases List.mem_cons.mp hmem with he | hm
          · exact hts he
          · exact htw hm
        obtain ⟨hc, hosf⟩ := hinv t ht ht0
        refine ⟨consAt_mono d S0 D0 _ _ t hc
          (fun x => updf_ge S0 s _ (le_max_left _ _) x) (fun x => le_refl _)
          (updf_other _ _ _ _ hts) rfl, ?_⟩
        show updf os0 s false t = false
        rw [updf_other _ _ _ _ hts]
        exact hosf
      · exact fun hsw => ⟨updf_same _ _ _, rfl, updf_same _ _ _⟩
      · intro x hx
        have hx2 : updf os0 s false x = true := hx
        by_cases hxs : x = s
        · rw [hxs, updf_same] at hx2
          cases hx2
        · rw [updf_other _ _ _ _ hxs] at hx2
          rcases List.mem_cons.mp (hJc x hx2) with he | hm
          · exact absurd he hxs
          · exact hm
    have hfin := foldsJ d s (max (S0 s) (D0 s + d.muts.delEnd)) (D0 s)
      (D0 s) (max (S0 s) (D0 s + d.muts.delEnd))
      (d.ss s).outgoingEmit (d.ss s).outgoingNull _ hinit
    obtain ⟨hJa, hJb, hJc2⟩ := hfin
    refine ⟨?_, hJc2, hlt2⟩
    intro t ht htw
    by_cases hts : t = s
    · subst hts
      obtain ⟨e1, e2, e3⟩ := hJb htw
      refine ⟨⟨?_, ?_, ?_⟩, e3⟩
      · rw [e1, e2]
        exact le_max_right _ _
      · intro ot hot
        rw [e1, e2]
        refine le_trans ?_ (nullFold_D_ge (D0 t)
          (max (S0 t) (D0 t + d.muts.delEnd)) (d.ss t).outgoingNull _ ot.dest)
        exact emitFold_est d (D0 t) (max (S0 t) (D0 t + d.muts.delEnd))
          (d.ss t).outgoingEmit _ ot hot
      · intro ot hot
        rw [e1, e2]
        exact nullFold_est (D0 t) (max (S0 t) (D0 t + d.muts.delEnd))
          (d.ss t).outgoingNull _ ot hot
    · exact hJa t ht htw hts

theorem closureRun_runInv (d : DPIn) (hwf : wfDP d) (n : ℕ) (st : CState)
    (h : runInv d st) : runInv d (closureRun d n st) := by
  induction n generalizing st with
  | zero => exact h
  | succ n ih =>
    rw [closureRun_succ]
    exact ih _ (closureStep_runInv d hwf st h)

theorem seed_runInv (d : DPIn) (hwf : wfDP d) (S0 D0 : ℕ → Score) :
    runInv d ⟨S0, D0, d.stateOrder.reverse, fun s => decide (s < d.nStates)⟩ := by
  refine ⟨?_, ?_, ?_⟩
  · intro t ht htw
    exact absurd (List.mem_reverse.mpr (hwf.2.1 t ht)) htw
  · intro x hx
    have hx2 : decide (x < d.nStates) = true := hx
    exact List.mem_reverse.mpr (hwf.2.1 x (of_decide_eq_true hx2))
  · intro t htw
    exact hwf.2.2.1 t (List.mem_reverse.mp htw)

theorem closure_done_closed (d : DPIn) (hwf : wfDP d) (n : ℕ) (st : CState)
    (h : runInv d st) (hdone : (closureRun d n st).ws = []) :
    ClosedSD d (closureRun d n st).S (closureRun d n st).D := by
  have h2 := closureRun_runInv d hwf n st h
  intro t ht
  exact (h2.1 t ht (by rw [hdone]; exact List.not_mem_nil t)).1

/-! ## Monotonicity of the fill in its starting cells (towards C4) -/

theorem updf_mono (f1 f2 : ℕ → Score) (i : ℕ) (v1 v2 : Score)
    (hf : ∀ x, f1 x ≤ f2 x) (hv : v1 ≤ v2) (x : ℕ) :
    updf f1 i v1 x ≤ updf f2 i v2 x := by
  by_cases hx : x = i
  · rw [hx, updf_same, updf_same]
    exact hv
  · rw [updf_other _ _ _ _ hx, updf_other _ _ _ _ hx]
    exact hf x

theorem foldl_rel {α β : Type} (R : α → α → Prop) (g1 g2 : α → β → α) (l : List β)
    (hg : ∀ a1 a2 it, it ∈ l → R a1 a2 → R (g1 a1 it) (g2 a2 it)) :
    ∀ a1 a2, R a1 a2 → R (l.foldl g1 a1) (l.foldl g2 a2) := by
  induction l with
  | nil => exact fun a1 a2 h => h
  | cons it rest ih =>
    intro a1 a2 h
    rw [List.foldl_cons, List.foldl_cons]
    exact ih (fun x1 x2 y hy => hg x1 x2 y (List.mem_cons_of_mem _ hy)) _ _
      (hg a1 a2 it (List.mem_cons_self _ _) h)

theorem colLe_refl (c : Col) : colLe c c :=
  ⟨fun _ => le_refl _, fun _ => le_refl _, fun _ _ => le_refl _⟩

theorem visitState_mono (d : DPIn) (prev1 prev2 : Col) (p : ℕ) (cur1 cur2 : Col)
    (s : ℕ) (hprev : colLe prev1 prev2) (hcur : colLe cur1 cur2) :
    colLe (visitState d prev1 p cur1 s) (visitState d prev2 p cur2 s) := by
  obtain ⟨hpS, hpD, hpT⟩ := hprev
  obtain ⟨hcS, hcD, hcT⟩ := hcur
  have hS1 : ∀ x,
      (if 0 < p then
        (d.ss s).incomingEmit.foldl
          (fun f it => updf f s (max (f s)
            (prev1.S it.src + it.score + d.muts.noGap
              + d.muts.sub it.base (d.seq.getD (p - 1) 0))))
          cur1.S
       else cur1.S) x ≤
      (if 0 < p then
        (d.ss s).incomingEmit.foldl
          (fun f it => updf f s (max (f s)
            (prev2.S it.src + it.score + d.muts.noGap
              + d.muts.sub it.base (d.seq.getD (p - 1) 0))))
          cur2.S
       else cur2.S) x := by
    by_cases hp : 0 < p
    · rw [if_pos hp, if_pos hp]
      exact foldl_rel (fun f1 f2 => ∀ x, f1 x ≤ f2 x)
        (fun f it => updf f s (max (f s)
          (prev1.S it.src + it.score + d.muts.noGap
            + d.muts.sub it.base (d.seq.getD (p - 1) 0))))
        (fun f it => updf f s (max (f s)
          (prev2.S it.src + it.score + d.muts.noGap
            + d.muts.sub it.base (d.seq.getD (p - 1) 0))))
        (d.ss s).incomingEmit
        (fun f1 f2 it _ h x => updf_mono f1 f2 s _ _ h
          (max_le_max (h s)
            (add_le_add_right (add_le_add_right (add_le_add_right (hpS it.src) _) _) _)) x)
        cur1.S cur2.S hcS
    · rw [if_neg hp, if_neg hp]
      exact hcS
  have hS2 : ∀ x,
      ((d.ss s).incomingNull.foldl
        (fun f it => updf f s (max (f s) (f it.src + it.score)))
        (if 0 < p then
          (d.ss s).incomingEmit.foldl
            (fun f it => updf f s (max (f s)
              (prev1.S it.src + it.score + d.muts.noGap
                + d.muts.sub it.base (d.seq.getD (p - 1) 0))))
            cur1.S
         else cur1.S)) x ≤
      ((d.ss s).incomingNull.foldl
        (fun f it => updf f s (max (f s) (f it.src + it.score)))
        (if 0 < p then
          (d.ss s).incomingEmit.foldl
            (fun f it => updf f s (max (f s)
              (prev2.S it.src + it.score + d.muts.noGap
                + d.muts.sub it.base (d.seq.getD (p - 1) 0))))
            cur2.S
         else cur2.S)) x :=
    foldl_rel (fun f1 f2 => ∀ x, f1 x ≤ f2 x)
      (fun f it => updf f s (max (f s) (f it.src + it.score)))
      (fun f it => updf f s (max (f s) (f it.src + it.score)))
      (d.ss s).incomingNull
      (fun f1 f2 it _ h x => updf_mono f1 f2 s _ _ h
        (max_le_max (h s) (add_le_add_right (h it.src) _)) x)
      _ _ hS1
  refine ⟨?_, ?_, ?_⟩
  · intro x
    simp only [visitState]
    by_cases hcond : 0 < d.mdlAt s ∧ 0 < p
    · rw [if_pos hcond, if_pos hcond]
      dsimp only
      exact updf_mono _ _ s _ _ hS2
        (max_le_max (hS2 s) (add_le_add_right (hpT s 0) _)) x
    · rw [if_neg hcond, if_neg hcond]
      dsimp only
      exact hS2 x
  · intro x
    simp only [visitState]
    by_cases hcond : 0 < d.mdlAt s ∧ 0 < p
    · rw [if_pos hcond, if_pos hcond]
      dsimp only
      exact hcD x
    · rw [if_neg hcond, if_neg hcond]
      dsimp only
      exact hcD x
  · intro t k
    simp only [visitState]
    by_cases hcond : 0 < d.mdlAt s ∧ 0 < p
    · rw [if_pos hcond, if_pos hcond]
      dsimp only
      by_cases hts : t = s
      · subst hts
        rw [rangeFold_upd2, rangeFold_upd2]
        by_cases hk : k < d.mdlAt t - 1
        · rw [if_pos hk, if_pos hk]
          exact add_le_add_right (hpT t (k + 1)) _
        · rw [if_neg hk, if_neg hk]
          exact hcT t k
      · rw [listFold_upd2_other s t _ _ cur1.T k (fun h => hts h.symm),
            listFold_upd2_other s t _ _ cur2.T k (fun h => hts h.symm)]
        exact hcT t k
    · rw [if_neg hcond, if_neg hcond]
      dsimp only
      exact hcT t k

theorem buildColumn_done (d : DPIn) (fuel : ℕ) (prev : Col) (p : ℕ) (cur0 : Col) :
    (buildColumn d fuel prev p cur0).2
      = decide ((closureRun d fuel
          ⟨(d.stateOrder.foldl (visitState d prev p) cur0).S,
           (d.stateOrder.foldl (visitState d prev p) cur0).D,
           d.stateOrder.reverse, fun s => decide (s < d.nStates)⟩).ws = []) := by
  simp only [buildColumn]

theorem buildColumn_mono (d : DPIn) (hwf : wfDP d) (fuel : ℕ)
    (prev1 prev2 cur1 cur2 : Col) (p : ℕ)
    (hprev : colLe prev1 prev2) (hcur : colLe cur1 cur2)
    (hdone : (buildColumn d fuel prev2 p cur2).2 = true) :
    colLe (buildColumn d fuel prev1 p cur1).1 (buildColumn d fuel prev2 p cur2).1 := by
  have hfold : colLe (d.stateOrder.foldl (visitState d prev1 p) cur1)
      (d.stateOrder.foldl (visitState d prev2 p) cur2) :=
    foldl_rel colLe _ _ d.stateOrder
      (fun a1 a2 z _ h => visitState_mono d prev1 prev2 p a1 a2 z hprev h) cur1 cur2 hcur
  have hws1 : ∀ t ∈ (⟨(d.stateOrder.foldl (visitState d prev1 p) cur1).S,
      (d.stateOrder.foldl (visitState d prev1 p) cur1).D,
      d.stateOrder.reverse, fun s => decide (s < d.nStates)⟩ : CState).ws,
      t < d.nStates :=
    fun t ht => hwf.2.2.1 t (List.mem_reverse.mp ht)
  have hdone2 : (closureRun d fuel
      ⟨(d.stateOrder.foldl (visitState d prev2 p) cur2).S,
       (d.stateOrder.foldl (visitState d prev2 p) cur2).D,
       d.stateOrder.reverse, fun s => decide (s < d.nStates)⟩).ws = [] := by
    rw [buildColumn_done] at hdone
    exact of_decide_eq_true hdone
  have hclosed := closure_done_closed d hwf fuel
    ⟨(d.stateOrder.foldl (visitState d prev2 p) cur2).S,
     (d.stateOrder.foldl (visitState d prev2 p) cur2).D,
     d.stateOrder.reverse, fun s => decide (s < d.nStates)⟩
    (seed_runInv d hwf _ _) hdone2
  have hupper := closureRun_le d hwf _ _ hclosed fuel
    ⟨(d.stateOrder.foldl (visitState d prev1 p) cur1).S,
     (d.stateOrder.foldl (visitState d prev1 p) cur1).D,
     d.stateOrder.reverse, fun s => decide (s < d.nStates)⟩
    hws1
    (fun x => le_trans (hfold.1 x) (closureRun_S_ge d fuel
      ⟨(d.stateOrder.foldl (visitState d prev2 p) cur2).S,
       (d.stateOrder.foldl (visitState d prev2 p) cur2).D,
       d.stateOrder.reverse, fun s => decide (s < d.nStates)⟩ x))
    (fun x => le_trans (hfold.2.1 x) (closureRun_D_ge d fuel
      ⟨(d.stateOrder.foldl (visitState d prev2 p) cur2).S,
       (d.stateOrder.foldl (visitState d prev2 p) cur2).D,
       d.stateOrder.reverse, fun s => decide (s < d.nStates)⟩ x))
  have hS : ∀ x, (buildColumn d fuel prev1 p cur1).1.S x
      ≤ (buildColumn d fuel prev2 p cur2).1.S x := by
    rw [buildColumn_S, buildColumn_S]
    exact hupper.1
  have hD : ∀ x, (buildColumn d fuel prev1 p cur1).1.D x
      ≤ (buildColumn d fuel prev2 p cur2).1.D x := by
    rw [buildColumn_D, buildColumn_D]
    exact hupper.2
  refine ⟨hS, hD, ?_⟩
  intro t k
  rw [buildColumn_T, buildColumn_T]
  by_cases hc : 0 < p ∧ t < d.nStates ∧ k < d.mdlAt t
  · rw [if_pos hc, if_pos hc]
    exact max_le_max (hfold.2.2 t k)
      (add_le_add_right (add_le_add_right (hS t) _) _)
  · rw [if_neg hc, if_neg hc]
    exact hfold.2.2 t k

theorem colRec_zero (d : DPIn) (fuel : ℕ) :
    colRec d fuel 0 = buildColumn d fuel botCol 0 (initCol d) := rfl

theorem colRec_succ (d : DPIn) (fuel p : ℕ) :
    colRec d fuel (p + 1) = buildColumn d fuel (colRec d fuel p).1 (p + 1) botCol := rfl

theorem visitState_lm (d : DPIn) (b : Bool) (prev : Col) (p : ℕ) (cur : Col)
    (s : ℕ) :
    visitState {d with localMode := b} prev p cur s = visitState d prev p cur s := rfl

theorem emitRelax_lm (d : DPIn) (b : Bool) (dsrc ssrc : Score) (acc : CState)
    (ot : OutgoingTransScore Score) :
    emitRelax {d with localMode := b} dsrc ssrc acc ot
      = emitRelax d dsrc ssrc acc ot := rfl

theorem closureStep_lm (d : DPIn) (b : Bool) (st : CState) :
    closureStep {d with localMode := b} st = closureStep d st := by
  obtain ⟨S0, D0, ws0, os0⟩ := st
  cases ws0 with
  | nil => rfl
  | cons s rest =>
    rw [closureStep_cons, closureStep_cons,
        show ({d with localMode := b} : DPIn).ss s = d.ss s from rfl,
        show ({d with localMode := b} : DPIn).muts = d.muts from rfl,
        show emitRelax {d with localMode := b} = emitRelax d from
          funext fun dsrc => funext fun ssrc => funext fun acc => funext fun ot =>
            emitRelax_lm d b dsrc ssrc acc ot]

theorem closureRun_lm (d : DPIn) (b : Bool) (n : ℕ) (st : CState) :
    closureRun {d with localMode := b} n st = closureRun d n st := by
  induction n generalizing st with
  | zero => rfl
  | succ n ih =>
    rw [closureRun_succ, closureRun_succ, closureStep_lm, ih]

theorem buildColumn_localMode (d : DPIn) (b : Bool) (fuel : ℕ) (prev : Col) (p : ℕ)
    (cur0 : Col) :
    buildColumn {d with localMode := b} fuel prev p cur0
      = buildColumn d fuel prev p cur0 := by
  simp only [buildColumn]
  rw [show ({d with localMode := b} : DPIn).stateOrder = d.stateOrder from rfl,
      show ({d with localMode := b} : DPIn).nStates = d.nStates from rfl,
      show visitState {d with localMode := b} = visitState d from
        funext fun pr => funext fun q => funext fun cur => funext fun z =>
          visitState_lm d b pr q cur z,
      show closureRun {d with localMode := b} = closureRun d from
        funext fun n => funext fun st => closureRun_lm d b n st,
      show ({d with localMode := b} : DPIn).muts = d.muts from rfl,
      show DPIn.mdlAt {d with localMode := b} = DPIn.mdlAt d from
        funext fun z => rfl]

theorem initCol_S (d : DPIn) (x : ℕ) :
    (initCol d).S x
      = if (if d.localMode then x < d.nStates else x = 0) then (0 : Score) else ⊥ := rfl

theorem initCol_le (d : DPIn) (hN : 0 < d.nStates) :
    colLe (initCol {d with localMode := false}) (initCol {d with localMode := true}) := by
  refine ⟨?_, fun s => le_refl _, fun s k => le_refl _⟩
  intro x
  rw [initCol_S, initCol_S]
  show (if x = 0 then (0 : Score) else ⊥) ≤ if x < d.nStates then (0 : Score) else ⊥
  by_cases hx : x = 0
  · rw [if_pos hx, if_pos (by rw [hx]; exact hN)]
  · rw [if_neg hx]
    exact bot_le

theorem fillRest_length (d : DPIn) (fuel : ℕ) :
    ∀ (n : ℕ) (prev : Col) (p : ℕ), (fillRest d fuel prev p n).length = n := by
  intro n
  induction n with
  | zero => intro prev p; rfl
  | succ n ih =>
    intro prev p
    rw [fillRest, List.length_cons, ih]

theorem fillCols_length (d : DPIn) (fuel : ℕ) :
    (fillCols d fuel).length = d.seq.length + 1 := by
  simp only [fillCols]
  rw [List.length_cons, fillRest_length]

theorem getD_mem_of_lt {α : Type} (l : List α) (i : ℕ) (dflt : α)
    (h : i < l.length) : l.getD i dflt ∈ l := by
  induction l generalizing i with
  | nil => cases h
  | cons a rest ih =>
    cases i with
    | zero => exact List.mem_cons_self _ _
    | succ j =>
      rw [List.getD_cons_succ]
      exact List.mem_cons_of_mem _ (ih j (Nat.lt_of_succ_lt_succ h))

theorem fillCols_getD (d : DPIn) (fuel p : ℕ) (hp : p ≤ d.seqLen) :
    (fillCols d fuel).getD p (botCol, false) = colRec d fuel p := by
  cases p with
  | zero => rfl
  | succ i =>
    show (fillRest d fuel (buildColumn d fuel botCol 0 (initCol d)).1 1
        d.seq.length).getD i (botCol, false) = _
    rw [show (buildColumn d fuel botCol 0 (initCol d)) = colRec d fuel 0 from rfl,
        show (1 : ℕ) = 0 + 1 from rfl,
        fillRest_colRec d fuel d.seq.length i 0 (Nat.lt_of_succ_le hp),
        show 0 + 1 + i = i + 1 from by omega]

theorem allDone_colRec (d : DPIn) (fuel : ℕ) (hdone : allClosuresDone d fuel)
    (p : ℕ) (hp : p ≤ d.seqLen) : (colRec d fuel p).2 = true := by
  rw [← fillCols_getD d fuel p hp]
  refine hdone _ (getD_mem_of_lt _ p _ ?_)
  rw [fillCols_length]
  exact Nat.lt_succ_of_le hp

theorem colRec_mono (d : DPIn) (hwf : wfDP d) (fuel : ℕ)
    (hdone : allClosuresDone {d with localMode := true} fuel) :
    ∀ p, p ≤ d.seqLen →
      colLe (colRec {d with localMode := false} fuel p).1
        (colRec {d with localMode := true} fuel p).1 := by
  intro p
  induction p with
  | zero =>
    intro hp
    rw [colRec_zero, colRec_zero,
        buildColumn_localMode d false fuel botCol 0 (initCol {d with localMode := false}),
        buildColumn_localMode d true fuel botCol 0 (initCol {d with localMode := true})]
    refine buildColumn_mono d hwf fuel botCol botCol _ _ 0 (colLe_refl botCol)
      (initCol_le d hwf.2.2.2) ?_
    have h0 := allDone_colRec {d with localMode := true} fuel hdone 0 (Nat.zero_le _)
    rw [colRec_zero,
        buildColumn_localMode d true fuel botCol 0 (initCol {d with localMode := true})] at h0
    exact h0
  | succ p ih =>
    intro hp
    rw [colRec_succ, colRec_succ,
        buildColumn_localMode d false fuel (colRec {d with localMode := false} fuel p).1 (p + 1) botCol,
        buildColumn_localMode d true fuel (colRec {d with localMode := true} fuel p).1 (p + 1) botCol]
    refine buildColumn_mono d hwf fuel _ _ botCol botCol (p + 1)
      (ih (Nat.le_of_succ_le hp)) (colLe_refl botCol) ?_
    have h1 := allDone_colRec {d with localMode := true} fuel hdone (p + 1) hp
    rw [colRec_succ,
        buildColumn_localMode d true fuel (colRec {d with localMode := true} fuel p).1 (p + 1) botCol] at h1
    exact h1

theorem foldMaxS_ge (f : ℕ → Score) (l : List ℕ) (v : Score) :
    v ≤ l.foldl (fun m s => max m (f s)) v := by
  induction l generalizing v with
  | nil => exact le_refl v
  | cons s rest ih =>
    rw [List.foldl_cons]
    exact le_trans (le_max_left v (f s)) (ih _)

theorem loglikeFold_ge (d : DPIn) (c : Col) :
    c.S (d.nStates - 1) ≤ loglikeFold d c := by
  rw [loglikeFold]
  exact foldMaxS_ge c.S (List.range d.nStates) _

theorem getD_set_self {α : Type} (l : List α) (i : ℕ) (a dflt : α)
    (h : i < l.length) : (l.set i a).getD i dflt = a := by
  induction l generalizing i with
  | nil => cases h
  | cons b rest ih =>
    cases i with
    | zero => rfl
    | succ j =>
      rw [show (b :: rest).set (j + 1) a = b :: rest.set j a from rfl,
        List.getD_cons_succ]
      exact ih j (Nat.lt_of_succ_lt_succ h)

theorem loglike_global (d : DPIn) (hd : d.localMode = false) (fuel : ℕ) :
    loglike d fuel = (colAt d fuel d.seqLen).S (d.nStates - 1) := by
  rw [loglike]
  simp only [finalCols]
  rw [if_neg (by rw [hd]; exact Bool.false_ne_true)]
  rfl

theorem loglike_local (d : DPIn) (hd : d.localMode = true) (fuel : ℕ) :
    loglike d fuel = loglikeFold d (colAt d fuel d.seqLen) := by
  rw [loglike]
  simp only [finalCols]
  rw [if_pos hd]
  rw [getD_set_self _ _ _ _
    (by rw [List.length_map, fillCols_length]; exact Nat.lt_succ_of_le (le_refl _))]
  show updf ((colAt d fuel d.seqLen).S) (d.nStates - 1)
      (loglikeFold d (colAt d fuel d.seqLen)) (d.nStates - 1)
    = loglikeFold d (colAt d fuel d.seqLen)
  rw [updf_same]

/-- **C4**: for every machine, mutator parameters and observed sequence (with
a well-formed toposort and enough fuel for the local run's ε-closures to
finish), the final log-likelihood computed with `local = true` is at least
the one computed with `local = false` on the same inputs. -/
theorem c4_local_dominance (d : DPIn) (fuel : ℕ) (hwf : wfDP d)
    (hdone : allClosuresDone {d with localMode := true} fuel) :
    loglike {d with localMode := false} fuel
      ≤ loglike {d with localMode := true} fuel := by
  rw [loglike_global {d with localMode := false} rfl fuel,
      loglike_local {d with localMode := true} rfl fuel]
  refine le_trans ?_ (loglikeFold_ge {d with localMode := true} _)
  rw [colAt_eq {d with localMode := false} fuel _ (le_refl _),
      colAt_eq {d with localMode := true} fuel _ (le_refl _)]
  exact (colRec_mono d hwf fuel hdone d.seqLen (le_refl _)).1 _

/-- Witness for C4: the two-state emit machine satisfies the hypotheses and
the comparison concretely. -/
theorem c4_witness :
    wfDP exG ∧ allClosuresDone {exG with localMode := true} 8
      ∧ loglike {exG with localMode := false} 8
          ≤ loglike {exG with localMode := true} 8 :=
  ⟨by unfold wfDP; decide, of_decide_eq_true (by with_unfolding_all rfl),
   c4_local_dominance exG 8 (by unfold wfDP; decide)
     (of_decide_eq_true (by with_unfolding_all rfl))⟩

/-! ## Certificate lemmas for the ε-closure termination argument -/

theorem np_ss (d : DPIn) (hnp : nonposScores d) (s : ℕ) :
    (∀ ot ∈ (d.ss s).outgoingEmit, ot.score ≤ 0)
    ∧ (∀ ot ∈ (d.ss s).outgoingNull, ot.score ≤ 0) := by
  rcases getD_mem_or d.stateScores s {} with h | h
  · exact hnp.2.2.2 _ h
  · constructor <;>
      (rw [DPIn.ss, h]; intro z hz; exact absurd hz (List.not_mem_nil z))

theorem edgeW_nonpos (d : DPIn) (hnp : nonposScores d) {u v : Bool × ℕ} {w : Score}
    (he : EdgeW d u v w) : w ≤ 0 := by
  cases he with
  | delEnd s hs => exact hnp.2.2.1
  | emitExt s hs ot h => exact add_nonpos hnp.2.1 ((np_ss d hnp s).1 ot h)
  | emitOpen s hs ot h => exact add_nonpos hnp.1 ((np_ss d hnp s).1 ot h)
  | nullD s hs ot h => exact (np_ss d hnp s).2 ot h
  | nullS s hs ot h => exact (np_ss d hnp s).2 ot h

theorem edgeW_dest_lt (d : DPIn) (hwf : wfDP d) {u v : Bool × ℕ} {w : Score}
    (he : EdgeW d u v w) : v.2 < d.nStates := by
  cases he with
  | delEnd s hs => exact hs
  | emitExt s hs ot h => exact (wf_ss d hwf s).2.2.1 ot h
  | emitOpen s hs ot h => exact (wf_ss d hwf s).2.2.1 ot h
  | nullD s hs ot h => exact (wf_ss d hwf s).2.2.2 ot h
  | nullS s hs ot h => exact (wf_ss d hwf s).2.2.2 ot h

theorem edgeW_w_mem (d : DPIn) {u v : Bool × ℕ} {w : Score} (he : EdgeW d u v w) :
    w ∈ weightPool d := by
  have hmem : ∀ s, s < d.nStates → ∀ w0 ∈ scoreListOf d s, w0 ∈ weightPool d := by
    intro s hs w0 h0
    rw [weightPool]
    exact List.mem_flatMap.mpr ⟨s, List.mem_range.mpr hs, h0⟩
  cases he with
  | delEnd s hs =>
    refine hmem s hs _ ?_
    rw [scoreListOf]
    simp only [List.mem_append, List.mem_map, List.mem_cons]
    tauto
  | emitExt s hs ot h =>
    refine hmem s hs _ ?_
    rw [scoreListOf]
    simp only [List.mem_append, List.mem_map, List.mem_cons]
    exact Or.inl (Or.inl (Or.inl (Or.inr ⟨ot, h, rfl⟩)))
  | emitOpen s hs ot h =>
    refine hmem s hs _ ?_
    rw [scoreListOf]
    simp only [List.mem_append, List.mem_map, List.mem_cons]
    exact Or.inl (Or.inl (Or.inr ⟨ot, h, rfl⟩))
  | nullD s hs ot h =>
    refine hmem s hs _ ?_
    rw [scoreListOf]
    simp only [List.mem_append, List.mem_map, List.mem_cons]
    exact Or.inl (Or.inr ⟨ot, h, rfl⟩)
  | nullS s hs ot h =>
    refine hmem s hs _ ?_
    rw [scoreListOf]
    simp only [List.mem_append, List.mem_map, List.mem_cons]
    exact Or.inr ⟨ot, h, rfl⟩

theorem bcert_concat (d : DPIn) (st0 st : CState) {v : Bool × ℕ} {val : Score}
    {p : List (Bool × ℕ)} {wl : List Score} (h : BCert d st0 st v val p wl) :
    ∃ q, p = q ++ [v] := by
  induction h with
  | single v => exact ⟨[], rfl⟩
  | step hc he hb ih => exact ⟨_, rfl⟩

theorem bcert_head_sum (d : DPIn) (st0 st : CState) {v : Bool × ℕ} {val : Score}
    {p : List (Bool × ℕ)} {wl : List Score} (h : BCert d st0 st v val p wl) :
    ∃ hd q, p = hd :: q ∧ val = cellOf st0 hd + wl.sum := by
  induction h with
  | single v => exact ⟨v, [], rfl, by rw [List.sum_nil, add_zero]⟩
  | step hc he hb ih =>
    obtain ⟨hd, q, hp, hv⟩ := ih
    refine ⟨hd, q ++ [_], by rw [hp]; rfl, ?_⟩
    rw [List.sum_append, List.sum_cons, List.sum_nil, add_zero, hv, add_assoc]

theorem bcert_w_mem (d : DPIn) (st0 st : CState) {v : Bool × ℕ} {val : Score}
    {p : List (Bool × ℕ)} {wl : List Score} (h : BCert d st0 st v val p wl) :
    ∀ w ∈ wl, w ∈ weightPool d := by
  induction h with
  | single v => exact fun w hw => absurd hw (List.not_mem_nil w)
  | step hc he hb ih =>
    intro w0 hw0
    rcases List.mem_append.mp hw0 with h1 | h1
    · exact ih w0 h1
    · rw [List.mem_singleton.mp h1]
      exact edgeW_w_mem d he

theorem bcert_length (d : DPIn) (st0 st : CState) {v : Bool × ℕ} {val : Score}
    {p : List (Bool × ℕ)} {wl : List Score} (h : BCert d st0 st v val p wl) :
    p.length = wl.length + 1 := by
  induction h with
  | single v => rfl
  | step hc he hb ih =>
    rw [List.length_append, List.length_append, ih]
    rfl

theorem bcert_mono (d : DPIn) (st0 st st2 : CState) {v : Bool × ℕ} {val : Score}
    {p : List (Bool × ℕ)} {wl : List Score} (h : BCert d st0 st v val p wl)
    (hg : ∀ x, cellOf st x ≤ cellOf st2 x) : BCert d st0 st2 v val p wl := by
  induction h with
  | single v => exact BCert.single v
  | step hc he hb ih => exact BCert.step ih he (le_trans hb (hg _))

theorem bcert_dropLast_le (d : DPIn) (hnp : nonposScores d) (st0 st : CState)
    {v : Bool × ℕ} {val : Score} {p : List (Bool × ℕ)} {wl : List Score}
    (h : BCert d st0 st v val p wl) :
    ∀ u ∈ p.dropLast, val ≤ cellOf st u := by
  induction h with
  | single v => exact fun u hu => absurd hu (List.not_mem_nil u)
  | @step u1 val2 p2 wl2 v2 w2 hc he hb ih =>
    intro u2 hu2
    rw [List.dropLast_concat] at hu2
    have hvw : val2 + w2 ≤ val2 :=
      le_trans (add_le_add_left (edgeW_nonpos d hnp he) val2) (le_of_eq (add_zero val2))
    obtain ⟨q, hq⟩ := bcert_concat d st0 st hc
    rw [hq] at hu2
    rcases List.mem_append.mp hu2 with h1 | h1
    · refine le_trans hvw (ih u2 ?_)
      rw [hq, List.dropLast_concat]
      exact h1
    · rw [List.mem_singleton.mp h1]
      exact le_trans hvw hb

theorem sumsUpTo_succ (pool : List Score) (n : ℕ) :
    sumsUpTo pool (n + 1)
      = sumsUpTo pool n
        ∪ (pool.toFinset ×ˢ sumsUpTo pool n).image (fun p => p.1 + p.2) := rfl

theorem sumsUpTo_mono (pool : List Score) {m n : ℕ} (h : m ≤ n) :
    sumsUpTo pool m ⊆ sumsUpTo pool n := by
  induction h with
  | refl => exact Finset.Subset.refl _
  | step h2 ih =>
    rw [sumsUpTo_succ]
    exact ih.trans Finset.subset_union_left

theorem zero_mem_sumsUpTo (pool : List Score) (n : ℕ) :
    (0 : Score) ∈ sumsUpTo pool n :=
  sumsUpTo_mono pool (Nat.zero_le n)
    (Finset.mem_singleton_self (0 : Score))

theorem sum_mem_sumsUpTo (pool : List Score) :
    ∀ (wl : List Score), (∀ w ∈ wl, w ∈ pool) → ∀ n, wl.length ≤ n →
      wl.sum ∈ sumsUpTo pool n := by
  intro wl
  induction wl with
  | nil =>
    intro _ n _
    rw [List.sum_nil]
    exact zero_mem_sumsUpTo pool n
  | cons w wl ih =>
    intro hmem n hn
    cases n with
    | zero => exact absurd hn (Nat.not_succ_le_zero _)
    | succ m =>
      rw [List.sum_cons, sumsUpTo_succ]
      refine Finset.mem_union_right _ (Finset.mem_image.mpr ⟨(w, wl.sum), ?_, rfl⟩)
      refine Finset.mem_product.mpr
        ⟨List.mem_toFinset.mpr (hmem w (List.mem_cons_self _ _)), ?_⟩
      exact ih (fun w2 h2 => hmem w2 (List.mem_cons_of_mem _ h2)) m
        (Nat.le_of_succ_le_succ hn)

theorem nodup_len_le (N : ℕ) (p : List (Bool × ℕ)) (hnd : p.Nodup)
    (hlt : ∀ u ∈ p, u.2 < N) : p.length ≤ 2 * N := by
  have h1 : p.toFinset.card = p.length := List.toFinset_card_of_nodup hnd
  have h2 : p.toFinset ⊆ (Finset.univ : Finset Bool) ×ˢ Finset.range N := by
    intro u hu
    exact Finset.mem_product.mpr ⟨Finset.mem_univ _,
      Finset.mem_range.mpr (hlt u (List.mem_toFinset.mp hu))⟩
  have h3 := Finset.card_le_card h2
  rw [h1, Finset.card_product, Finset.card_univ, Fintype.card_bool,
    Finset.card_range] at h3
  exact h3

theorem cell_mem_initVals (st0 : CState) (N : ℕ) (v : Bool × ℕ) (hv : v.2 < N) :
    cellOf st0 v ∈ initVals st0 N := by
  refine List.mem_toFinset.mpr ?_
  rcases v with ⟨b, t⟩
  cases b
  · exact List.mem_append.mpr
      (Or.inl (List.mem_map.mpr ⟨t, List.mem_range.mpr hv, rfl⟩))
  · exact List.mem_append.mpr
      (Or.inr (List.mem_map.mpr ⟨t, List.mem_range.mpr hv, rfl⟩))

theorem bcert_val_mem (d : DPIn) (st0 st : CState) {v : Bool × ℕ} {val : Score}
    {p : List (Bool × ℕ)} {wl : List Score} (h : BCert d st0 st v val p wl)
    (hnd : p.Nodup) (hlt : ∀ u ∈ p, u.2 < d.nStates) : val ∈ valSet d st0 := by
  obtain ⟨hd, q, hp, hv⟩ := bcert_head_sum d st0 st h
  rw [valSet]
  refine Finset.mem_image.mpr
    ⟨(cellOf st0 hd, wl.sum), Finset.mem_product.mpr ⟨?_, ?_⟩, hv.symm⟩
  · exact cell_mem_initVals st0 d.nStates hd
      (hlt hd (by rw [hp]; exact List.mem_cons_self _ _))
  · refine sum_mem_sumsUpTo (weightPool d) wl (bcert_w_mem d st0 st h)
      (2 * d.nStates) ?_
    have hlen := bcert_length d st0 st h
    have hple := nodup_len_le d.nStates p hnd hlt
    omega

theorem slack_mono (d : DPIn) (st0 : CState) {a b : Score} (h : a ≤ b) :
    cellSlack d st0 b ≤ cellSlack d st0 a := by
  rw [cellSlack, cellSlack]
  refine Finset.card_le_card ?_
  intro q hq
  rw [Finset.mem_filter] at hq ⊢
  exact ⟨hq.1, lt_of_le_of_lt h hq.2⟩

theorem slack_strict (d : DPIn) (st0 : CState) {a b : Score} (h : a < b)
    (hb : b ∈ valSet d st0) : cellSlack d st0 b < cellSlack d st0 a := by
  rw [cellSlack, cellSlack]
  refine Finset.card_lt_card ⟨?_, ?_⟩
  · intro q hq
    rw [Finset.mem_filter] at hq ⊢
    exact ⟨hq.1, lt_trans h hq.2⟩
  · intro hsup
    have hbmem : b ∈ (valSet d st0).filter (fun q => a < q) :=
      Finset.mem_filter.mpr ⟨hb, h⟩
    have h2 := hsup hbmem
    rw [Finset.mem_filter] at h2
    exact absurd h2.2 (lt_irrefl b)

theorem rangeSum_le (N : ℕ) (f g : ℕ → ℕ) (h : ∀ x, x < N → g x ≤ f x) :
    ((List.range N).map g).sum ≤ ((List.range N).map f).sum := by
  induction N with
  | zero => exact le_refl _
  | succ n ih =>
    rw [List.range_succ, List.map_append, List.map_append, List.sum_append,
      List.sum_append]
    simp only [List.map_cons, List.map_nil, List.sum_cons, List.sum_nil]
    exact Nat.add_le_add (ih (fun x hx => h x (Nat.lt_succ_of_lt hx)))
      (Nat.add_le_add (h n (Nat.lt_succ_self n)) (le_refl 0))

theorem rangeSum_lt (N : ℕ) (f g : ℕ → ℕ) (h : ∀ x, x < N → g x ≤ f x)
    (i : ℕ) (hi : i < N) (hs : g i < f i) :
    ((List.range N).map g).sum < ((List.range N).map f).sum := by
  induction N with
  | zero => cases hi
  | succ n ih =>
    rw [List.range_succ, List.map_append, List.map_append, List.sum_append,
      List.sum_append]
    simp only [List.map_cons, List.map_nil, List.sum_cons, List.sum_nil]
    rcases Nat.lt_or_ge i n with h1 | h2
    · exact Nat.add_lt_add_of_lt_of_le (ih (fun x hx => h x (Nat.lt_succ_of_lt hx)) h1)
        (Nat.add_le_add (h n (Nat.lt_succ_self n)) (le_refl 0))
    · have hin : i = n := by omega
      subst hin
      exact Nat.add_lt_add_of_le_of_lt
        (rangeSum_le i f g (fun x hx => h x (Nat.lt_succ_of_lt hx))) (by omega)

theorem certFor_mono (d : DPIn) (st0 st st2 : CState) (v : Bool × ℕ) (val : Score)
    (h : certFor d st0 st v val) (hg : ∀ x, cellOf st x ≤ cellOf st2 x) :
    certFor d st0 st2 v val := by
  rcases h with h | ⟨p, wl, hc, hnd, hlt⟩
  · exact Or.inl h
  · exact Or.inr ⟨p, wl, bcert_mono d st0 st st2 hc hg, hnd, hlt⟩

theorem certAll_cell (d : DPIn) (st0 st : CState) (v : Bool × ℕ)
    (hall : certAll d st0 st) (hv : v.2 < d.nStates) :
    certFor d st0 st v (cellOf st v) := by
  by_cases hb : cellOf st v = ⊥
  · exact Or.inl hb
  · obtain ⟨val, p, wl, hc, he, hnd, hlt⟩ := hall v hv hb
    exact Or.inr ⟨p, wl, he.symm ▸ hc, hnd, hlt⟩

theorem cellOf_writeD (acc : CState) (dest : ℕ) (nv : Score) (ws2 : List ℕ)
    (os2 : ℕ → Bool) :
    (∀ x, x ≠ ((true, dest) : Bool × ℕ) →
        cellOf ⟨acc.S, updf acc.D dest nv, ws2, os2⟩ x = cellOf acc x)
    ∧ cellOf ⟨acc.S, updf acc.D dest nv, ws2, os2⟩ (true, dest) = nv := by
  constructor
  · intro x hx
    rcases x with ⟨b, t⟩
    cases b
    · rfl
    · have ht : t ≠ dest := fun h => hx (by rw [h])
      exact updf_other _ _ _ _ ht
  · exact updf_same _ _ _

theorem cellOf_writeS (acc : CState) (dest : ℕ) (nv : Score) (ws2 : List ℕ)
    (os2 : ℕ → Bool) :
    (∀ x, x ≠ ((false, dest) : Bool × ℕ) →
        cellOf ⟨updf acc.S dest nv, acc.D, ws2, os2⟩ x = cellOf acc x)
    ∧ cellOf ⟨updf acc.S dest nv, acc.D, ws2, os2⟩ (false, dest) = nv := by
  constructor
  · intro x hx
    rcases x with ⟨b, t⟩
    cases b
    · have ht : t ≠ dest := fun h => hx (by rw [h])
      exact updf_other _ _ _ _ ht
    · rfl
  · exact updf_same _ _ _

theorem certAll_write (d : DPIn) (hnp : nonposScores d)
    (st0 st st2 : CState) (hall : certAll d st0 st)
    (u v : Bool × ℕ) (w val : Score) (hvN : v.2 < d.nStates) (he : EdgeW d u v w)
    (hcert : certFor d st0 st u val) (hub : val ≤ cellOf st u)
    (hv : cellOf st2 v = val + w)
    (ho : ∀ x, x ≠ v → cellOf st2 x = cellOf st x)
    (himp : cellOf st v < val + w) :
    certAll d st0 st2 ∧ (∀ x, cellOf st x ≤ cellOf st2 x)
      ∧ val + w ∈ valSet d st0 := by
  have hg : ∀ x, cellOf st x ≤ cellOf st2 x := by
    intro x
    by_cases hx : x = v
    · rw [hx, hv]
      exact le_of_lt himp
    · rw [ho x hx]
  have hvalbot : val ≠ ⊥ := by
    intro hb
    rw [hb, WithBot.bot_add] at himp
    exact absurd himp (not_lt_bot)
  rcases hcert with hb | ⟨p, wl, hc, hnd, hlt⟩
  · exact absurd hb hvalbot
  have hvw : val + w ≤ val :=
    le_trans (add_le_add_left (edgeW_nonpos d hnp he) val) (le_of_eq (add_zero val))
  have hvin : v ∉ p := by
    intro hin
    obtain ⟨q, hq⟩ := bcert_concat d st0 st hc
    rcases List.mem_append.mp (by rw [← hq]; exact hin) with h1 | h1
    · have hd := bcert_dropLast_le d hnp st0 st hc v
        (by rw [hq, List.dropLast_concat]; exact h1)
      exact absurd (lt_of_lt_of_le himp (le_trans hvw hd)) (lt_irrefl _)
    · have hd : val ≤ cellOf st v := (List.mem_singleton.mp h1) ▸ hub
      exact absurd (lt_of_lt_of_le himp (le_trans hvw hd)) (lt_irrefl _)
  have hnewnd : (p ++ [v]).Nodup := by
    rw [List.nodup_append]
    exact ⟨hnd, List.nodup_singleton v,
      fun a ha1 ha2 => hvin ((List.mem_singleton.mp ha2) ▸ ha1)⟩
  have hnewlt : ∀ u2 ∈ p ++ [v], u2.2 < d.nStates := by
    intro u2 hu2
    rcases List.mem_append.mp hu2 with h1 | h1
    · exact hlt u2 h1
    · rw [List.mem_singleton.mp h1]
      exact hvN
  have hnew : BCert d st0 st2 v (val + w) (p ++ [v]) (wl ++ [w]) :=
    BCert.step (bcert_mono d st0 st st2 hc hg) he (le_trans hub (hg u))
  refine ⟨?_, hg, bcert_val_mem d st0 st2 hnew hnewnd hnewlt⟩
  intro x hxN hxbot
  by_cases hx : x = v
  · subst hx
    exact ⟨val + w, _, _, hnew, hv, hnewnd, hnewlt⟩
  · have hxc : cellOf st2 x = cellOf st x := ho x hx
    have hcb : cellOf st x ≠ ⊥ := by
      rw [← hxc]
      exact hxbot
    obtain ⟨val2, p2, wl2, hc2, hve, hnd2, hlt2⟩ := hall x hxN hcb
    exact ⟨val2, p2, wl2, bcert_mono d st0 st st2 hc2 hg, by rw [hxc, hve],
      hnd2, hlt2⟩

theorem certAll_congr (d : DPIn) (st0 st st2 : CState) (hall : certAll d st0 st)
    (he : ∀ x, cellOf st2 x = cellOf st x) : certAll d st0 st2 := by
  intro x hxN hxbot
  have hcb : cellOf st x ≠ ⊥ := by
    rw [← he x]
    exact hxbot
  obtain ⟨val2, p2, wl2, hc2, hve, hnd2, hlt2⟩ := hall x hxN hcb
  exact ⟨val2, p2, wl2,
    bcert_mono d st0 st st2 hc2 (fun y => le_of_eq (he y).symm), by rw [he x, hve],
    hnd2, hlt2⟩

theorem phiM_le (d : DPIn) (st0 st st2 : CState)
    (hS : ∀ t, t < d.nStates → st.S t ≤ st2.S t)
    (hD : ∀ t, t < d.nStates → st.D t ≤ st2.D t)
    (hws : st2.ws.length ≤ st.ws.length) :
    phiM d st0 st2 ≤ phiM d st0 st := by
  rw [phiM, phiM]
  have h1 := rangeSum_le d.nStates (fun t => cellSlack d st0 (st.S t))
    (fun t => cellSlack d st0 (st2.S t)) (fun x hx => slack_mono d st0 (hS x hx))
  have h2 := rangeSum_le d.nStates (fun t => cellSlack d st0 (st.D t))
    (fun t => cellSlack d st0 (st2.D t)) (fun x hx => slack_mono d st0 (hD x hx))
  omega

theorem phiM_push_le_D (d : DPIn) (st0 st st2 : CState)
    (hS : ∀ t, t < d.nStates → st.S t ≤ st2.S t)
    (hD : ∀ t, t < d.nStates → st.D t ≤ st2.D t)
    (hws : st2.ws.length ≤ st.ws.length + 1)
    (i : ℕ) (hi : i < d.nStates)
    (hstrict : cellSlack d st0 (st2.D i) < cellSlack d st0 (st.D i)) :
    phiM d st0 st2 ≤ phiM d st0 st := by
  rw [phiM, phiM]
  have h1 := rangeSum_le d.nStates (fun t => cellSlack d st0 (st.S t))
    (fun t => cellSlack d st0 (st2.S t)) (fun x hx => slack_mono d st0 (hS x hx))
  have h2 := rangeSum_lt d.nStates (fun t => cellSlack d st0 (st.D t))
    (fun t => cellSlack d st0 (st2.D t)) (fun x hx => slack_mono d st0 (hD x hx))
    i hi hstrict
  omega

theorem phiM_push_le_S (d : DPIn) (st0 st st2 : CState)
    (hS : ∀ t, t < d.nStates → st.S t ≤ st2.S t)
    (hD : ∀ t, t < d.nStates → st.D t ≤ st2.D t)
    (hws : st2.ws.length ≤ st.ws.length + 1)
    (i : ℕ) (hi : i < d.nStates)
    (hstrict : cellSlack d st0 (st2.S i) < cellSlack d st0 (st.S i)) :
    phiM d st0 st2 ≤ phiM d st0 st := by
  rw [phiM, phiM]
  have h1 := rangeSum_lt d.nStates (fun t => cellSlack d st0 (st.S t))
    (fun t => cellSlack d st0 (st2.S t)) (fun x hx => slack_mono d st0 (hS x hx))
    i hi hstrict
  have h2 := rangeSum_le d.nStates (fun t => cellSlack d st0 (st.D t))
    (fun t => cellSlack d st0 (st2.D t)) (fun x hx => slack_mono d st0 (hD x hx))
  omega

theorem certQ_of_write (d : DPIn) (st0 : CState) (s : ℕ) (dsrc ssrc : Score)
    (acc st2 : CState) (hQ : certQ d st0 s dsrc ssrc acc)
    (hall2 : certAll d st0 st2)
    (hg : ∀ x, cellOf acc x ≤ cellOf st2 x) :
    certQ d st0 s dsrc ssrc st2 := by
  obtain ⟨hall, hcd, hcs, hld, hls⟩ := hQ
  exact ⟨hall2, certFor_mono d st0 acc st2 _ _ hcd hg,
    certFor_mono d st0 acc st2 _ _ hcs hg,
    le_trans hld (hg (true, s)), le_trans hls (hg (false, s))⟩

theorem emitRelax_cert (d : DPIn) (hwf : wfDP d) (hnp : nonposScores d)
    (st0 : CState) (s : ℕ) (hsN : s < d.nStates) (dsrc ssrc : Score)
    (acc : CState) (ot : OutgoingTransScore Score)
    (hot : ot ∈ (d.ss s).outgoingEmit)
    (hQ : certQ d st0 s dsrc ssrc acc) :
    certQ d st0 s dsrc ssrc (emitRelax d dsrc ssrc acc ot)
    ∧ phiM d st0 (emitRelax d dsrc ssrc acc ot) ≤ phiM d st0 acc := by
  rw [emitRelax]
  split
  · next himp =>
    have hdest : ot.dest < d.nStates := (wf_ss d hwf s).2.2.1 ot hot
    have hcw := cellOf_writeD acc ot.dest
      (max (dsrc + d.muts.delExtend) (ssrc + d.muts.delOpen) + ot.score)
      (if acc.onStack ot.dest then acc.ws else ot.dest :: acc.ws)
      (if acc.onStack ot.dest then acc.onStack else updf acc.onStack ot.dest true)
    have hwr : certAll d st0
        ⟨acc.S, updf acc.D ot.dest
          (max (dsrc + d.muts.delExtend) (ssrc + d.muts.delOpen) + ot.score),
         if acc.onStack ot.dest then acc.ws else ot.dest :: acc.ws,
         if acc.onStack ot.dest then acc.onStack else updf acc.onStack ot.dest true⟩
        ∧ (∀ x, cellOf acc x ≤ cellOf
            ⟨acc.S, updf acc.D ot.dest
              (max (dsrc + d.muts.delExtend) (ssrc + d.muts.delOpen) + ot.score),
             if acc.onStack ot.dest then acc.ws else ot.dest :: acc.ws,
             if acc.onStack ot.dest then acc.onStack
               else updf acc.onStack ot.dest true⟩ x)
        ∧ max (dsrc + d.muts.delExtend) (ssrc + d.muts.delOpen) + ot.score
            ∈ valSet d st0 := by
      rcases max_choice (dsrc + d.muts.delExtend) (ssrc + d.muts.delOpen) with hmx | hmx
      · have hres := certAll_write d hnp st0 acc _ hQ.1 (true, s) (true, ot.dest)
          (d.muts.delExtend + ot.score) dsrc hdest (EdgeW.emitExt s hsN ot hot)
          hQ.2.1 hQ.2.2.2.1
          (by rw [hcw.2, hmx, add_assoc])
          hcw.1
          (by rw [hmx, add_assoc] at himp; exact himp)
        refine ⟨hres.1, hres.2.1, ?_⟩
        rw [hmx, add_assoc]
        exact hres.2.2
      · have hres := certAll_write d hnp st0 acc _ hQ.1 (false, s) (true, ot.dest)
          (d.muts.delOpen + ot.score) ssrc hdest (EdgeW.emitOpen s hsN ot hot)
          hQ.2.2.1 hQ.2.2.2.2
          (by rw [hcw.2, hmx, add_assoc])
          hcw.1
          (by rw [hmx, add_assoc] at himp; exact himp)
        refine ⟨hres.1, hres.2.1, ?_⟩
        rw [hmx, add_assoc]
        exact hres.2.2
    refine ⟨certQ_of_write d st0 s dsrc ssrc acc _ hQ hwr.1 hwr.2.1, ?_⟩
    have hDle : ∀ t, t < d.nStates → acc.D t ≤ updf acc.D ot.dest
        (max (dsrc + d.muts.delExtend) (ssrc + d.muts.delOpen) + ot.score) t :=
      fun t _ => updf_ge _ _ _ (le_of_lt himp) t
    by_cases hosd : acc.onStack ot.dest
    · refine phiM_le d st0 acc _ (fun t ht => le_refl _) hDle ?_
      rw [if_pos hosd]
    · refine phiM_push_le_D d st0 acc _ (fun t ht => le_refl _) hDle ?_ ot.dest hdest ?_
      · rw [if_neg hosd, List.length_cons]
      · rw [show (⟨acc.S, updf acc.D ot.dest
            (max (dsrc + d.muts.delExtend) (ssrc + d.muts.delOpen) + ot.score),
           if acc.onStack ot.dest then acc.ws else ot.dest :: acc.ws,
           if acc.onStack ot.dest then acc.onStack
             else updf acc.onStack ot.dest true⟩ : CState).D ot.dest
            = max (dsrc + d.muts.delExtend) (ssrc + d.muts.delOpen) + ot.score
          from updf_same _ _ _]
        exact slack_strict d st0 himp hwr.2.2
  · exact ⟨hQ, le_refl _⟩

theorem nullRelax_cert (d : DPIn) (hwf : wfDP d) (hnp : nonposScores d)
    (st0 : CState) (s : ℕ) (hsN : s < d.nStates) (dsrc ssrc : Score)
    (acc : CState) (ot : OutgoingTransScore Score)
    (hot : ot ∈ (d.ss s).outgoingNull)
    (hQ : certQ d st0 s dsrc ssrc acc) :
    certQ d st0 s dsrc ssrc (nullRelax dsrc ssrc acc ot)
    ∧ phiM d st0 (nullRelax dsrc ssrc acc ot) ≤ phiM d st0 acc := by
  have hdest : ot.dest < d.nStates := (wf_ss d hwf s).2.2.2 ot hot
  rw [nullRelax]
  split
  · next hD1 =>
    have hw1 := certAll_write d hnp st0 acc
      ⟨acc.S, updf acc.D ot.dest (dsrc + ot.score),
       if acc.onStack ot.dest then acc.ws else ot.dest :: acc.ws,
       if acc.onStack ot.dest then acc.onStack else updf acc.onStack ot.dest true⟩
      hQ.1 (true, s) (true, ot.dest) ot.score dsrc hdest
      (EdgeW.nullD s hsN ot hot) hQ.2.1 hQ.2.2.2.1
      (cellOf_writeD acc ot.dest (dsrc + ot.score)
        (if acc.onStack ot.dest then acc.ws else ot.dest :: acc.ws)
        (if acc.onStack ot.dest then acc.onStack
          else updf acc.onStack ot.dest true)).2
      (cellOf_writeD acc ot.dest (dsrc + ot.score)
        (if acc.onStack ot.dest then acc.ws else ot.dest :: acc.ws)
        (if acc.onStack ot.dest then acc.onStack
          else updf acc.onStack ot.dest true)).1
      hD1
    have hQmid : certQ d st0 s dsrc ssrc
        ⟨acc.S, updf acc.D ot.dest (dsrc + ot.score),
         if acc.onStack ot.dest then acc.ws else ot.dest :: acc.ws,
         if acc.onStack ot.dest then acc.onStack
           else updf acc.onStack ot.dest true⟩ :=
      certQ_of_write d st0 s dsrc ssrc acc _ hQ hw1.1 hw1.2.1
    split
    · next hS1 =>
      have hw2 := certAll_write d hnp st0
        ⟨acc.S, updf acc.D ot.dest (dsrc + ot.score),
         if acc.onStack ot.dest then acc.ws else ot.dest :: acc.ws,
         if acc.onStack ot.dest then acc.onStack else updf acc.onStack ot.dest true⟩
        ⟨updf acc.S ot.dest (ssrc + ot.score), updf acc.D ot.dest (dsrc + ot.score),
         if acc.onStack ot.dest then acc.ws else ot.dest :: acc.ws,
         if acc.onStack ot.dest then acc.onStack else updf acc.onStack ot.dest true⟩
        hQmid.1 (false, s) (false, ot.dest) ot.score ssrc hdest
        (EdgeW.nullS s hsN ot hot) hQmid.2.2.1 hQmid.2.2.2.2
        (cellOf_writeS
          ⟨acc.S, updf acc.D ot.dest (dsrc + ot.score),
           if acc.onStack ot.dest then acc.ws else ot.dest :: acc.ws,
           if acc.onStack ot.dest then acc.onStack
             else updf acc.onStack ot.dest true⟩
          ot.dest (ssrc + ot.score)
          (if acc.onStack ot.dest then acc.ws else ot.dest :: acc.ws)
          (if acc.onStack ot.dest then acc.onStack
            else updf acc.onStack ot.dest true)).2
        (cellOf_writeS
          ⟨acc.S, updf acc.D ot.dest (dsrc + ot.score),
           if acc.onStack ot.dest then acc.ws else ot.dest :: acc.ws,
           if acc.onStack ot.dest then acc.onStack
             else updf acc.onStack ot.dest true⟩
          ot.dest (ssrc + ot.score)
          (if acc.onStack ot.dest then acc.ws else ot.dest :: acc.ws)
          (if acc.onStack ot.dest then acc.onStack
            else updf acc.onStack ot.dest true)).1
        hS1
      refine ⟨certQ_of_write d st0 s dsrc ssrc _ _ hQmid hw2.1 hw2.2.1, ?_⟩
      have hSle : ∀ t, t < d.nStates →
          acc.S t ≤ updf acc.S ot.dest (ssrc + ot.score) t :=
        fun t _ => updf_ge _ _ _ (le_of_lt hS1) t
      have hDle : ∀ t, t < d.nStates →
          acc.D t ≤ updf acc.D ot.dest (dsrc + ot.score) t :=
        fun t _ => updf_ge _ _ _ (le_of_lt hD1) t
      by_cases hosd : acc.onStack ot.dest
      · refine phiM_le d st0 acc _ hSle hDle ?_
        rw [if_pos hosd]
      · refine phiM_push_le_D d st0 acc _ hSle hDle ?_ ot.dest hdest ?_
        · rw [if_neg hosd, List.length_cons]
        · rw [show (⟨updf acc.S ot.dest (ssrc + ot.score),
              updf acc.D ot.dest (dsrc + ot.score),
              if acc.onStack ot.dest then acc.ws else ot.dest :: acc.ws,
              if acc.onStack ot.dest then acc.onStack
                else updf acc.onStack ot.dest true⟩ : CState).D ot.dest
              = dsrc + ot.score from updf_same _ _ _]
          exact slack_strict d st0 hD1 hw1.2.2
    · next hS1 =>
      refine ⟨certQ_of_write d st0 s dsrc ssrc acc _ hQ hw1.1 hw1.2.1, ?_⟩
      have hDle : ∀ t, t < d.nStates →
          acc.D t ≤ updf acc.D ot.dest (dsrc + ot.score) t :=
        fun t _ => updf_ge _ _ _ (le_of_lt hD1) t
      by_cases hosd : acc.onStack ot.dest
      · refine phiM_le d st0 acc _ (fun t _ => le_refl _) hDle ?_
        rw [if_pos hosd]
      · refine phiM_push_le_D d st0 acc _ (fun t _ => le_refl _) hDle ?_ ot.dest hdest ?_
        · rw [if_neg hosd, List.length_cons]
        · rw [show (⟨acc.S, updf acc.D ot.dest (dsrc + ot.score),
              if acc.onStack ot.dest then acc.ws else ot.dest :: acc.ws,
              if acc.onStack ot.dest then acc.onStack
                else updf acc.onStack ot.dest true⟩ : CState).D ot.dest
              = dsrc + ot.score from updf_same _ _ _]
          exact slack_strict d st0 hD1 hw1.2.2
  · next hD1 =>
    split
    · next hS1 =>
      have hw1 := certAll_write d hnp st0 acc
        ⟨updf acc.S ot.dest (ssrc + ot.score), acc.D,
         if acc.onStack ot.dest then acc.ws else ot.dest :: acc.ws,
         if acc.onStack ot.dest then acc.onStack else updf acc.onStack ot.dest true⟩
        hQ.1 (false, s) (false, ot.dest) ot.score ssrc hdest
        (EdgeW.nullS s hsN ot hot) hQ.2.2.1 hQ.2.2.2.2
        (cellOf_writeS acc ot.dest (ssrc + ot.score)
          (if acc.onStack ot.dest then acc.ws else ot.dest :: acc.ws)
          (if acc.onStack ot.dest then acc.onStack
            else updf acc.onStack ot.dest true)).2
        (cellOf_writeS acc ot.dest (ssrc + ot.score)
          (if acc.onStack ot.dest then acc.ws else ot.dest :: acc.ws)
          (if acc.onStack ot.dest then acc.onStack
            else updf acc.onStack ot.dest true)).1
        hS1
      refine ⟨certQ_of_write d st0 s dsrc ssrc acc _ hQ hw1.1 hw1.2.1, ?_⟩
      have hSle : ∀ t, t < d.nStates →
          acc.S t ≤ updf acc.S ot.dest (ssrc + ot.score) t :=
        fun t _ => updf_ge _ _ _ (le_of_lt hS1) t
      by_cases hosd : acc.onStack ot.dest
      · refine phiM_le d st0 acc _ hSle (fun t _ => le_refl _) ?_
        rw [if_pos hosd]
      · refine phiM_push_le_S d st0 acc _ hSle (fun t _ => le_refl _) ?_ ot.dest hdest ?_
        · rw [if_neg hosd, List.length_cons]
        · rw [show (⟨updf acc.S ot.dest (ssrc + ot.score), acc.D,
              if acc.onStack ot.dest then acc.ws else ot.dest :: acc.ws,
              if acc.onStack ot.dest then acc.onStack
                else updf acc.onStack ot.dest true⟩ : CState).S ot.dest
              = ssrc + ot.score from updf_same _ _ _]
          exact slack_strict d st0 hS1 hw1.2.2
    · exact ⟨hQ, le_refl _⟩

theorem closureStep_cert (d : DPIn) (hwf : wfDP d) (hnp : nonposScores d)
    (st0 st : CState) (hall : certAll d st0 st)
    (hws : ∀ t ∈ st.ws, t < d.nStates) (hne : st.ws ≠ []) :
    certAll d st0 (closureStep d st)
      ∧ phiM d st0 (closureStep d st) < phiM d st0 st := by
  obtain ⟨S0, D0, ws0, os0⟩ := st
  cases ws0 with
  | nil => exact absurd rfl hne
  | cons s rest =>
    rw [closureStep_cons]
    have hsN : s < d.nStates := hws s (List.mem_cons_self _ _)
    have hall1 : certAll d st0
        ⟨updf S0 s (max (S0 s) (D0 s + d.muts.delEnd)), D0, rest,
         updf os0 s false⟩ := by
      rcases le_or_lt (D0 s + d.muts.delEnd) (S0 s) with hmax | hmax
      · refine certAll_congr d st0 _ _ hall ?_
        intro x
        by_cases hx : x = ((false, s) : Bool × ℕ)
        · rw [hx]
          show updf S0 s (max (S0 s) (D0 s + d.muts.delEnd)) s = S0 s
          rw [updf_same, max_eq_left hmax]
        · exact (cellOf_writeS ⟨S0, D0, s :: rest, os0⟩ s
            (max (S0 s) (D0 s + d.muts.delEnd)) rest (updf os0 s false)).1 x hx
      · refine (certAll_write d hnp st0 ⟨S0, D0, s :: rest, os0⟩ _ hall
          (true, s) (false, s) d.muts.delEnd (D0 s) hsN (EdgeW.delEnd s hsN)
          (certAll_cell d st0 ⟨S0, D0, s :: rest, os0⟩ (true, s) hall hsN)
          (le_refl _) ?_ ?_ ?_).1
        · show updf S0 s (max (S0 s) (D0 s + d.muts.delEnd)) s = D0 s + d.muts.delEnd
          rw [updf_same, max_eq_right (le_of_lt hmax)]
        · exact (cellOf_writeS ⟨S0, D0, s :: rest, os0⟩ s
            (max (S0 s) (D0 s + d.muts.delEnd)) rest (updf os0 s false)).1
        · exact hmax
    have hQ1 : certQ d st0 s (D0 s) (max (S0 s) (D0 s + d.muts.delEnd))
        ⟨updf S0 s (max (S0 s) (D0 s + d.muts.delEnd)), D0, rest,
         updf os0 s false⟩ := by
      refine ⟨hall1, certAll_cell d st0 _ (true, s) hall1 hsN, ?_, le_refl _,
        le_of_eq (updf_same _ _ _).symm⟩
      have hcell := certAll_cell d st0
        ⟨updf S0 s (max (S0 s) (D0 s + d.muts.delEnd)), D0, rest,
         updf os0 s false⟩ (false, s) hall1 hsN
      rw [show cellOf ⟨updf S0 s (max (S0 s) (D0 s + d.muts.delEnd)), D0, rest,
          updf os0 s false⟩ (false, s) = max (S0 s) (D0 s + d.muts.delEnd)
        from updf_same _ _ _] at hcell
      exact hcell
    have hphi1 : phiM d st0
        ⟨updf S0 s (max (S0 s) (D0 s + d.muts.delEnd)), D0, rest,
         updf os0 s false⟩ < phiM d st0 ⟨S0, D0, s :: rest, os0⟩ := by
      rw [phiM, phiM]
      have h1 := rangeSum_le d.nStates (fun t => cellSlack d st0 (S0 t))
        (fun t => cellSlack d st0 (updf S0 s (max (S0 s) (D0 s + d.muts.delEnd)) t))
        (fun x _ => slack_mono d st0 (updf_ge S0 s _ (le_max_left _ _) x))
      dsimp only
      rw [List.length_cons]
      omega
    have hfold := foldl_pres
      (fun acc => certQ d st0 s (D0 s) (max (S0 s) (D0 s + d.muts.delEnd)) acc
        ∧ phiM d st0 acc ≤ phiM d st0
            ⟨updf S0 s (max (S0 s) (D0 s + d.muts.delEnd)), D0, rest,
             updf os0 s false⟩)
      (nullRelax (D0 s) (max (S0 s) (D0 s + d.muts.delEnd)))
      (d.ss s).outgoingNull
      (fun acc ot hot h =>
        ⟨(nullRelax_cert d hwf hnp st0 s hsN _ _ acc ot hot h.1).1,
         le_trans (nullRelax_cert d hwf hnp st0 s hsN _ _ acc ot hot h.1).2 h.2⟩)
      _
      (foldl_pres
        (fun acc => certQ d st0 s (D0 s) (max (S0 s) (D0 s + d.muts.delEnd)) acc
          ∧ phiM d st0 acc ≤ phiM d st0
              ⟨updf S0 s (max (S0 s) (D0 s + d.muts.delEnd)), D0, rest,
               updf os0 s false⟩)
        (emitRelax d (D0 s) (max (S0 s) (D0 s + d.muts.delEnd)))
        (d.ss s).outgoingEmit
        (fun acc ot hot h =>
          ⟨(emitRelax_cert d hwf hnp st0 s hsN _ _ acc ot hot h.1).1,
           le_trans (emitRelax_cert d hwf hnp st0 s hsN _ _ acc ot hot h.1).2 h.2⟩)
        ⟨updf S0 s (max (S0 s) (D0 s + d.muts.delEnd)), D0, rest,
         updf os0 s false⟩
        ⟨hQ1, le_refl _⟩)
    exact ⟨hfold.1.1, lt_of_le_of_lt hfold.2 hphi1⟩

theorem closureStep_of_nil (d : DPIn) (st : CState) (h : st.ws = []) :
    closureStep d st = st := by
  obtain ⟨S0, D0, ws0, os0⟩ := st
  have h2 : ws0 = [] := h
  subst h2
  rfl

theorem closureRun_of_nil (d : DPIn) (n : ℕ) (st : CState) (h : st.ws = []) :
    closureRun d n st = st := by
  induction n with
  | zero => rfl
  | succ n ih => rw [closureRun_succ, closureStep_of_nil d st h, ih]

theorem certAll_refl (d : DPIn) (st0 : CState) : certAll d st0 st0 := by
  intro v hv _
  exact ⟨cellOf st0 v, [v], [], BCert.single v, rfl, List.nodup_singleton v,
    fun u hu => by rw [List.mem_singleton.mp hu]; exact hv⟩

theorem closure_term_aux (d : DPIn) (hwf : wfDP d) (hnp : nonposScores d)
    (st0 : CState) :
    ∀ (k : ℕ) (st : CState), certAll d st0 st → (∀ t ∈ st.ws, t < d.nStates) →
      phiM d st0 st ≤ k → (closureRun d k st).ws = [] := by
  intro k
  induction k with
  | zero =>
    intro st _ _ hp
    rw [closureRun_zero]
    have h0 : st.ws.length = 0 := by
      rw [phiM] at hp
      omega
    exact List.length_eq_zero.mp h0
  | succ k ih =>
    intro st hall hws hp
    by_cases hne : st.ws = []
    · rw [closureRun_of_nil d _ st hne]
      exact hne
    · rw [closureRun_succ]
      obtain ⟨hall2, hdec⟩ := closureStep_cert d hwf hnp st0 st hall hws hne
      exact ih (closureStep d st) hall2 (closureStep_ws_lt d hwf st hws) (by omega)

/-- **C3**: for every machine with a complete toposort and nonpositive
log-scores, every previous column, position and starting column, the
ε-closure worklist loop of the column builder empties its worklist after
finitely many iterations. -/
theorem c3_closure_terminates (d : DPIn) (hwf : wfDP d) (hnp : nonposScores d)
    (prev : Col) (p : ℕ) (cur0 : Col) :
    ∃ fuel, (buildColumn d fuel prev p cur0).2 = true := by
  refine ⟨phiM d
    ⟨(d.stateOrder.foldl (visitState d prev p) cur0).S,
     (d.stateOrder.foldl (visitState d prev p) cur0).D,
     d.stateOrder.reverse, fun s => decide (s < d.nStates)⟩
    ⟨(d.stateOrder.foldl (visitState d prev p) cur0).S,
     (d.stateOrder.foldl (visitState d prev p) cur0).D,
     d.stateOrder.reverse, fun s => decide (s < d.nStates)⟩, ?_⟩
  rw [buildColumn_done]
  refine decide_eq_true ?_
  exact closure_term_aux d hwf hnp _ _ _ (certAll_refl d _)
    (fun t ht => hwf.2.2.1 t (List.mem_reverse.mp ht)) (le_refl _)

/-- Witness for C3: the two-state emit machine satisfies both hypotheses and
its column-0 closure finishes. -/
theorem c3_witness :
    wfDP exG ∧ nonposScores exG
      ∧ ∃ fuel, (buildColumn exG fuel botCol 0 (initCol exG)).2 = true :=
  ⟨by unfold wfDP; decide,
   by unfold nonposScores; exact of_decide_eq_true (by with_unfolding_all rfl),
   c3_closure_terminates exG (by unfold wfDP; decide)
     (by unfold nonposScores; exact of_decide_eq_true (by with_unfolding_all rfl))
     botCol 0 (initCol exG)⟩

/-! ## Towards C1: the traceback argmax and post-fill cell achievability -/

theorem foldBest_best (d : DPIn) (cols : List Col) (l : List Cand) (a : BestAcc) :
    (l.foldl (updateBest d cols) a).best = max a.best (maxContrib d cols l) := by
  induction l generalizing a with
  | nil =>
    rw [List.foldl_nil, maxContrib, List.foldl_nil]
    exact (max_eq_left bot_le).symm
  | cons c rest ih =>
    rw [List.foldl_cons, maxContrib_cons, ih, updateBest]
    split
    · next h =>
      show max (contrib d cols c) (maxContrib d cols rest) = _
      rw [max_eq_right (le_trans (le_of_lt h) (le_max_left _ _))]
    · next h =>
      rw [← max_assoc, max_eq_left (not_lt.mp h)]

theorem foldBest_found (d : DPIn) (cols : List Col) (l : List Cand)
    (h : maxContrib d cols l ≠ ⊥) :
    (l.foldl (updateBest d cols) acc0).found = true := by
  rcases foldBest_choice d cols l acc0 with heq | ⟨c, _, heq⟩
  · have hb := foldBest_best d cols l acc0
    rw [heq] at hb
    have h2 : (⊥ : Score) = max ⊥ (maxContrib d cols l) := hb
    rw [max_eq_right bot_le] at h2
    exact absurd h2.symm h
  · rw [heq]

theorem maxContrib_le (d : DPIn) (cols : List Col) (l : List Cand) (B : Score)
    (h : ∀ c ∈ l, contrib d cols c ≤ B) : maxContrib d cols l ≤ B := by
  induction l with
  | nil => exact bot_le
  | cons c rest ih =>
    rw [maxContrib_cons]
    exact max_le (h c (List.mem_cons_self _ _))
      (ih (fun c2 h2 => h c2 (List.mem_cons_of_mem _ h2)))

theorem le_maxContrib (d : DPIn) (cols : List Col) (l : List Cand) (c : Cand)
    (h : c ∈ l) : contrib d cols c ≤ maxContrib d cols l := by
  induction l with
  | nil => exact absurd h (List.not_mem_nil c)
  | cons c2 rest ih =>
    rw [maxContrib_cons]
    rcases List.mem_cons.mp h with he | hm
    · rw [he]
      exact le_max_left _ _
    · exact le_trans (ih hm) (le_max_right _ _)

theorem foldUpdf_ge {α : Type} (z : ℕ) (g : (ℕ → Score) → α → Score) (l : List α) :
    ∀ (f : ℕ → Score) (x : ℕ),
      f x ≤ (l.foldl (fun f it => updf f z (max (f z) (g f it))) f) x := by
  induction l with
  | nil => exact fun f x => le_refl _
  | cons it rest ih =>
    intro f x
    rw [List.foldl_cons]
    exact le_trans (updf_ge f z _ (le_max_left _ _) x) (ih _ x)

theorem foldUpdf_other {α : Type} (z : ℕ) (g : (ℕ → Score) → α → Score)
    (l : List α) :
    ∀ (f : ℕ → Score) (x : ℕ), x ≠ z →
      (l.foldl (fun f it => updf f z (max (f z) (g f it))) f) x = f x := by
  induction l with
  | nil => exact fun f x _ => rfl
  | cons it rest ih =>
    intro f x hx
    rw [List.foldl_cons, ih _ x hx, updf_other _ _ _ _ hx]

theorem visitState_D (d : DPIn) (prev : Col) (p : ℕ) (cur : Col) (z : ℕ) :
    (visitState d prev p cur z).D = cur.D := by
  simp only [visitState]
  split <;> rfl

theorem visitState_S_ge (d : DPIn) (prev : Col) (p : ℕ) (cur : Col) (z x : ℕ) :
    cur.S x ≤ (visitState d prev p cur z).S x := by
  simp only [visitState]
  have h1 : cur.S x ≤
      (if 0 < p then
        (d.ss z).incomingEmit.foldl
          (fun f it => updf f z (max (f z)
            (prev.S it.src + it.score + d.muts.noGap
              + d.muts.sub it.base (d.seq.getD (p - 1) 0))))
          cur.S
       else cur.S) x := by
    by_cases hp : 0 < p
    · rw [if_pos hp]
      exact foldUpdf_ge z _ _ cur.S x
    · rw [if_neg hp]
  have h2 := le_trans h1 (foldUpdf_ge z (fun f it => f it.src + it.score)
    (d.ss z).incomingNull _ x)
  split
  · dsimp only
    exact le_trans h2 (updf_ge _ z _ (le_max_left _ _) x)
  · exact h2

theorem visitState_S_other (d : DPIn) (prev : Col) (p : ℕ) (cur : Col) (z x : ℕ)
    (hx : x ≠ z) : (visitState d prev p cur z).S x = cur.S x := by
  simp only [visitState]
  have h2 : ((d.ss z).incomingNull.foldl
      (fun f it => updf f z (max (f z) (f it.src + it.score)))
      (if 0 < p then
        (d.ss z).incomingEmit.foldl
          (fun f it => updf f z (max (f z)
            (prev.S it.src + it.score + d.muts.noGap
              + d.muts.sub it.base (d.seq.getD (p - 1) 0))))
          cur.S
       else cur.S)) x = cur.S x := by
    rw [foldUpdf_other z _ _ _ x hx]
    by_cases hp : 0 < p
    · rw [if_pos hp]
      exact foldUpdf_other z _ _ cur.S x hx
    · rw [if_neg hp]
  split
  · dsimp only
    rw [updf_other _ _ _ _ hx]
    exact h2
  · exact h2

theorem foldVisit_S_ge (d : DPIn) (prev : Col) (p : ℕ) (order : List ℕ)
    (cur : Col) (x : ℕ) :
    cur.S x ≤ (order.foldl (visitState d prev p) cur).S x := by
  induction order generalizing cur with
  | nil => exact le_refl _
  | cons z rest ih =>
    rw [List.foldl_cons]
    exact le_trans (visitState_S_ge d prev p cur z x) (ih _)

theorem foldVisit_D (d : DPIn) (prev : Col) (p : ℕ) (order : List ℕ)
    (cur : Col) :
    (order.foldl (visitState d prev p) cur).D = cur.D := by
  induction order generalizing cur with
  | nil => rfl
  | cons z rest ih =>
    rw [List.foldl_cons, ih, visitState_D]

theorem foldS1_term_ge {α : Type} (z : ℕ) (g : α → Score) (l : List α) (it : α)
    (hit : it ∈ l) : ∀ f : ℕ → Score,
    g it ≤ (l.foldl (fun f it2 => updf f z (max (f z) (g it2))) f) z := by
  induction l with
  | nil => exact absurd hit (List.not_mem_nil it)
  | cons it0 rest ih =>
    intro f
    rw [List.foldl_cons]
    rcases List.mem_cons.mp hit with he | hm
    · refine le_trans ?_ (foldUpdf_ge z (fun f2 it2 => g it2) rest _ z)
      rw [updf_same, he]
      exact le_max_right _ _
    · exact ih hm _

theorem visitState_S_emit_ge (d : DPIn) (prev : Col) (p : ℕ) (cur : Col) (z : ℕ)
    (hp : 0 < p) (it : IncomingTransScore Score)
    (hit : it ∈ (d.ss z).incomingEmit) :
    prev.S it.src + it.score + d.muts.noGap
        + d.muts.sub it.base (d.seq.getD (p - 1) 0)
      ≤ (visitState d prev p cur z).S z := by
  simp only [visitState]
  rw [if_pos hp]
  have h1 : prev.S it.src + it.score + d.muts.noGap
      + d.muts.sub it.base (d.seq.getD (p - 1) 0) ≤
      ((d.ss z).incomingEmit.foldl
        (fun f it2 => updf f z (max (f z)
          (prev.S it2.src + it2.score + d.muts.noGap
            + d.muts.sub it2.base (d.seq.getD (p - 1) 0))))
        cur.S) z :=
    foldS1_term_ge z
      (fun it2 => prev.S it2.src + it2.score + d.muts.noGap
        + d.muts.sub it2.base (d.seq.getD (p - 1) 0))
      (d.ss z).incomingEmit it hit cur.S
  have h2 := le_trans h1 (foldUpdf_ge z (fun f it2 => f it2.src + it2.score)
    (d.ss z).incomingNull _ z)
  split
  · dsimp only
    refine le_trans h2 ?_
    rw [updf_same]
    exact le_max_left _ _
  · exact h2

theorem visitState_S_T_ge (d : DPIn) (prev : Col) (p : ℕ) (cur : Col) (z : ℕ)
    (hcond : 0 < d.mdlAt z ∧ 0 < p) :
    prev.T z 0 + d.muts.sub (tanDupBase (d.ss z) 0) (d.seq.getD (p - 1) 0)
      ≤ (visitState d prev p cur z).S z := by
  simp only [visitState]
  rw [if_pos hcond]
  dsimp only
  rw [updf_same]
  exact le_max_right _ _

theorem foldVisit_S_emit_ge (d : DPIn) (prev : Col) (p : ℕ) (order : List ℕ)
    (cur : Col) (z : ℕ) (hz : z ∈ order) (hp : 0 < p)
    (it : IncomingTransScore Score) (hit : it ∈ (d.ss z).incomingEmit) :
    prev.S it.src + it.score + d.muts.noGap
        + d.muts.sub it.base (d.seq.getD (p - 1) 0)
      ≤ (order.foldl (visitState d prev p) cur).S z := by
  induction order generalizing cur with
  | nil => exact absurd hz (List.not_mem_nil z)
  | cons z0 rest ih =>
    rw [List.foldl_cons]
    rcases List.mem_cons.mp hz with he | hm
    · refine le_trans ?_ (foldVisit_S_ge d prev p rest _ z)
      rw [he]
      exact visitState_S_emit_ge d prev p cur z0 hp it (he ▸ hit)
    · exact ih _ hm

theorem foldVisit_S_T_ge (d : DPIn) (prev : Col) (p : ℕ) (order : List ℕ)
    (cur : Col) (z : ℕ) (hz : z ∈ order) (hcond : 0 < d.mdlAt z ∧ 0 < p) :
    prev.T z 0 + d.muts.sub (tanDupBase (d.ss z) 0) (d.seq.getD (p - 1) 0)
      ≤ (order.foldl (visitState d prev p) cur).S z := by
  induction order generalizing cur with
  | nil => exact absurd hz (List.not_mem_nil z)
  | cons z0 rest ih =>
    rw [List.foldl_cons]
    rcases List.mem_cons.mp hz with he | hm
    · refine le_trans ?_ (foldVisit_S_ge d prev p rest _ z)
      rw [he]
      exact visitState_S_T_ge d prev p cur z0 (he ▸ hcond)
    · exact ih _ hm

theorem buildColumn_S_ge_A (d : DPIn) (fuel : ℕ) (prev : Col) (p : ℕ)
    (cur0 : Col) (x : ℕ) :
    (d.stateOrder.foldl (visitState d prev p) cur0).S x
      ≤ (buildColumn d fuel prev p cur0).1.S x := by
  rw [buildColumn_S]
  exact closureRun_S_ge d fuel
    ⟨(d.stateOrder.foldl (visitState d prev p) cur0).S,
     (d.stateOrder.foldl (visitState d prev p) cur0).D,
     d.stateOrder.reverse, fun s => decide (s < d.nStates)⟩ x

theorem buildColumn_closed (d : DPIn) (hwf : wfDP d) (fuel : ℕ) (prev : Col)
    (p : ℕ) (cur0 : Col)
    (hdone : (buildColumn d fuel prev p cur0).2 = true) :
    ClosedSD d (buildColumn d fuel prev p cur0).1.S
      (buildColumn d fuel prev p cur0).1.D := by
  rw [buildColumn_done] at hdone
  have hws := of_decide_eq_true hdone
  have hcl := closure_done_closed d hwf fuel
    ⟨(d.stateOrder.foldl (visitState d prev p) cur0).S,
     (d.stateOrder.foldl (visitState d prev p) cur0).D,
     d.stateOrder.reverse, fun s => decide (s < d.nStates)⟩
    (seed_runInv d hwf _ _) hws
  rw [buildColumn_S, buildColumn_D]
  exact hcl

theorem achS_mono (d : DPIn) (prev cur0 : Col) (p : ℕ) (S D Sb Db : ℕ → Score)
    (s : ℕ) (h : achS d prev cur0 p S D s) (hS : ∀ x, S x ≤ Sb x)
    (hD : ∀ x, D x ≤ Db x) (hv : Sb s = S s) : achS d prev cur0 p Sb Db s := by
  rcases h with h | h | ⟨hp, it, hit, h⟩ | ⟨it, hit, h⟩ | h | ⟨h1, h2, h⟩
  · exact Or.inl (by rw [hv]; exact h)
  · exact Or.inr (Or.inl (by rw [hv]; exact h))
  · exact Or.inr (Or.inr (Or.inl ⟨hp, it, hit, by rw [hv]; exact h⟩))
  · refine Or.inr (Or.inr (Or.inr (Or.inl ⟨it, hit, ?_⟩)))
    rw [hv]
    exact le_trans h (add_le_add_right
      (max_le_max (hS it.src) (add_le_add_right (hD it.src) _)) _)
  · refine Or.inr (Or.inr (Or.inr (Or.inr (Or.inl ?_))))
    rw [hv]
    exact le_trans h (add_le_add_right (hD s) _)
  · exact Or.inr (Or.inr (Or.inr (Or.inr (Or.inr
      ⟨h1, h2, by rw [hv]; exact h⟩))))

theorem achD_mono (d : DPIn) (S D Sb Db : ℕ → Score) (s : ℕ)
    (h : achD d S D s) (hS : ∀ x, S x ≤ Sb x) (hD : ∀ x, D x ≤ Db x)
    (hv : Db s = D s) : achD d Sb Db s := by
  rcases h with h | ⟨it, hit, h⟩ | ⟨it, hit, h⟩
  · exact Or.inl (by rw [hv]; exact h)
  · refine Or.inr (Or.inl ⟨it, hit, ?_⟩)
    rw [hv]
    exact le_trans h (add_le_add_right
      (max_le_max (add_le_add_right (hD it.src) _) (add_le_add_right (hS it.src) _)) _)
  · refine Or.inr (Or.inr ⟨it, hit, ?_⟩)
    rw [hv]
    exact le_trans h (add_le_add_right (hD it.src) _)

theorem foldS1_ach (d : DPIn) (prev cur0 : Col) (p : ℕ) (z : ℕ) (hp : 0 < p)
    (D : ℕ → Score) (l : List (IncomingTransScore Score))
    (hl : ∀ it ∈ l, it ∈ (d.ss z).incomingEmit) :
    ∀ f, achS d prev cur0 p f D z →
      achS d prev cur0 p
        (l.foldl (fun f it => updf f z (max (f z)
          (prev.S it.src + it.score + d.muts.noGap
            + d.muts.sub it.base (d.seq.getD (p - 1) 0)))) f) D z := by
  induction l with
  | nil => exact fun f h => h
  | cons it0 rest ih =>
    intro f h
    rw [List.foldl_cons]
    refine ih (fun it2 h2 => hl it2 (List.mem_cons_of_mem _ h2)) _ ?_
    rcases max_choice (f z) (prev.S it0.src + it0.score + d.muts.noGap
      + d.muts.sub it0.base (d.seq.getD (p - 1) 0)) with hmx | hmx
    · refine achS_mono d prev cur0 p f D _ D z h
        (updf_ge f z _ (le_max_left _ _)) (fun x => le_refl _) ?_
      rw [updf_same, hmx]
    · refine Or.inr (Or.inr (Or.inl ⟨hp, it0, hl it0 (List.mem_cons_self _ _), ?_⟩))
      rw [updf_same, hmx]

theorem foldS2_ach (d : DPIn) (prev cur0 : Col) (p : ℕ) (z : ℕ)
    (D : ℕ → Score) (l : List (IncomingTransScore Score))
    (hl : ∀ it ∈ l, it ∈ (d.ss z).incomingNull) :
    ∀ f, achS d prev cur0 p f D z →
      achS d prev cur0 p
        (l.foldl (fun f it => updf f z (max (f z) (f it.src + it.score))) f)
        D z := by
  induction l with
  | nil => exact fun f h => h
  | cons it0 rest ih =>
    intro f h
    rw [List.foldl_cons]
    refine ih (fun it2 h2 => hl it2 (List.mem_cons_of_mem _ h2)) _ ?_
    rcases max_choice (f z) (f it0.src + it0.score) with hmx | hmx
    · refine achS_mono d prev cur0 p f D _ D z h
        (updf_ge f z _ (le_max_left _ _)) (fun x => le_refl _) ?_
      rw [updf_same, hmx]
    · refine Or.inr (Or.inr (Or.inr (Or.inl
        ⟨it0, hl it0 (List.mem_cons_self _ _), ?_⟩)))
      rw [updf_same, hmx]
      exact le_trans (add_le_add_right (updf_ge f z (f it0.src + it0.score)
          (by rw [← hmx]; exact le_max_left _ _) it0.src) _)
        (add_le_add_right (le_max_left _ _) _)

theorem visitState_ach (d : DPIn) (prev cur0 : Col) (p : ℕ) (cur : Col) (z : ℕ)
    (h : ∀ s, achS d prev cur0 p cur.S cur.D s ∧ achD d cur.S cur.D s) :
    ∀ s, achS d prev cur0 p (visitState d prev p cur z).S
        (visitState d prev p cur z).D s
      ∧ achD d (visitState d prev p cur z).S (visitState d prev p cur z).D s := by
  intro s
  constructor
  · by_cases hs : s = z
    · subst hs
      have hF1 : achS d prev cur0 p
          (if 0 < p then
            (d.ss s).incomingEmit.foldl
              (fun f it => updf f s (max (f s)
                (prev.S it.src + it.score + d.muts.noGap
                  + d.muts.sub it.base (d.seq.getD (p - 1) 0))))
              cur.S
           else cur.S) cur.D s := by
        by_cases hp : 0 < p
        · rw [if_pos hp]
          exact foldS1_ach d prev cur0 p s hp cur.D (d.ss s).incomingEmit
            (fun it h2 => h2) cur.S (h s).1
        · rw [if_neg hp]
          exact (h s).1
      have hF2 := foldS2_ach d prev cur0 p s cur.D (d.ss s).incomingNull
        (fun it h2 => h2) _ hF1
      simp only [visitState]
      split
      · next hcond =>
        dsimp only
        rcases max_choice
          (((d.ss s).incomingNull.foldl
            (fun f it => updf f s (max (f s) (f it.src + it.score)))
            (if 0 < p then
              (d.ss s).incomingEmit.foldl
                (fun f it => updf f s (max (f s)
                  (prev.S it.src + it.score + d.muts.noGap
                    + d.muts.sub it.base (d.seq.getD (p - 1) 0))))
                cur.S
             else cur.S)) s)
          (prev.T s 0 + d.muts.sub (tanDupBase (d.ss s) 0) (d.seq.getD (p - 1) 0))
          with hmx | hmx
        · refine achS_mono d prev cur0 p _ cur.D _ cur.D s hF2
            (updf_ge _ s _ (le_max_left _ _)) (fun x => le_refl _) ?_
          rw [updf_same, hmx]
        · refine Or.inr (Or.inr (Or.inr (Or.inr (Or.inr
            ⟨hcond.1, hcond.2, ?_⟩))))
          rw [updf_same, hmx]
      · dsimp only
        exact hF2
    · refine achS_mono d prev cur0 p cur.S cur.D _ _ s (h s).1
        (visitState_S_ge d prev p cur z) ?_ ?_
      · rw [visitState_D]
        exact fun x => le_refl _
      · exact visitState_S_other d prev p cur z s hs
  · refine achD_mono d cur.S cur.D _ _ s (h s).2
      (visitState_S_ge d prev p cur z) ?_ ?_
    · rw [visitState_D]
      exact fun x => le_refl _
    · rw [visitState_D]

theorem foldVisit_ach (d : DPIn) (prev cur0 : Col) (p : ℕ) (order : List ℕ)
    (h0 : ∀ s, cur0.D s = ⊥) :
    ∀ s, achS d prev cur0 p
        (order.foldl (visitState d prev p) cur0).S
        (order.foldl (visitState d prev p) cur0).D s
      ∧ achD d (order.foldl (visitState d prev p) cur0).S
        (order.foldl (visitState d prev p) cur0).D s := by
  refine foldl_pres
    (fun cur : Col => ∀ s, achS d prev cur0 p cur.S cur.D s
      ∧ achD d cur.S cur.D s)
    (visitState d prev p) order
    (fun cur z _ hC => visitState_ach d prev cur0 p cur z hC) cur0 ?_
  intro s
  exact ⟨Or.inr (Or.inl (le_refl _)), Or.inl (h0 s)⟩

theorem emitRelax_achQ (d : DPIn) (hco : cohOut d) (prev cur0 : Col) (p : ℕ)
    (s : ℕ) (hsN : s < d.nStates) (dsrc ssrc : Score) (acc : CState)
    (ot : OutgoingTransScore Score) (hot : ot ∈ (d.ss s).outgoingEmit)
    (hQ : achQ d prev cur0 p s dsrc ssrc acc) :
    achQ d prev cur0 p s dsrc ssrc (emitRelax d dsrc ssrc acc ot) := by
  obtain ⟨hach, hld, hls⟩ := hQ
  rw [emitRelax]
  split
  · next himp =>
    have hDg : ∀ x, acc.D x ≤ updf acc.D ot.dest
        (max (dsrc + d.muts.delExtend) (ssrc + d.muts.delOpen) + ot.score) x :=
      updf_ge _ _ _ (le_of_lt himp)
    refine ⟨?_, le_trans hld (hDg s), hls⟩
    intro t
    constructor
    · exact achS_mono d prev cur0 p acc.S acc.D acc.S _ t (hach t).1
        (fun x => le_refl _) hDg rfl
    · by_cases ht : t = ot.dest
      · subst ht
        obtain ⟨it, hit, hsrc, hsc⟩ := hco.1 s hsN ot hot
        refine Or.inr (Or.inl ⟨it, hit, ?_⟩)
        dsimp only
        rw [hsrc, hsc, updf_same]
        exact add_le_add_right (max_le_max
          (add_le_add_right (le_trans hld (hDg s)) _)
          (add_le_add_right hls _)) _
      · exact achD_mono d acc.S acc.D acc.S _ t (hach t).2
          (fun x => le_refl _) hDg (updf_other _ _ _ _ ht)
  · exact ⟨hach, hld, hls⟩

theorem nullRelax_achQ (d : DPIn) (hco : cohOut d) (prev cur0 : Col) (p : ℕ)
    (s : ℕ) (hsN : s < d.nStates) (dsrc ssrc : Score) (acc : CState)
    (ot : OutgoingTransScore Score) (hot : ot ∈ (d.ss s).outgoingNull)
    (hQ : achQ d prev cur0 p s dsrc ssrc acc) :
    achQ d prev cur0 p s dsrc ssrc (nullRelax dsrc ssrc acc ot) := by
  obtain ⟨hach, hld, hls⟩ := hQ
  obtain ⟨it, hit, hsrc, hsc⟩ := hco.2 s hsN ot hot
  rw [nullRelax]
  split
  · next hD1 =>
    have hDg : ∀ x, acc.D x ≤ updf acc.D ot.dest (dsrc + ot.score) x :=
      updf_ge _ _ _ (le_of_lt hD1)
    split
    · next hS1 =>
      have hSg : ∀ x, acc.S x ≤ updf acc.S ot.dest (ssrc + ot.score) x :=
        updf_ge _ _ _ (le_of_lt hS1)
      refine ⟨?_, le_trans hld (hDg s), le_trans hls (hSg s)⟩
      intro t
      constructor
      · by_cases ht : t = ot.dest
        · subst ht
          refine Or.inr (Or.inr (Or.inr (Or.inl ⟨it, hit, ?_⟩)))
          dsimp only
          rw [hsrc, hsc, updf_same]
          exact le_trans (add_le_add_right (le_trans hls (hSg s)) _)
            (add_le_add_right (le_max_left _ _) _)
        · exact achS_mono d prev cur0 p acc.S acc.D _ _ t (hach t).1
            hSg hDg (updf_other _ _ _ _ ht)
      · by_cases ht : t = ot.dest
        · subst ht
          refine Or.inr (Or.inr ⟨it, hit, ?_⟩)
          dsimp only
          rw [hsrc, hsc, updf_same]
          exact add_le_add_right (le_trans hld (hDg s)) _
        · exact achD_mono d acc.S acc.D _ _ t (hach t).2
            hSg hDg (updf_other _ _ _ _ ht)
    · refine ⟨?_, le_trans hld (hDg s), hls⟩
      intro t
      constructor
      · exact achS_mono d prev cur0 p acc.S acc.D acc.S _ t (hach t).1
          (fun x => le_refl _) hDg rfl
      · by_cases ht : t = ot.dest
        · subst ht
          refine Or.inr (Or.inr ⟨it, hit, ?_⟩)
          dsimp only
          rw [hsrc, hsc, updf_same]
          exact add_le_add_right (le_trans hld (hDg s)) _
        · exact achD_mono d acc.S acc.D acc.S _ t (hach t).2
            (fun x => le_refl _) hDg (updf_other _ _ _ _ ht)
  · split
    · next hS1 =>
      have hSg : ∀ x, acc.S x ≤ updf acc.S ot.dest (ssrc + ot.score) x :=
        updf_ge _ _ _ (le_of_lt hS1)
      refine ⟨?_, hld, le_trans hls (hSg s)⟩
      intro t
      constructor
      · by_cases ht : t = ot.dest
        · subst ht
          refine Or.inr (Or.inr (Or.inr (Or.inl ⟨it, hit, ?_⟩)))
          dsimp only
          rw [hsrc, hsc, updf_same]
          exact le_trans (add_le_add_right (le_trans hls (hSg s)) _)
            (add_le_add_right (le_max_left _ _) _)
        · exact achS_mono d prev cur0 p acc.S acc.D _ acc.D t (hach t).1
            hSg (fun x => le_refl _) (updf_other _ _ _ _ ht)
      · exact achD_mono d acc.S acc.D _ acc.D t (hach t).2
          hSg (fun x => le_refl _) rfl
    · exact ⟨hach, hld, hls⟩

theorem closureStep_ach (d : DPIn) ( _hwf : wfDP d) (hco : cohOut d)
    (prev cur0 : Col) (p : ℕ) (st : CState)
    (hach : ∀ t, achS d prev cur0 p st.S st.D t ∧ achD d st.S st.D t)
    (hws : ∀ t ∈ st.ws, t < d.nStates) :
    ∀ t, achS d prev cur0 p (closureStep d st).S (closureStep d st).D t
      ∧ achD d (closureStep d st).S (closureStep d st).D t := by
  obtain ⟨S0, D0, ws0, os0⟩ := st
  cases ws0 with
  | nil => exact hach
  | cons s rest =>
    rw [closureStep_cons]
    have hsN : s < d.nStates := hws s (List.mem_cons_self _ _)
    have hach1 : ∀ t, achS d prev cur0 p
        (updf S0 s (max (S0 s) (D0 s + d.muts.delEnd))) D0 t
        ∧ achD d (updf S0 s (max (S0 s) (D0 s + d.muts.delEnd))) D0 t := by
      intro t
      have hSg : ∀ x, S0 x ≤ updf S0 s (max (S0 s) (D0 s + d.muts.delEnd)) x :=
        updf_ge _ _ _ (le_max_left _ _)
      constructor
      · by_cases ht : t = s
        · subst ht
          rcases max_choice (S0 t) (D0 t + d.muts.delEnd) with hmx | hmx
          · refine achS_mono d prev cur0 p S0 D0 _ D0 t (hach t).1
              hSg (fun x => le_refl _) ?_
            rw [updf_same, hmx]
          · refine Or.inr (Or.inr (Or.inr (Or.inr (Or.inl ?_))))
            rw [updf_same, hmx]
        · exact achS_mono d prev cur0 p S0 D0 _ D0 t (hach t).1
            hSg (fun x => le_refl _) (updf_other _ _ _ _ ht)
      · exact achD_mono d S0 D0 _ D0 t (hach t).2 hSg (fun x => le_refl _) rfl
    have hfold := foldl_pres
      (achQ d prev cur0 p s (D0 s) (max (S0 s) (D0 s + d.muts.delEnd)))
      (nullRelax (D0 s) (max (S0 s) (D0 s + d.muts.delEnd)))
      (d.ss s).outgoingNull
      (fun acc ot hot h =>
        nullRelax_achQ d hco prev cur0 p s hsN _ _ acc ot hot h)
      _
      (foldl_pres
        (achQ d prev cur0 p s (D0 s) (max (S0 s) (D0 s + d.muts.delEnd)))
        (emitRelax d (D0 s) (max (S0 s) (D0 s + d.muts.delEnd)))
        (d.ss s).outgoingEmit
        (fun acc ot hot h =>
          emitRelax_achQ d hco prev cur0 p s hsN _ _ acc ot hot h)
        ⟨updf S0 s (max (S0 s) (D0 s + d.muts.delEnd)), D0, rest,
         updf os0 s false⟩
        ⟨hach1, le_refl _, le_of_eq (updf_same _ _ _).symm⟩)
    exact hfold.1

theorem closureRun_ach (d : DPIn) (hwf : wfDP d) (hco : cohOut d)
    (prev cur0 : Col) (p : ℕ) (n : ℕ) (st : CState)
    (hach : ∀ t, achS d prev cur0 p st.S st.D t ∧ achD d st.S st.D t)
    (hws : ∀ t ∈ st.ws, t < d.nStates) :
    ∀ t, achS d prev cur0 p (closureRun d n st).S (closureRun d n st).D t
      ∧ achD d (closureRun d n st).S (closureRun d n st).D t := by
  induction n generalizing st with
  | zero => exact hach
  | succ n ih =>
    rw [closureRun_succ]
    exact ih (closureStep d st)
      (closureStep_ach d hwf hco prev cur0 p st hach hws)
      (closureStep_ws_lt d hwf st hws)

theorem buildColumn_ach (d : DPIn) (hwf : wfDP d) (hco : cohOut d) (fuel : ℕ)
    (prev : Col) (p : ℕ) (cur0 : Col) (h0 : ∀ s, cur0.D s = ⊥) :
    ∀ t, achS d prev cur0 p (buildColumn d fuel prev p cur0).1.S
        (buildColumn d fuel prev p cur0).1.D t
      ∧ achD d (buildColumn d fuel prev p cur0).1.S
        (buildColumn d fuel prev p cur0).1.D t := by
  rw [buildColumn_S, buildColumn_D]
  refine closureRun_ach d hwf hco prev cur0 p fuel
    ⟨(d.stateOrder.foldl (visitState d prev p) cur0).S,
     (d.stateOrder.foldl (visitState d prev p) cur0).D,
     d.stateOrder.reverse, fun s => decide (s < d.nStates)⟩
    ?_ (fun t ht => hwf.2.2.1 t (List.mem_reverse.mp ht))
  exact foldVisit_ach d prev cur0 p d.stateOrder h0

theorem finalCols_global (d : DPIn) (hglob : d.localMode = false) (fuel : ℕ) :
    finalCols d fuel = (fillCols d fuel).map Prod.fst := by
  simp only [finalCols]
  rw [if_neg (by rw [hglob]; exact Bool.false_ne_true)]

theorem castSub1 (q : ℕ) : ((q + 1 : ℕ) : ℤ) - 1 = (q : ℤ) := by
  push_cast
  ring

theorem getCell_S (d : DPIn) (hglob : d.localMode = false) (fuel : ℕ) (s : ℕ)
    (q : ℕ) (hq : q ≤ d.seqLen) :
    getCell d (finalCols d fuel) s (q : ℤ) 0 = (colAt d fuel q).S s := by
  rw [getCell, if_pos ⟨Int.natCast_nonneg q, by exact_mod_cast hq⟩,
    finalCols_global d hglob, Int.toNat_natCast]
  rfl

theorem getCell_D (d : DPIn) (hglob : d.localMode = false) (fuel : ℕ) (s : ℕ)
    (q : ℕ) (hq : q ≤ d.seqLen) :
    getCell d (finalCols d fuel) s (q : ℤ) 1 = (colAt d fuel q).D s := by
  rw [getCell, if_pos ⟨Int.natCast_nonneg q, by exact_mod_cast hq⟩,
    finalCols_global d hglob, Int.toNat_natCast]
  rfl

theorem getCell_T (d : DPIn) (hglob : d.localMode = false) (fuel : ℕ) (s : ℕ)
    (q : ℕ) (hq : q ≤ d.seqLen) (k : ℕ) :
    getCell d (finalCols d fuel) s (q : ℤ) (k + 2) = (colAt d fuel q).T s k := by
  rw [getCell, if_pos ⟨Int.natCast_nonneg q, by exact_mod_cast hq⟩,
    finalCols_global d hglob, Int.toNat_natCast]
  rfl

theorem cands_D (d : DPIn) (z : ℕ) (pos : ℤ) :
    cands d ⟨z, pos, 1⟩
      = ((d.ss z).incomingEmit.flatMap (fun it =>
          [⟨it.src, pos, 1, it.score + d.muts.delExtend, some it.inSym⟩,
           ⟨it.src, pos, 0, it.score + d.muts.delOpen, some it.inSym⟩]))
        ++ (d.ss z).incomingNull.map
            (fun it => ⟨it.src, pos, 1, it.score, some it.inSym⟩) := rfl

theorem cands_S (d : DPIn) (z : ℕ) (pos : ℤ) :
    cands d ⟨z, pos, 0⟩
      = (if 0 < pos then
          (d.ss z).incomingEmit.map
            (fun it => ⟨it.src, pos - 1, 0, it.score + d.muts.noGap
              + d.muts.sub it.base (d.seq.getD (pos - 1).toNat 0), some it.inSym⟩)
         else []) ++
        (d.ss z).incomingNull.map
          (fun it => ⟨it.src, pos, 0, it.score, some it.inSym⟩) ++
        [⟨z, pos, 1, d.muts.delEnd, none⟩] ++
        (if 0 < d.mdlAt z ∧ 0 < pos then
          [⟨z, pos - 1, 2, d.muts.sub (tanDupBase (d.ss z) 0)
            (d.seq.getD (pos - 1).toNat 0), none⟩]
         else []) ++
        (if pos = 0 ∧ d.localMode then [⟨0, 0, 0, 0, none⟩] else []) := rfl

theorem cands_T (d : DPIn) (z : ℕ) (pos : ℤ) (m : ℕ) :
    cands d ⟨z, pos, m + 2⟩
      = (if m < d.mdlAt z - 1 then
          [⟨z, pos - 1, m + 3, d.muts.sub (tanDupBase (d.ss z) (m + 1))
            (d.seq.getD (pos - 1).toNat 0), none⟩]
         else []) ++
        [⟨z, pos, 0, d.muts.tanDup + d.muts.len m, none⟩] := rfl

theorem colAt_closed (d : DPIn) (hwf : wfDP d) (fuel : ℕ)
    (hdone : allClosuresDone d fuel) (p : ℕ) (hp : p ≤ d.seqLen) :
    ClosedSD d (colAt d fuel p).S (colAt d fuel p).D := by
  rw [colAt_eq d fuel p hp]
  cases p with
  | zero =>
    rw [colRec_zero]
    exact buildColumn_closed d hwf fuel botCol 0 (initCol d)
      (by rw [← colRec_zero]; exact allDone_colRec d fuel hdone 0 (Nat.zero_le _))
  | succ q =>
    rw [colRec_succ]
    exact buildColumn_closed d hwf fuel (colRec d fuel q).1 (q + 1) botCol
      (by rw [← colRec_succ]; exact allDone_colRec d fuel hdone (q + 1) hp)

theorem colAt_ach_zero (d : DPIn) (hwf : wfDP d) (hco : cohOut d) (fuel : ℕ) :
    ∀ t, achS d botCol (initCol d) 0 (colAt d fuel 0).S (colAt d fuel 0).D t
      ∧ achD d (colAt d fuel 0).S (colAt d fuel 0).D t := by
  rw [colAt_eq d fuel 0 (Nat.zero_le _), colRec_zero]
  exact buildColumn_ach d hwf hco fuel botCol 0 (initCol d) (fun s => rfl)

theorem colAt_ach_succ (d : DPIn) (hwf : wfDP d) (hco : cohOut d) (fuel : ℕ)
    (q : ℕ) (hq : q + 1 ≤ d.seqLen) :
    ∀ t, achS d (colAt d fuel q) botCol (q + 1) (colAt d fuel (q + 1)).S
        (colAt d fuel (q + 1)).D t
      ∧ achD d (colAt d fuel (q + 1)).S (colAt d fuel (q + 1)).D t := by
  rw [colAt_eq d fuel (q + 1) hq, colRec_succ,
    ← colAt_eq d fuel q (by omega)]
  exact buildColumn_ach d hwf hco fuel (colAt d fuel q) (q + 1) botCol
    (fun s => rfl)

theorem colAt_S_emit_ge (d : DPIn) (hwf : wfDP d) (fuel : ℕ) (q : ℕ)
    (hq : q + 1 ≤ d.seqLen) (z : ℕ) (hz : z < d.nStates)
    (it : IncomingTransScore Score) (hit : it ∈ (d.ss z).incomingEmit) :
    (colAt d fuel q).S it.src + it.score + d.muts.noGap
        + d.muts.sub it.base (d.seq.getD q 0)
      ≤ (colAt d fuel (q + 1)).S z := by
  rw [colAt_eq d fuel (q + 1) hq, colRec_succ, ← colAt_eq d fuel q (by omega)]
  exact le_trans
    (foldVisit_S_emit_ge d (colAt d fuel q) (q + 1) d.stateOrder botCol z
      (hwf.2.1 z hz) (Nat.succ_pos q) it hit)
    (buildColumn_S_ge_A d fuel (colAt d fuel q) (q + 1) botCol z)

theorem colAt_S_T_ge (d : DPIn) (hwf : wfDP d) (fuel : ℕ) (q : ℕ)
    (hq : q + 1 ≤ d.seqLen) (z : ℕ) (hz : z < d.nStates)
    (hm : 0 < d.mdlAt z) :
    (colAt d fuel q).T z 0 + d.muts.sub (tanDupBase (d.ss z) 0) (d.seq.getD q 0)
      ≤ (colAt d fuel (q + 1)).S z := by
  rw [colAt_eq d fuel (q + 1) hq, colRec_succ, ← colAt_eq d fuel q (by omega)]
  exact le_trans
    (foldVisit_S_T_ge d (colAt d fuel q) (q + 1) d.stateOrder botCol z
      (hwf.2.1 z hz) ⟨hm, Nat.succ_pos q⟩)
    (buildColumn_S_ge_A d fuel (colAt d fuel q) (q + 1) botCol z)

theorem tcell_formula (d : DPIn) (fuel : ℕ) (s p k : ℕ)
    (hs : s < d.nStates) (hso : s ∈ d.stateOrder)
    (hp : 0 < p) (hpL : p ≤ d.seqLen) (hk : k < d.mdlAt s) :
    (colAt d fuel p).T s k
      = max (if k < d.mdlAt s - 1
             then (colAt d fuel (p - 1)).T s (k + 1)
                  + d.muts.sub (tanDupBase (d.ss s) (k + 1)) (d.seq.getD (p - 1) 0)
             else ⊥)
            ((colAt d fuel p).S s + d.muts.tanDup + d.muts.len k) := by
  obtain ⟨q, rfl⟩ : ∃ q, p = q + 1 := ⟨p - 1, by omega⟩
  rw [colAt_eq d fuel (q + 1) hpL,
      show colRec d fuel (q + 1)
        = buildColumn d fuel (colRec d fuel q).1 (q + 1) botCol from rfl,
      buildColumn_T, if_pos ⟨Nat.succ_pos q, hs, hk⟩, foldVisit_T]
  simp only [Nat.add_sub_cancel]
  congr 1
  by_cases hk1 : k < d.mdlAt s - 1
  · rw [if_pos ⟨hso, by omega, Nat.succ_pos q, hk1⟩, if_pos hk1,
        colAt_eq d fuel q (by omega)]
  · rw [if_neg (by tauto), if_neg hk1]
    rfl

theorem colAt_T_bot (d : DPIn) (hwf : wfDP d) (fuel : ℕ) (p : ℕ)
    (hp : p ≤ d.seqLen) (z k : ℕ)
    (h : p = 0 ∨ ¬ z < d.nStates ∨ ¬ k < d.mdlAt z) :
    (colAt d fuel p).T z k = ⊥ := by
  have hA : ∀ (prev cur0 : Col), (∀ a b, cur0.T a b = ⊥) →
      (d.stateOrder.foldl (visitState d prev p) cur0).T z k = ⊥ := by
    intro prev cur0 h0
    rw [foldVisit_T]
    split
    · next hc =>
      exfalso
      rcases h with h | h | h
      · omega
      · exact h (hwf.2.2.1 z hc.1)
      · omega
    · exact h0 z k
  have hcond : ¬ (0 < p ∧ z < d.nStates ∧ k < d.mdlAt z) := by
    rcases h with h | h | h
    · omega
    · tauto
    · tauto
  rw [colAt_eq d fuel p hp]
  cases p with
  | zero =>
    rw [colRec_zero, buildColumn_T, if_neg hcond]
    exact hA botCol (initCol d) (fun a b => rfl)
  | succ q =>
    rw [colRec_succ, buildColumn_T, if_neg hcond]
    exact hA (colRec d fuel q).1 botCol (fun a b => rfl)

theorem add_shuffle (a b c : Score) : a + b + c = a + (c + b) := by
  rw [add_assoc, add_comm b c]

theorem dlayer_eq (d : DPIn) (hglob : d.localMode = false) (hwf : wfDP d)
    (hcoI : cohIn d) (hcoO : cohOut d) (fuel : ℕ) (hdone : allClosuresDone d fuel)
    (p : ℕ) (hp : p ≤ d.seqLen) (z : ℕ) (hz : z < d.nStates)
    (hne : (colAt d fuel p).D z ≠ ⊥) :
    (colAt d fuel p).D z
      = maxContrib d (finalCols d fuel) (cands d ⟨z, (p : ℤ), 1⟩) := by
  have hach : achD d (colAt d fuel p).S (colAt d fuel p).D z := by
    cases p with
    | zero => exact (colAt_ach_zero d hwf hcoO fuel z).2
    | succ q => exact (colAt_ach_succ d hwf hcoO fuel q hp z).2
  have hclosed := colAt_closed d hwf fuel hdone p hp
  rw [cands_D]
  refine le_antisymm ?_ ?_
  · rcases hach with hb | ⟨it, hit, hle⟩ | ⟨it, hit, hle⟩
    · exact absurd hb hne
    · rcases max_choice ((colAt d fuel p).D it.src + d.muts.delExtend)
        ((colAt d fuel p).S it.src + d.muts.delOpen) with hmx | hmx
      · refine le_trans hle ?_
        rw [hmx]
        refine le_trans (le_of_eq ?_) (le_maxContrib d _ _
          ⟨it.src, (p : ℤ), 1, it.score + d.muts.delExtend, some it.inSym⟩ ?_)
        · show (colAt d fuel p).D it.src + d.muts.delExtend + it.score
            = getCell d (finalCols d fuel) it.src (p : ℤ) 1
              + (it.score + d.muts.delExtend)
          rw [getCell_D d hglob fuel it.src p hp, add_shuffle]
        · exact List.mem_append_left _
            (List.mem_flatMap.mpr ⟨it, hit, List.mem_cons_self _ _⟩)
      · refine le_trans hle ?_
        rw [hmx]
        refine le_trans (le_of_eq ?_) (le_maxContrib d _ _
          ⟨it.src, (p : ℤ), 0, it.score + d.muts.delOpen, some it.inSym⟩ ?_)
        · show (colAt d fuel p).S it.src + d.muts.delOpen + it.score
            = getCell d (finalCols d fuel) it.src (p : ℤ) 0
              + (it.score + d.muts.delOpen)
          rw [getCell_S d hglob fuel it.src p hp, add_shuffle]
        · exact List.mem_append_left _
            (List.mem_flatMap.mpr ⟨it, hit,
              List.mem_cons_of_mem _ (List.mem_cons_self _ _)⟩)
    · refine le_trans hle ?_
      refine le_trans (le_of_eq ?_) (le_maxContrib d _ _
        ⟨it.src, (p : ℤ), 1, it.score, some it.inSym⟩ ?_)
      · show (colAt d fuel p).D it.src + it.score
          = getCell d (finalCols d fuel) it.src (p : ℤ) 1 + it.score
        rw [getCell_D d hglob fuel it.src p hp]
      · exact List.mem_append_right _ (List.mem_map.mpr ⟨it, hit, rfl⟩)
  · refine maxContrib_le d _ _ _ ?_
    intro c hc
    rcases List.mem_append.mp hc with hc | hc
    · obtain ⟨it, hit, hcm⟩ := List.mem_flatMap.mp hc
      have hsrc : it.src < d.nStates := (wf_ss d hwf z).1 it hit
      have hout := hcoI.1 z hz it hit
      have hcons := (hclosed it.src hsrc).2.1 _ hout
      rcases List.mem_cons.mp hcm with he | hcm2
      · subst he
        show getCell d (finalCols d fuel) it.src (p : ℤ) 1
            + (it.score + d.muts.delExtend) ≤ _
        rw [getCell_D d hglob fuel it.src p hp, ← add_shuffle]
        exact le_trans (add_le_add_right (le_max_left _ _) _) hcons
      · rcases List.mem_cons.mp hcm2 with he | he
        · subst he
          show getCell d (finalCols d fuel) it.src (p : ℤ) 0
              + (it.score + d.muts.delOpen) ≤ _
          rw [getCell_S d hglob fuel it.src p hp, ← add_shuffle]
          exact le_trans (add_le_add_right (le_max_right _ _) _) hcons
        · exact absurd he (List.not_mem_nil c)
    · obtain ⟨it, hit, he⟩ := List.mem_map.mp hc
      subst he
      have hsrc : it.src < d.nStates := (wf_ss d hwf z).2.1 it hit
      have hout := hcoI.2 z hz it hit
      have hcons := ((hclosed it.src hsrc).2.2 _ hout).1
      show getCell d (finalCols d fuel) it.src (p : ℤ) 1 + it.score ≤ _
      rw [getCell_D d hglob fuel it.src p hp]
      exact hcons

theorem initCol_S_global (d : DPIn) (hglob : d.localMode = false) (x : ℕ)
    (hx : ¬ x = 0) : (initCol d).S x = ⊥ := by
  rw [initCol_S, hglob]
  simp [hx]

theorem mem_ite_list {α : Type} (c : Prop) [Decidable c] (l : List α) (a : α)
    (h : a ∈ (if c then l else [])) : c ∧ a ∈ l := by
  split at h
  · next hc => exact ⟨hc, h⟩
  · exact absurd h (List.not_mem_nil a)

theorem contrib_null_S (d : DPIn) (hglob : d.localMode = false) (fuel : ℕ)
    (p : ℕ) (hp : p ≤ d.seqLen) (src : ℕ) (w : Score) (sym : Option Char) :
    contrib d (finalCols d fuel) ⟨src, (p : ℤ), 0, w, sym⟩
      = (colAt d fuel p).S src + w := by
  show getCell d (finalCols d fuel) src (p : ℤ) 0 + w = _
  rw [getCell_S d hglob fuel src p hp]

theorem contrib_null_D (d : DPIn) (hglob : d.localMode = false) (fuel : ℕ)
    (p : ℕ) (hp : p ≤ d.seqLen) (src : ℕ) (w : Score) (sym : Option Char) :
    contrib d (finalCols d fuel) ⟨src, (p : ℤ), 1, w, sym⟩
      = (colAt d fuel p).D src + w := by
  show getCell d (finalCols d fuel) src (p : ℤ) 1 + w = _
  rw [getCell_D d hglob fuel src p hp]

theorem contrib_prev_S (d : DPIn) (hglob : d.localMode = false) (fuel : ℕ)
    (q : ℕ) (hq : q + 1 ≤ d.seqLen) (src : ℕ) (w : Score) (sym : Option Char) :
    contrib d (finalCols d fuel) ⟨src, ((q + 1 : ℕ) : ℤ) - 1, 0, w, sym⟩
      = (colAt d fuel q).S src + w := by
  show getCell d (finalCols d fuel) src (((q + 1 : ℕ) : ℤ) - 1) 0 + w = _
  rw [castSub1, getCell_S d hglob fuel src q (by omega)]

theorem contrib_prev_T (d : DPIn) (hglob : d.localMode = false) (fuel : ℕ)
    (q : ℕ) (hq : q + 1 ≤ d.seqLen) (src : ℕ) (k : ℕ) (w : Score)
    (sym : Option Char) :
    contrib d (finalCols d fuel) ⟨src, ((q + 1 : ℕ) : ℤ) - 1, k + 2, w, sym⟩
      = (colAt d fuel q).T src k + w := by
  show getCell d (finalCols d fuel) src (((q + 1 : ℕ) : ℤ) - 1) (k + 2) + w = _
  rw [castSub1, getCell_T d hglob fuel src q (by omega) k]

theorem seq_getD_cast (d : DPIn) (q : ℕ) :
    d.seq.getD ((((q + 1 : ℕ) : ℤ) - 1).toNat) 0 = d.seq.getD q 0 := by
  rw [castSub1, Int.toNat_natCast]

theorem slayer_eq (d : DPIn) (hglob : d.localMode = false) (hwf : wfDP d)
    (hcoI : cohIn d) (hcoO : cohOut d) (fuel : ℕ) (hdone : allClosuresDone d fuel)
    (p : ℕ) (hp : p ≤ d.seqLen) (z : ℕ) (hz : z < d.nStates) (hz0 : 0 < z)
    (hne : (colAt d fuel p).S z ≠ ⊥) :
    (colAt d fuel p).S z
      = maxContrib d (finalCols d fuel) (cands d ⟨z, (p : ℤ), 0⟩) := by
  have hclosed := colAt_closed d hwf fuel hdone p hp
  have hnullle : ∀ it ∈ (d.ss z).incomingNull,
      max ((colAt d fuel p).S it.src) ((colAt d fuel p).D it.src + d.muts.delEnd)
          + it.score
        = (colAt d fuel p).S it.src + it.score := by
    intro it hit
    have hsrc : it.src < d.nStates := (wf_ss d hwf z).2.1 it hit
    rw [max_eq_left (hclosed it.src hsrc).1]
  rw [cands_S, if_neg (show ¬ ((p : ℤ) = 0 ∧ d.localMode = true) from
    fun h => Bool.false_ne_true (hglob.symm.trans h.2))]
  have hach : achS d (if p = 0 then botCol else colAt d fuel (p - 1))
      (if p = 0 then initCol d else botCol) p
      (colAt d fuel p).S (colAt d fuel p).D z := by
    cases p with
    | zero => exact (colAt_ach_zero d hwf hcoO fuel z).1
    | succ q =>
      have h2 := (colAt_ach_succ d hwf hcoO fuel q hp z).1
      rw [show (if q + 1 = 0 then botCol else colAt d fuel (q + 1 - 1))
          = colAt d fuel q from by
            rw [if_neg (Nat.succ_ne_zero q), Nat.add_sub_cancel],
        show (if q + 1 = 0 then initCol d else botCol) = botCol from
          by rw [if_neg (Nat.succ_ne_zero q)]]
      exact h2
  refine le_antisymm ?_ ?_
  · rcases hach with hb | hle | ⟨hp0, it, hit, hle⟩ | ⟨it, hit, hle⟩ | hle
      | ⟨hm, hp0, hle⟩
    · exact absurd hb hne
    · exfalso
      cases p with
      | zero =>
        rw [if_pos rfl] at hle
        rw [initCol_S_global d hglob z (by omega)] at hle
        exact hne (le_bot_iff.mp hle)
      | succ q =>
        rw [if_neg (Nat.succ_ne_zero q)] at hle
        exact hne (le_bot_iff.mp hle)
    · obtain ⟨q, rfl⟩ : ∃ q, p = q + 1 := ⟨p - 1, by omega⟩
      rw [if_neg (Nat.succ_ne_zero q), Nat.add_sub_cancel] at hle
      refine le_trans hle (le_trans (le_of_eq ?_) (le_maxContrib d _ _
        ⟨it.src, ((q + 1 : ℕ) : ℤ) - 1, 0, it.score + d.muts.noGap
          + d.muts.sub it.base (d.seq.getD ((((q + 1 : ℕ) : ℤ) - 1).toNat) 0),
          some it.inSym⟩ ?_))
      · rw [contrib_prev_S d hglob fuel q hp it.src _ _, seq_getD_cast,
          ← add_assoc, ← add_assoc]
      · refine List.mem_append_left _ (List.mem_append_left _
          (List.mem_append_left _ (List.mem_append_left _ ?_)))
        rw [if_pos (by exact_mod_cast Nat.succ_pos q)]
        exact List.mem_map.mpr ⟨it, hit, by rw [seq_getD_cast]⟩
    · refine le_trans hle (le_trans (le_of_eq ?_) (le_maxContrib d _ _
        ⟨it.src, (p : ℤ), 0, it.score, some it.inSym⟩ ?_))
      · rw [hnullle it hit, contrib_null_S d hglob fuel p hp it.src _ _]
      · exact List.mem_append_left _ (List.mem_append_left _
          (List.mem_append_left _ (List.mem_append_right _
            (List.mem_map.mpr ⟨it, hit, rfl⟩))))
    · refine le_trans hle (le_trans (le_of_eq ?_) (le_maxContrib d _ _
        ⟨z, (p : ℤ), 1, d.muts.delEnd, none⟩ ?_))
      · rw [contrib_null_D d hglob fuel p hp z _ _]
      · exact List.mem_append_left _ (List.mem_append_left _
          (List.mem_append_right _ (List.mem_cons_self _ _)))
    · obtain ⟨q, rfl⟩ : ∃ q, p = q + 1 := ⟨p - 1, by omega⟩
      rw [if_neg (Nat.succ_ne_zero q), Nat.add_sub_cancel] at hle
      refine le_trans hle (le_trans (le_of_eq ?_) (le_maxContrib d _ _
        ⟨z, ((q + 1 : ℕ) : ℤ) - 1, 2,
          d.muts.sub (tanDupBase (d.ss z) 0)
            (d.seq.getD ((((q + 1 : ℕ) : ℤ) - 1).toNat) 0), none⟩ ?_))
      · rw [show (2 : ℕ) = 0 + 2 from rfl,
          contrib_prev_T d hglob fuel q hp z 0 _ _, seq_getD_cast]
      · refine List.mem_append_left _ (List.mem_append_right _ ?_)
        rw [if_pos ⟨hm, by exact_mod_cast Nat.succ_pos q⟩]
        exact List.mem_cons_self _ _
  · refine maxContrib_le d _ _ _ ?_
    intro c hc
    rcases List.mem_append.mp hc with hc | hc
    · rcases List.mem_append.mp hc with hc | hc
      · rcases List.mem_append.mp hc with hc | hc
        · rcases List.mem_append.mp hc with hc | hc
          · obtain ⟨hpos, hc2⟩ := mem_ite_list _ _ c hc
            obtain ⟨it, hit, he⟩ := List.mem_map.mp hc2
            obtain ⟨q, rfl⟩ : ∃ q, p = q + 1 := by
              refine ⟨p - 1, ?_⟩
              have h0 : p ≠ 0 := by
                intro h0
                rw [h0] at hpos
                exact absurd hpos (by norm_num)
              omega
            rw [← he, contrib_prev_S d hglob fuel q hp it.src _ _, seq_getD_cast,
              ← add_assoc, ← add_assoc]
            exact colAt_S_emit_ge d hwf fuel q hp z hz it hit
          · obtain ⟨it, hit, he⟩ := List.mem_map.mp hc
            rw [← he, contrib_null_S d hglob fuel p hp it.src _ _]
            have hsrc : it.src < d.nStates := (wf_ss d hwf z).2.1 it hit
            exact ((hclosed it.src hsrc).2.2 _ (hcoI.2 z hz it hit)).2
        · rw [List.mem_singleton.mp hc,
            contrib_null_D d hglob fuel p hp z _ _]
          exact (hclosed z hz).1
      · obtain ⟨hg, hc2⟩ := mem_ite_list _ _ c hc
        obtain ⟨q, rfl⟩ : ∃ q, p = q + 1 := by
          refine ⟨p - 1, ?_⟩
          have h0 : p ≠ 0 := by
            intro h0
            rw [h0] at hg
            exact absurd hg.2 (by norm_num)
          omega
        rw [List.mem_singleton.mp hc2, show (2 : ℕ) = 0 + 2 from rfl,
          contrib_prev_T d hglob fuel q hp z 0 _ _, seq_getD_cast]
        exact colAt_S_T_ge d hwf fuel q hp z hz hg.1
    · exact absurd hc (List.not_mem_nil c)

theorem tlayer_eq (d : DPIn) (hglob : d.localMode = false) (hwf : wfDP d)
    (fuel : ℕ) (p : ℕ) (hp : p ≤ d.seqLen) (z m : ℕ) (hz : z < d.nStates)
    (hne : (colAt d fuel p).T z m ≠ ⊥) :
    (colAt d fuel p).T z m
      = maxContrib d (finalCols d fuel) (cands d ⟨z, (p : ℤ), m + 2⟩) := by
  have hp0 : p ≠ 0 := fun h =>
    hne (colAt_T_bot d hwf fuel p hp z m (Or.inl h))
  have hm : m < d.mdlAt z := by
    by_contra hm
    exact hne (colAt_T_bot d hwf fuel p hp z m (Or.inr (Or.inr hm)))
  obtain ⟨q, rfl⟩ : ∃ q, p = q + 1 := ⟨p - 1, by omega⟩
  rw [tcell_formula d fuel z (q + 1) m hz (hwf.2.1 z hz) (Nat.succ_pos q) hp hm,
    cands_T]
  simp only [Nat.add_sub_cancel]
  by_cases hk : m < d.mdlAt z - 1
  · rw [if_pos hk, if_pos hk, List.singleton_append, maxContrib_cons,
      maxContrib_cons, show maxContrib d (finalCols d fuel) [] = ⊥ from rfl,
      max_eq_left bot_le]
    congr 1
    · rw [show (m + 3 : ℕ) = (m + 1) + 2 from rfl,
        contrib_prev_T d hglob fuel q hp z (m + 1) _ _, seq_getD_cast]
    · rw [contrib_null_S d hglob fuel (q + 1) hp z _ _, ← add_assoc]
  · rw [if_neg hk, if_neg hk, List.nil_append, maxContrib_cons,
      show maxContrib d (finalCols d fuel) [] = ⊥ from rfl,
      max_eq_left bot_le, max_eq_right bot_le,
      contrib_null_S d hglob fuel (q + 1) hp z _ _, ← add_assoc]

theorem step_eq (d : DPIn) (hglob : d.localMode = false) (hwf : wfDP d)
    (hcoI : cohIn d) (hcoO : cohOut d) (fuel : ℕ)
    (hdone : allClosuresDone d fuel) (cfg : TbCfg)
    (hs : cfg.state < d.nStates) (h0 : 0 < cfg.state)
    (hne : getCell d (finalCols d fuel) cfg.state cfg.pos cfg.mutState ≠ ⊥) :
    getCell d (finalCols d fuel) cfg.state cfg.pos cfg.mutState
      = maxContrib d (finalCols d fuel) (cands d cfg) := by
  obtain ⟨hge, hle⟩ := getCell_ne_bot hne
  obtain ⟨z, pos, m⟩ := cfg
  obtain ⟨P, rfl⟩ : ∃ P : ℕ, pos = (P : ℤ) :=
    ⟨pos.toNat, (Int.toNat_of_nonneg hge).symm⟩
  have hPL : P ≤ d.seqLen := by
    exact_mod_cast show ((P : ℕ) : ℤ) ≤ (d.seqLen : ℤ) from hle
  match m with
  | 0 =>
    rw [getCell_S d hglob fuel z P hPL] at hne ⊢
    exact slayer_eq d hglob hwf hcoI hcoO fuel hdone P hPL z hs h0 hne
  | 1 =>
    rw [getCell_D d hglob fuel z P hPL] at hne ⊢
    exact dlayer_eq d hglob hwf hcoI hcoO fuel hdone P hPL z hs hne
  | (k + 2) =>
    rw [getCell_T d hglob fuel z P hPL k] at hne ⊢
    exact tlayer_eq d hglob hwf fuel P hPL z k hs hne

theorem relCheckB_self (b : Score) (hb : b ≠ ⊥) : relCheckB b b = true := by
  rw [relCheckB, if_neg (fun h => hb (h.elim id id))]
  refine decide_eq_true ?_
  rw [sub_self, zero_div, abs_zero]
  show (0 : ℚ) < tol
  rw [tol]
  norm_num

theorem cands_src_lt (d : DPIn) (hwf : wfDP d) (cfg : TbCfg)
    (hs : cfg.state < d.nStates) (c : Cand) (hc : c ∈ cands d cfg) :
    c.src < d.nStates := by
  obtain ⟨z, pos, m⟩ := cfg
  match m with
  | 0 =>
    rw [cands_S] at hc
    rcases List.mem_append.mp hc with hc | hc
    · rcases List.mem_append.mp hc with hc | hc
      · rcases List.mem_append.mp hc with hc | hc
        · rcases List.mem_append.mp hc with hc | hc
          · obtain ⟨it, hit, he⟩ := List.mem_map.mp (mem_ite_list _ _ c hc).2
            rw [← he]
            exact (wf_ss d hwf z).1 it hit
          · obtain ⟨it, hit, he⟩ := List.mem_map.mp hc
            rw [← he]
            exact (wf_ss d hwf z).2.1 it hit
        · rw [List.mem_singleton.mp hc]
          exact hs
      · rw [List.mem_singleton.mp (mem_ite_list _ _ c hc).2]
        exact hs
    · rw [List.mem_singleton.mp (mem_ite_list _ _ c hc).2]
      exact hwf.2.2.2
  | 1 =>
    rw [cands_D] at hc
    rcases List.mem_append.mp hc with hc | hc
    · obtain ⟨it, hit, hcm⟩ := List.mem_flatMap.mp hc
      rcases List.mem_cons.mp hcm with he | hcm2
      · rw [he]
        exact (wf_ss d hwf z).1 it hit
      · rcases List.mem_cons.mp hcm2 with he | he
        · rw [he]
          exact (wf_ss d hwf z).1 it hit
        · exact absurd he (List.not_mem_nil c)
    · obtain ⟨it, hit, he⟩ := List.mem_map.mp hc
      rw [← he]
      exact (wf_ss d hwf z).2.1 it hit
  | (k + 2) =>
    rw [cands_T] at hc
    rcases List.mem_append.mp hc with hc | hc
    · rw [List.mem_singleton.mp (mem_ite_list _ _ c hc).2]
      exact hs
    · rw [List.mem_singleton.mp hc]
      exact hs

theorem tbLoop_no_fail (d : DPIn) (hglob : d.localMode = false) (hwf : wfDP d)
    (hcoI : cohIn d) (hcoO : cohOut d) (fuel : ℕ)
    (hdone : allClosuresDone d fuel) :
    ∀ (n : ℕ) (cfg : TbCfg) (tr ch : List Char),
      cfg.state < d.nStates →
      getCell d (finalCols d fuel) cfg.state cfg.pos cfg.mutState ≠ ⊥ →
      (tbLoop d (finalCols d fuel) n cfg tr ch).isFail = false := by
  intro n
  induction n with
  | zero =>
    intro cfg tr ch _ _
    rfl
  | succ n ih =>
    intro cfg tr ch hsN hne
    rw [tbLoop]
    by_cases hcond : 0 ≤ cfg.pos ∧ 0 < cfg.state
    · rw [if_pos hcond]
      have heq := step_eq d hglob hwf hcoI hcoO fuel hdone cfg hsN hcond.2 hne
      have hbest : (tbBest d (finalCols d fuel) cfg).best
          = getCell d (finalCols d fuel) cfg.state cfg.pos cfg.mutState := by
        rw [tbBest, foldBest_best d (finalCols d fuel) (cands d cfg) acc0, ← heq]
        exact max_eq_right bot_le
      have hfound : (tbBest d (finalCols d fuel) cfg).found = true := by
        rw [tbBest]
        exact foldBest_found d (finalCols d fuel) (cands d cfg)
          (by rw [← heq]; exact hne)
      have hchk : tbCheck d (finalCols d fuel)
          (tbBest d (finalCols d fuel) cfg) cfg = true := by
        rw [tbCheck, hfound, Bool.and_true, hbest]
        exact relCheckB_self _ hne
      rw [if_pos hchk]
      rcases foldBest_choice d (finalCols d fuel) (cands d cfg) acc0 with
        hch | ⟨c, hcm, hch⟩
      · exfalso
        rw [tbBest, hch] at hfound
        exact Bool.false_ne_true hfound
      · have htb : tbBest d (finalCols d fuel) cfg
            = ⟨contrib d (finalCols d fuel) c, c.src, c.srcPos, c.srcMut,
               c.sym.getD MachineNull, true⟩ := by
          rw [tbBest]
          exact hch
        have h2 : contrib d (finalCols d fuel) c
            = getCell d (finalCols d fuel) cfg.state cfg.pos cfg.mutState := by
          rw [← hbest, htb]
        have hsrc : c.src < d.nStates := cands_src_lt d hwf cfg hsN c hcm
        have hcell : getCell d (finalCols d fuel) c.src c.srcPos c.srcMut ≠ ⊥ := by
          intro hx
          apply hne
          rw [← h2, contrib, hx, WithBot.bot_add]
        rw [htb]
        exact ih _ _ _ hsrc hcell
    · rw [if_neg hcond]
      rfl

/-- C1 counterexample: the claim is false in local mode.  On the machine
`exBad` the final `loglike()` call aliases the accept cell `S[N-1, L]`,
overwriting it with the max over all states; at the very first traceback
step the recomputed best over the predecessors of `(N-1, L, S)` no longer
matches the overwritten stored value, and the `TracebackInconsistent`
assertion fires even though the log-likelihood is finite. -/
theorem c1_counterexample :
    exBad.localMode = true
    ∧ (⊥ : Score) < loglike exBad 30
    ∧ traceback exBad 30 10 = TBOut.fail ⟨4, 2, 0⟩ :=
  ⟨rfl, of_decide_eq_true (by with_unfolding_all rfl),
    of_decide_eq_true (by with_unfolding_all rfl)⟩

/-- C1 (amended to global mode): in global mode, for every well-formed
decoder input with coherent transition tables, enough closure fuel, and any
loop fuel, the traceback never aborts with `TracebackInconsistent`: at each
step the recomputed best over the enumerated predecessors equals the stored
cell exactly (so it passes the 10^-6 relative-tolerance check) and a
predecessor is found.  (The finiteness of the log-likelihood is subsumed:
when it is `-infinity` the traceback bails out before any check.) -/
theorem c1_amended (d : DPIn) (fuel tbfuel : ℕ) (hglob : d.localMode = false)
    (hwf : wfDP d) (hcoI : cohIn d) (hcoO : cohOut d)
    (hdone : allClosuresDone d fuel) :
    (traceback d fuel tbfuel).isFail = false := by
  rw [traceback]
  by_cases hll : ¬ (⊥ < loglike d fuel)
  · rw [if_pos hll]
    rfl
  · rw [if_neg hll]
    push_neg at hll
    have hllb : loglike d fuel ≠ ⊥ := ne_of_gt hll
    rw [hglob, if_neg Bool.false_ne_true]
    have hcc : contrib d (finalCols d fuel)
        ⟨d.nStates - 1, (d.seqLen : ℤ), 0, 0, none⟩ = loglike d fuel := by
      show getCell d (finalCols d fuel) (d.nStates - 1) (d.seqLen : ℤ) 0 + 0
        = loglike d fuel
      rw [add_zero, getCell_S d hglob fuel (d.nStates - 1) d.seqLen (le_refl _)]
      exact (loglike_global d hglob fuel).symm
    have ha : updateBest d (finalCols d fuel) acc0
        ⟨d.nStates - 1, (d.seqLen : ℤ), 0, 0, none⟩
        = ⟨loglike d fuel, d.nStates - 1, (d.seqLen : ℤ), 0, MachineNull, true⟩ := by
      rw [updateBest,
        if_pos (show acc0.best < contrib d (finalCols d fuel)
          ⟨d.nStates - 1, (d.seqLen : ℤ), 0, 0, none⟩ from by rw [hcc]; exact hll)]
      rw [hcc]
      rfl
    rw [ha]
    have hchk : tbCheck d (finalCols d fuel)
        ⟨loglike d fuel, d.nStates - 1, (d.seqLen : ℤ), 0, MachineNull, true⟩
        ⟨d.nStates - 1, (d.seqLen : ℤ), 0⟩ = true := by
      show (relCheckB (loglike d fuel)
          (getCell d (finalCols d fuel) (d.nStates - 1) (d.seqLen : ℤ) 0)
        && true) = true
      rw [Bool.and_true, getCell_S d hglob fuel (d.nStates - 1) d.seqLen (le_refl _),
        ← loglike_global d hglob fuel]
      exact relCheckB_self _ hllb
    rw [if_pos hchk]
    exact tbLoop_no_fail d hglob hwf hcoI hcoO fuel hdone tbfuel
      ⟨d.nStates - 1, (d.seqLen : ℤ), 0⟩ [] []
      (Nat.sub_lt hwf.2.2.2 one_pos)
      (by rw [getCell_S d hglob fuel (d.nStates - 1) d.seqLen (le_refl _),
            ← loglike_global d hglob fuel]
          exact hllb)

theorem c1_amended_witness :
    exG.localMode = false ∧ wfDP exG ∧ cohIn exG ∧ cohOut exG
      ∧ allClosuresDone exG 8
      ∧ (traceback exG 8 10).isFail = false :=
  ⟨rfl, by unfold wfDP; decide,
   by unfold cohIn; exact of_decide_eq_true (by with_unfolding_all rfl),
   by unfold cohOut; exact of_decide_eq_true (by with_unfolding_all rfl),
   of_decide_eq_true (by with_unfolding_all rfl),
   c1_amended exG 8 10 rfl (by unfold wfDP; decide)
     (by unfold cohIn; exact of_decide_eq_true (by with_unfolding_all rfl))
     (by unfold cohOut; exact of_decide_eq_true (by with_unfolding_all rfl))
     (of_decide_eq_true (by with_unfolding_all rfl))⟩

end DnaStore
